import Mathlib

/-! Markov chain engine: embedding of `markov_chain.c` and verified properties.

The C program keeps a registry (a linked list) of uniquely stored states, each
wrapped in a `MarkovNode` that owns a dynamic array of
`(destination, frequency)` entries, and walks that graph at random.

Embedding conventions

* A `MarkovNode *` is an address `Ptr`: the index of the object in the arena
  `State.heap` of all `MarkovNode` objects allocated so far. `malloc` of a
  `MarkovNode` extends the arena by one object.
* A `data_ptr_t` is modelled by the value it points to (type `α`); the value
  `none` stands for `NULL`.
* The linked list is the Lean list of its cells from `first` to `last`
  (following `next`); a `Node *` is the position of the cell in that list.
  Cells are only ever appended, so the position identifies the cell.
* The outcome of every allocation is an explicit argument of the function
  that performs it.
* C `int` values are mathematical integers: signed overflow is undefined
  behaviour in C and lies outside the model. The count of a transition, which
  sequences of calls can take beyond `INT_MAX`, has a second embedding with
  the 32-bit arithmetic of the target (`int_wrap`, the functions `..._int`);
  the two agree as long as the count stays within `INT_MAX`.
* Undefined behaviour and failed assertions are results `Except.error`.
* The values returned by the successive calls of `rand()` are a sequence
  `rand 0, rand 1, ...` given to the functions that draw.
* The callbacks, the corpus loader and the board builder of the two programs
  that use the engine (`tweets_generator.c`, `snakes_and_ladders.c`) live in
  the namespaces `TweetsGenerator` and `SnakesAndLadders`.
* A text stream and a C string are lists of characters without NUL; the
  library functions `fgets` and `strtok` are modelled on such lists.
* A loop without a bound in the source takes a `fuel` argument; the result
  `none` means that the loop is still running when the fuel is used up.
-/

namespace Markov

/-- Address of a `MarkovNode` object (its index in the arena). -/
abbrev Ptr := Nat

/-- Ways in which an execution of the C code can go wrong. -/
inductive Fault where
  | null_dereference
  | invalid_pointer
  | assertion_failed
  | division_by_zero
deriving DecidableEq, Repr

/-- Value of the macro `STRCMP_EQUAL`. -/
def STRCMP_EQUAL : Int := 0

/-- Value of the macro `LINKED_LIST_ADD_FAILED`. -/
def LINKED_LIST_ADD_FAILED : Int := 1

/-- Value of the macro `NOT_IN_ARRAY`. -/
def NOT_IN_ARRAY : Int := -1

/-- Embedding of `struct MarkovNodeFrequency`. -/
structure MarkovNodeFrequency where
  markov_node : Option Ptr
  frequency : Int
deriving DecidableEq, Repr

/-- Embedding of `struct MarkovNode`. The field `frequencies_list` is `none` for
`NULL` and otherwise holds the slots of the allocated block, of which the first
`frequencies_list_size` are in use. -/
structure MarkovNode (α : Type) where
  data : Option α
  frequencies_list : Option (List MarkovNodeFrequency)
  frequencies_list_size : Int
  frequencies_list_max_size : Int
deriving DecidableEq, Repr

/-- Embedding of the linked-list cell `struct Node`: `data` is the `MarkovNode *`
it carries; `next` is the following cell of the list that holds it. -/
structure Node where
  data : Ptr
deriving DecidableEq, Repr

/-- Embedding of `struct LinkedList`: the cells from `first` to `last`, and the
field `size`. -/
structure LinkedList where
  nodes : List Node
  size : Int
deriving DecidableEq, Repr

/-- Embedding of `struct MarkovChain`. -/
structure MarkovChain (α : Type) where
  database : Option LinkedList
  print_func : α → String
  comp_func : α → α → Int
  free_data : α → Unit
  copy_func : α → Option α
  is_last : α → Bool

/-- Program state: the arena of `MarkovNode` objects and the chain object. -/
structure State (α : Type) where
  heap : List (MarkovNode α)
  markov_chain : MarkovChain α

variable {α : Type}

/-- Embedding of `new_markov_chain`. The result of `malloc` is dereferenced
without a check, so a failed allocation is a null dereference. -/
def new_markov_chain (print_func : α → String) (comp_func : α → α → Int)
    (copy_func : α → Option α) (free_data : α → Unit) (is_last : α → Bool)
    (malloc_ok : Bool) : Except Fault (MarkovChain α) :=
  if malloc_ok then
    .ok ⟨none, print_func, comp_func, free_data, copy_func, is_last⟩
  else
    .error .null_dereference

/-- Embedding of `new_markov_node`: the new object is placed at the end of the
arena. A failed `malloc` is dereferenced without a check. -/
def new_markov_node (heap : List (MarkovNode α)) (malloc_ok : Bool) :
    Except Fault (Option Ptr × List (MarkovNode α)) :=
  if malloc_ok then
    .ok (some heap.length, heap ++ [⟨none, none, 0, 0⟩])
  else
    .error .null_dereference

/-- Embedding of `allocate_database`: returns the database pointer (`none` for
`NULL`) and the updated chain. -/
def allocate_database (markov_chain : MarkovChain α) (malloc_ok : Bool) :
    Option LinkedList × MarkovChain α :=
  match markov_chain.database with
  | none =>
    if malloc_ok then
      (some ⟨[], 0⟩, { markov_chain with database := some ⟨[], 0⟩ })
    else
      (none, markov_chain)
  | some database => (some database, markov_chain)

/-- Modelled from the spec: the linked-list function `add` (its file
`linked_list.c` is not part of the sources). The spec's registry container
contract is "ordered append of a node reference; exposes total count; indexable
by position in insertion order". A successful call appends one cell carrying
`data` after the last cell, increments `size` and returns 0; a call whose cell
allocation fails returns `LINKED_LIST_ADD_FAILED` and leaves the list as it was. -/
def add (link_list : LinkedList) (data : Ptr) (malloc_ok : Bool) : Int × LinkedList :=
  if malloc_ok then
    (0, ⟨link_list.nodes ++ [⟨data⟩], link_list.size + 1⟩)
  else
    (LINKED_LIST_ADD_FAILED, link_list)

/-- The `while` loop of `get_node_from_database`: `i` is the position of the
cell `current_node` at the head of the remaining cells. -/
def get_node_from_database_loop (heap : List (MarkovNode α)) (comp_func : α → α → Int)
    (data_ptr : α) : List Node → Nat → Except Fault (Option Nat)
  | [], _ => .ok none
  | current_node :: rest, i =>
    match heap[current_node.data]? with
    | none => .error .invalid_pointer
    | some current_markov_node =>
      match current_markov_node.data with
      | none => .error .null_dereference
      | some d =>
        if comp_func d data_ptr = STRCMP_EQUAL then .ok (some i)
        else get_node_from_database_loop heap comp_func data_ptr rest (i + 1)

/-- Embedding of `get_node_from_database`: the position of the cell found
(`none` for `NULL`), together with the state after the call. -/
def get_node_from_database (st : State α) (data_ptr : α) :
    Except Fault (Option Nat × State α) :=
  match st.markov_chain.database with
  | none => .ok (none, st)
  | some database =>
    match get_node_from_database_loop st.heap st.markov_chain.comp_func data_ptr
        database.nodes 0 with
    | .error f => .error f
    | .ok r => .ok (r, st)

/-- Embedding of `add_to_database`. The three booleans are the outcomes of the
allocations in `allocate_database`, `new_markov_node` and the linked-list `add`. -/
def add_to_database (st : State α) (data_ptr : α) (db_ok node_ok add_ok : Bool) :
    Except Fault (Option Nat × State α) :=
  match allocate_database st.markov_chain db_ok with
  | (none, mc) => .ok (none, ⟨st.heap, mc⟩)
  | (some database, mc) =>
    match get_node_from_database ⟨st.heap, mc⟩ data_ptr with
    | .error f => .error f
    | .ok (some existing_node, st1) => .ok (some existing_node, st1)
    | .ok (none, st1) =>
      match new_markov_node st1.heap node_ok with
      | .error f => .error f
      | .ok (none, heap1) => .ok (none, ⟨heap1, st1.markov_chain⟩)
      | .ok (some markov_node, heap1) =>
        let data := st1.markov_chain.copy_func data_ptr
        let heap2 := heap1.modify (fun n => { n with data := data }) markov_node
        match data with
        | none => .ok (none, ⟨heap2, st1.markov_chain⟩)
        | some _ =>
          match add database markov_node add_ok with
          | (rc, database1) =>
            if rc = LINKED_LIST_ADD_FAILED then
              .ok (none, ⟨heap2, { st1.markov_chain with database := some database1 }⟩)
            else
              .ok (some (database1.nodes.length - 1),
                ⟨heap2, { st1.markov_chain with database := some database1 }⟩)

/-- Semantics of `realloc` on an array of entries: the new block has `n` slots,
the old contents are kept up to the smaller of the two sizes, and every further
slot holds the indeterminate value `junk`. -/
def realloc (block : List MarkovNodeFrequency) (n : Nat) (junk : MarkovNodeFrequency) :
    List MarkovNodeFrequency :=
  (block ++ List.replicate (n - block.length) junk).take n

/-- Embedding of `increase_markov_node_frequency_size`. The argument `alloc` is
the outcome of the allocation: `none` when it fails, `some junk` when it
succeeds, `junk` being the indeterminate content of fresh memory. Returns the
pointer result (`none` for `NULL`) and the updated node. -/
def increase_markov_node_frequency_size (markov_node : MarkovNode α)
    (alloc : Option MarkovNodeFrequency) :
    Option (List MarkovNodeFrequency) × MarkovNode α :=
  match markov_node.frequencies_list with
  | none =>
    match alloc with
    | none => (none, markov_node)
    | some _ =>
      (some [⟨none, 0⟩],
        { markov_node with
          frequencies_list := some [⟨none, 0⟩]
          frequencies_list_max_size := 1
          frequencies_list_size := 0 })
  | some fl =>
    match alloc with
    | none => (none, markov_node)
    | some junk =>
      let realloced := realloc fl (markov_node.frequencies_list_size + 1).toNat junk
      (some realloced,
        { markov_node with
          frequencies_list := some realloced
          frequencies_list_max_size := markov_node.frequencies_list_max_size + 1 })

/-- The `for` loop of `get_node_from_frequencies_list` over the slots in use,
`i` being the index of the slot at the head. -/
def get_node_from_frequencies_list_loop (second_node : Ptr) :
    List MarkovNodeFrequency → Int → Int
  | [], _ => NOT_IN_ARRAY
  | e :: rest, i =>
    if e.markov_node = some second_node then i
    else get_node_from_frequencies_list_loop second_node rest (i + 1)

/-- Embedding of `get_node_from_frequencies_list`. -/
def get_node_from_frequencies_list (first_node : MarkovNode α) (second_node : Ptr) : Int :=
  match first_node.frequencies_list with
  | none => NOT_IN_ARRAY
  | some fl =>
    get_node_from_frequencies_list_loop second_node
      (fl.take first_node.frequencies_list_size.toNat) 0

/-- Embedding of `add_node_to_frequencies_list`, acting on the object that
`first_node` points to: returns the boolean result and the updated object. -/
def add_node_to_frequencies_list (first_node : MarkovNode α) (second_node : Ptr)
    (alloc : Option MarkovNodeFrequency) : Bool × MarkovNode α :=
  let node_idx := get_node_from_frequencies_list first_node second_node
  if node_idx ≠ NOT_IN_ARRAY then
    (true,
      { first_node with
        frequencies_list := first_node.frequencies_list.map
          (List.modify (fun e => { e with frequency := e.frequency + 1 }) node_idx.toNat) })
  else
    match increase_markov_node_frequency_size first_node alloc with
    | (none, n) => (false, n)
    | (some _, n) =>
      (true,
        { n with
          frequencies_list := n.frequencies_list.map
            (fun fl => fl.set n.frequencies_list_size.toNat ⟨some second_node, 1⟩)
          frequencies_list_size := n.frequencies_list_size + 1 })

/-- The call `add_node_to_frequencies_list(first_node, second_node)` on the
program state: `first_node` is dereferenced in the arena and updated in place. -/
def add_node_to_frequencies_list_at (st : State α) (first_node second_node : Ptr)
    (alloc : Option MarkovNodeFrequency) : Except Fault (Bool × State α) :=
  match st.heap[first_node]? with
  | none => .error .invalid_pointer
  | some n =>
    match add_node_to_frequencies_list n second_node alloc with
    | (b, n1) => .ok (b, ⟨st.heap.set first_node n1, st.markov_chain⟩)

/-- Embedding of `get_random_number`; `rand` is the value returned by the
library call `rand()`. -/
def get_random_number (rand : Int) (max_number : Int) : Except Fault Int :=
  if max_number = 0 then .error .division_by_zero
  else .ok (Int.tmod rand max_number)

/-- The first `for` loop of `get_next_random_node`, accumulating `total_weight`. -/
def total_weight_loop : List MarkovNodeFrequency → Int → Int
  | [], total_weight => total_weight
  | e :: rest, total_weight => total_weight_loop rest (total_weight + e.frequency)

/-- The second `for` loop of `get_next_random_node`. -/
def get_next_random_node_loop : List MarkovNodeFrequency → Int → Option Ptr
  | [], _ => none
  | e :: rest, random_weight =>
    if random_weight < e.frequency then e.markov_node
    else get_next_random_node_loop rest (random_weight - e.frequency)

/-- Embedding of `get_next_random_node`; `rand` is the value returned by the
library call `rand()` inside `get_random_number`. -/
def get_next_random_node (state_struct_ptr : MarkovNode α) (rand : Int) :
    Except Fault (Option Ptr) :=
  if state_struct_ptr.frequencies_list_size = 0 then .ok none
  else
    match state_struct_ptr.frequencies_list with
    | none => .error .assertion_failed
    | some fl =>
      let used := fl.take state_struct_ptr.frequencies_list_size.toNat
      let total_weight := total_weight_loop used 0
      match get_random_number rand total_weight with
      | .error f => .error f
      | .ok random_weight => .ok (get_next_random_node_loop used random_weight)

/-! ## Vocabulary of the properties -/

/-- The transition table of a node: the slots of `frequencies_list` in use, that
is the first `frequencies_list_size` slots of the block. -/
def MarkovNode.table (n : MarkovNode α) : List MarkovNodeFrequency :=
  match n.frequencies_list with
  | none => []
  | some fl => fl.take n.frequencies_list_size.toNat

/-- Memory safety of a node: when the block is allocated, the slots in use lie
inside it. -/
def MarkovNode.valid (n : MarkovNode α) : Prop :=
  match n.frequencies_list with
  | none => True
  | some fl => 0 ≤ n.frequencies_list_size ∧ n.frequencies_list_size.toNat ≤ fl.length

/-- Specification of a successful call on the level of tables: increment the
count of the first entry whose destination is `d`, or append `(d, 1)`. -/
def table_add (d : Ptr) : List MarkovNodeFrequency → List MarkovNodeFrequency
  | [] => [⟨some d, 1⟩]
  | e :: rest =>
    if e.markov_node = some d then ⟨e.markov_node, e.frequency + 1⟩ :: rest
    else e :: table_add d rest

/-- Sum of the counts of a table. -/
def count_sum (t : List MarkovNodeFrequency) : Int := (t.map (fun e => e.frequency)).sum

/-- The entries of a table whose destination is `d`. -/
def entries_for (d : Ptr) (t : List MarkovNodeFrequency) : List MarkovNodeFrequency :=
  t.filter (fun e => e.markov_node = some d)

/-- The list made of the single entry `(d, c)`, or of no entry when `c = 0`. -/
def single_entry (d : Ptr) (c : Nat) : List MarkovNodeFrequency :=
  if c = 0 then [] else [⟨some d, c⟩]

/-- A sequence of calls `add_node_to_frequencies_list(first_node, d)` on one
node, each call with its destination and its allocation outcome: the results of
the calls in order, and the node after the last call. -/
def add_nodes_to_frequencies_list (first_node : MarkovNode α) :
    List (Ptr × Option MarkovNodeFrequency) → List Bool × MarkovNode α
  | [] => ([], first_node)
  | (d, alloc) :: rest =>
    let r := add_node_to_frequencies_list first_node d alloc
    let rs := add_nodes_to_frequencies_list r.2 rest
    (r.1 :: rs.1, rs.2)

/-- Sum of the counts of the first `k` entries of a table. -/
def cum_weight (t : List MarkovNodeFrequency) (k : Nat) : Int := count_sum (t.take k)

/-- The registry of a state: the cells of the database in insertion order (no
cell when the database is not allocated). -/
def registry (st : State α) : List Node :=
  match st.markov_chain.database with
  | none => []
  | some database => database.nodes

/-- The `size` field of the database (0 when the database is not allocated). -/
def registry_size (st : State α) : Int :=
  match st.markov_chain.database with
  | none => 0
  | some database => database.size

/-- The state value held by the `MarkovNode` that the cell `c` points to. -/
def stored (heap : List (MarkovNode α)) (c : Node) : Option α :=
  (heap[c.data]?).bind (fun n => n.data)

/-- One call of the two mutating operations of the engine, with the outcomes of
its allocations. -/
inductive Call (α : Type) where
  | insert (data_ptr : α) (db_ok node_ok add_ok : Bool)
  | link (first_node second_node : Ptr) (alloc : Option MarkovNodeFrequency)

/-- Effect of one call on the program state. -/
def step (st : State α) : Call α → Except Fault (State α)
  | .insert data_ptr db_ok node_ok add_ok =>
    match add_to_database st data_ptr db_ok node_ok add_ok with
    | .ok (_, st1) => .ok st1
    | .error f => .error f
  | .link first_node second_node alloc =>
    match add_node_to_frequencies_list_at st first_node second_node alloc with
    | .ok (_, st1) => .ok st1
    | .error f => .error f

/-- Effect of a sequence of calls. -/
def run (st : State α) : List (Call α) → Except Fault (State α)
  | [] => .ok st
  | c :: rest =>
    match step st c with
    | .ok st1 => run st1 rest
    | .error f => .error f

/-- Every registry cell points to a live node that holds a state value. -/
def registry_ok (st : State α) : Prop :=
  ∀ c ∈ registry st, ∃ v, stored st.heap c = some v

/-- No cell of the registry compares equal to a later cell. -/
def registry_unique (st : State α) : Prop :=
  (registry st).Pairwise (fun a b => ∀ va vb, stored st.heap a = some va →
    stored st.heap b = some vb → st.markov_chain.comp_func va vb ≠ 0)

/-- The outcomes of `add_to_database` that return normally: the state was found,
an allocation failed, or a new cell was appended. -/
inductive AddOutcome (st : State α) (s : α) (r : Option Nat) (st1 : State α) : Prop where
  | found (i : Nat) (c : Node) (v : α) (hr : r = some i) (hst : st1 = st)
      (hi : (registry st)[i]? = some c) (hv : stored st.heap c = some v)
      (hc : st.markov_chain.comp_func v s = 0)
      (hmin : ∀ j c1 v1, j < i → (registry st)[j]? = some c1 → stored st.heap c1 = some v1 →
        st.markov_chain.comp_func v1 s ≠ 0)
  | failed (ext : List (MarkovNode α)) (hr : r = none) (hreg : registry st1 = registry st)
      (hsize : registry_size st1 = registry_size st) (hheap : st1.heap = st.heap ++ ext)
  | inserted (c : α) (hcopy : st.markov_chain.copy_func s = some c)
      (hr : r = some (registry st).length)
      (hreg : registry st1 = registry st ++ [⟨st.heap.length⟩])
      (hsize : registry_size st1 = registry_size st + 1)
      (hheap : st1.heap = st.heap ++ [⟨some c, none, 0, 0⟩])
      (hnew : ∀ c1 ∈ registry st, ∀ v, stored st.heap c1 = some v →
        st.markov_chain.comp_func v s ≠ 0)

/-! ## Concrete instances used to exercise the theorems -/

/-- A chain over numbers: `comp_func` is the difference, `copy_func` always
succeeds, 0 is the only last state. -/
def example_chain : MarkovChain Nat :=
  ⟨none, fun _ => "", fun a b => (a : Int) - (b : Int), fun _ => (), fun a => some a,
    fun a => decide (a = 0)⟩

/-- The chain of `example_chain` with a database of the given cells. -/
def example_chain_with (nodes : List Node) (size : Int) : MarkovChain Nat :=
  { example_chain with database := some ⟨nodes, size⟩ }

/-- A node with the table `[(1, 1), (2, 3)]`. -/
def example_node : MarkovNode Nat := ⟨some 7, some [⟨some 1, 1⟩, ⟨some 2, 3⟩], 2, 2⟩

/-- A node with an empty table, as `new_markov_node` makes it. -/
def example_empty_node : MarkovNode Nat := ⟨some 7, none, 0, 0⟩

/-- A state whose registry holds the states 5 and 8, with one link from 5 to 8. -/
def example_state : State Nat :=
  ⟨[⟨some 5, some [⟨some 1, 1⟩], 1, 1⟩, ⟨some 8, none, 0, 0⟩],
    example_chain_with [⟨0⟩, ⟨1⟩] 2⟩

/-! ## Walk generation -/

/-- The `for` loop of `get_node_in_index`: `steps` iterations remain and
`curr_node` is the current cell (`none` for `NULL`) of a list of `len` cells;
each iteration reads `curr_node->next`. -/
def get_node_in_index_loop (len : Nat) : Nat → Option Nat → Except Fault (Option Nat)
  | 0, curr_node => .ok curr_node
  | _ + 1, none => .error .null_dereference
  | steps + 1, some i =>
    get_node_in_index_loop len steps (if i + 1 < len then some (i + 1) else none)

/-- Embedding of `get_node_in_index`: the cell reached from `first` after
`index` steps along `next` (`none` for `NULL`). -/
def get_node_in_index (list : LinkedList) (index : Int) : Except Fault (Option Nat) :=
  get_node_in_index_loop list.nodes.length index.toNat
    (if list.nodes.length = 0 then none else some 0)

/-- The `do ... while` loop of `get_first_random_node`. The values returned by
the successive calls of `rand()` are `rand 0, rand 1, ...`; `pos` is the number
of calls made so far. The loop has no bound in the source: `fuel` bounds the
number of iterations followed, and `none` means that the loop is still running
when the fuel is used up. On return: the node chosen and the new `pos`. -/
def get_first_random_node_loop (st : State α) (database : LinkedList) (rand : Nat → Int) :
    Nat → Nat → Option (Except Fault (Ptr × Nat))
  | 0, _ => none
  | fuel + 1, pos =>
    match get_random_number (rand pos) database.size with
    | .error f => some (.error f)
    | .ok random_index =>
      match get_node_in_index database random_index with
      | .error f => some (.error f)
      | .ok none => some (.error .null_dereference)
      | .ok (some i) =>
        match database.nodes[i]? with
        | none => some (.error .invalid_pointer)
        | some node =>
          match st.heap[node.data]? with
          | none => some (.error .invalid_pointer)
          | some markov_node =>
            match markov_node.data with
            | none => some (.error .null_dereference)
            | some d =>
              if st.markov_chain.is_last d then
                get_first_random_node_loop st database rand fuel (pos + 1)
              else some (.ok (node.data, pos + 1))

/-- Embedding of `get_first_random_node`. -/
def get_first_random_node (st : State α) (rand : Nat → Int) (fuel pos : Nat) :
    Option (Except Fault (Ptr × Nat)) :=
  match st.markov_chain.database with
  | none => some (.error .assertion_failed)
  | some database => get_first_random_node_loop st database rand fuel pos

/-- How a call of `generate_tweet` ended. -/
inductive Ending where
  | returned
  | faulted (f : Fault)
  | running
deriving DecidableEq, Repr

/-- What a call of `generate_tweet` did: the calls of `print_func` in order,
each with the node whose `data` was printed and that `data`, and how the call
ended. -/
structure Walk (α : Type) where
  printed : List (Ptr × α)
  ending : Ending

/-- The `for` loop of `generate_tweet`: `steps` iterations remain, `prev_node` is
the current node and `pos` the number of calls of `rand()` made so far. -/
def generate_tweet_loop (heap : List (MarkovNode α)) (is_last : α → Bool) (rand : Nat → Int) :
    Nat → Ptr → Nat → Walk α
  | 0, _, _ => ⟨[], .returned⟩
  | steps + 1, prev_node, pos =>
    match heap[prev_node]? with
    | none => ⟨[], .faulted .invalid_pointer⟩
    | some prev =>
      match get_next_random_node prev (rand pos) with
      | .error f => ⟨[], .faulted f⟩
      | .ok none => ⟨[], .returned⟩
      | .ok (some next_node) =>
        match heap[next_node]? with
        | none => ⟨[], .faulted .invalid_pointer⟩
        | some next =>
          match next.data with
          | none => ⟨[], .faulted .assertion_failed⟩
          | some d =>
            if is_last d then ⟨[(next_node, d)], .returned⟩
            else
              let rest := generate_tweet_loop heap is_last rand steps next_node (pos + 1)
              ⟨(next_node, d) :: rest.printed, rest.ending⟩

/-- Embedding of `generate_tweet`; `first_node = none` is the `NULL` argument that
asks for a random first node, chosen with at most `fuel` draws. -/
def generate_tweet (st : State α) (first_node : Option Ptr) (max_length : Int)
    (rand : Nat → Int) (fuel : Nat) : Walk α :=
  let start : Option (Except Fault (Ptr × Nat)) :=
    match first_node with
    | none => get_first_random_node st rand fuel 0
    | some p => some (.ok (p, 0))
  match start with
  | none => ⟨[], .running⟩
  | some (.error f) => ⟨[], .faulted f⟩
  | some (.ok (first_node, pos)) =>
    match st.heap[first_node]? with
    | none => ⟨[], .faulted .invalid_pointer⟩
    | some first =>
      match first.data with
      | none => ⟨[], .faulted .assertion_failed⟩
      | some d =>
        let rest := generate_tweet_loop st.heap st.markov_chain.is_last rand
          (max_length - 1).toNat first_node pos
        ⟨(first_node, d) :: rest.printed, rest.ending⟩

/-- A node fit for a walk over `heap`: its slots in use lie inside its block, a
`NULL` block goes with size 0, every count is at least 1 and every destination
is a live node of `heap` that holds a state value. -/
def node_ok (heap : List (MarkovNode α)) (n : MarkovNode α) : Prop :=
  n.valid ∧ (n.frequencies_list = none → n.frequencies_list_size = 0) ∧
  ∀ e ∈ n.table, 1 ≤ e.frequency ∧
    ∃ q m v, e.markov_node = some q ∧ heap[q]? = some m ∧ m.data = some v

/-- Every node of the arena is fit for a walk. -/
def heap_ok (heap : List (MarkovNode α)) : Prop := ∀ n ∈ heap, node_ok heap n

/-- The state held by the registry cell whose index is drawn with the value `r`
of `rand()`: the index is `r % size`. -/
def drawn_state (st : State α) (database : LinkedList) (r : Int) : Option α :=
  (database.nodes[(Int.tmod r database.size).toNat]?).bind (stored st.heap)

/-! ## Teardown -/

/-- An object of the program's memory that `free_database` can release: the
state copy owned by the node `p` (released through `free_data`), the array of
entries of the node `p`, the node `p` itself, the `i`-th cell of the linked
list, the linked list, and the chain object. -/
inductive Allocation where
  | data (p : Ptr)
  | frequencies_list (p : Ptr)
  | markov_node (p : Ptr)
  | list_node (i : Nat)
  | database
  | markov_chain
deriving DecidableEq, Repr

/-- The `while` loop of `free_database`: `i` is the position of the cell
`next_node` at the head of the remaining cells. Returns the objects released, in
order. -/
def free_database_loop (heap : List (MarkovNode α)) :
    List Node → Nat → Except Fault (List Allocation)
  | [], _ => .ok []
  | next_node :: rest, i =>
    match heap[next_node.data]? with
    | none => .error .invalid_pointer
    | some markov_node =>
      match markov_node.data with
      | none => .error .assertion_failed
      | some _ =>
        match free_database_loop heap rest (i + 1) with
        | .error f => .error f
        | .ok released =>
          .ok ([Allocation.data next_node.data] ++
            (if markov_node.frequencies_list ≠ none then
              [Allocation.frequencies_list next_node.data] else []) ++
            [Allocation.markov_node next_node.data, Allocation.list_node i] ++ released)

/-- Embedding of `free_database`. The argument `ptr_chain` is the content of the
caller's handle `*ptr_chain` (`none` for `NULL`); the result is the list of the
objects released, in order, and the content of the handle after the call. -/
def free_database (heap : List (MarkovNode α)) (ptr_chain : Option (MarkovChain α)) :
    Except Fault (List Allocation × Option (MarkovChain α)) :=
  match ptr_chain with
  | none => .ok ([], none)
  | some chain =>
    match chain.database with
    | none => .ok ([], some chain)
    | some database =>
      match free_database_loop heap database.nodes 0 with
      | .error f => .error f
      | .ok released => .ok (released ++ [Allocation.database, Allocation.markov_chain], none)

/-- The objects that the node at address `p` of the arena accounts for: the node
itself, its state copy and its array of entries when they are not `NULL`. -/
def node_allocations (heap : List (MarkovNode α)) (p : Ptr) : List Allocation :=
  match heap[p]? with
  | none => []
  | some n =>
    [Allocation.markov_node p] ++ (if n.data.isSome then [Allocation.data p] else []) ++
      (if n.frequencies_list.isSome then [Allocation.frequencies_list p] else [])

/-- The objects allocated on behalf of the chain and not released yet: the
chain object, the linked list and its cells when the database is allocated, and
what every node of the arena accounts for. -/
def live_allocations (st : State α) : List Allocation :=
  [Allocation.markov_chain] ++
  (match st.markov_chain.database with
    | none => []
    | some database =>
      Allocation.database :: (List.range database.nodes.length).map Allocation.list_node) ++
  (List.range st.heap.length).flatMap (node_allocations st.heap)

/-- Whether a call returned its success value: a cell for `add_to_database`,
`true` for `add_node_to_frequencies_list`. -/
def step_succeeds (st : State α) : Call α → Bool
  | .insert data_ptr db_ok node_ok add_ok =>
    match add_to_database st data_ptr db_ok node_ok add_ok with
    | .ok (some _, _) => true
    | _ => false
  | .link first_node second_node alloc =>
    match add_node_to_frequencies_list_at st first_node second_node alloc with
    | .ok (true, _) => true
    | _ => false

/-- Whether every call of a sequence returned its success value. -/
def run_succeeds (st : State α) : List (Call α) → Bool
  | [] => true
  | c :: rest =>
    step_succeeds st c &&
      (match step st c with
        | .ok st1 => run_succeeds st1 rest
        | .error _ => false)

/-- The state holds nothing but what successful calls made: the registry cells
point, in order, to all the nodes of the arena, and every node holds a state
value. -/
def registry_exact (st : State α) : Prop :=
  (registry st).map (fun c => c.data) = List.range st.heap.length ∧
  ∀ n ∈ st.heap, n.data ≠ none

/-- The objects released by the iteration of the loop of `free_database` on a
cell at position `p` that points to the node `p`. -/
def cell_release (heap : List (MarkovNode α)) (p : Ptr) : List Allocation :=
  match heap[p]? with
  | none => []
  | some n =>
    [Allocation.data p] ++
      (if n.frequencies_list ≠ none then [Allocation.frequencies_list p] else []) ++
      [Allocation.markov_node p, Allocation.list_node p]

/-! ## Callbacks of `tweets_generator.c` -/

namespace TweetsGenerator

/-- Model of the C library function `strcmp`: zero exactly on equal strings,
negative when the first is smaller in the order of the character lists,
positive otherwise. -/
def strcmp (a b : String) : Int :=
  if a = b then 0 else if a.data < b.data then -1 else 1

/-- Embedding of `strdup` as defined in `tweets_generator.c`; `malloc_ok` is the
outcome of its allocation. -/
def strdup (malloc_ok : Bool) (str : String) : Option String :=
  if malloc_ok then some str else none

/-- Embedding of `ends_with_dot`: whether the last character is a dot. On the
empty string the source reads the byte before the buffer; the words cut out by
`strtok` are never empty. -/
def ends_with_dot (string : String) : Bool :=
  match string.data.getLast? with
  | some c => c = '.'
  | none => false

/-- Embedding of `print_word`: the text written for one word. -/
def print_word (word : String) : String :=
  if ends_with_dot word then word else word ++ " "

/-- The chain object that `main` constructs, all allocations of `strdup`
succeeding. -/
def markov_chain : MarkovChain String :=
  ⟨none, print_word, strcmp, fun _ => (), strdup true, ends_with_dot⟩

end TweetsGenerator

/-! ## The board of `snakes_and_ladders.c` -/

namespace SnakesAndLadders

/-- Value of the macro `EMPTY`. -/
def EMPTY : Int := -1

/-- Value of the macro `BOARD_SIZE`. -/
def BOARD_SIZE : Nat := 100

/-- Value of the macro `DICE_MAX`. -/
def DICE_MAX : Nat := 6

/-- Value of the macro `NUM_OF_TRANSITIONS`. -/
def NUM_OF_TRANSITIONS : Nat := 20

/-- Value of `EXIT_SUCCESS`. -/
def EXIT_SUCCESS : Int := 0

/-- Value of `EXIT_FAILURE`. -/
def EXIT_FAILURE : Int := 1

/-- The macro `MAX`. -/
def MAX (x y : Int) : Int := if x < y then y else x

/-- The table `transitions` of ladders and snakes. -/
def transitions : List (Int × Int) :=
  [(13, 4), (85, 17), (95, 67), (97, 58), (66, 89), (87, 31), (57, 83), (91, 25), (28, 50),
   (35, 11), (8, 30), (41, 62), (81, 43), (69, 32), (20, 39), (33, 70), (79, 99), (23, 76),
   (15, 47), (61, 14)]

/-- Embedding of `struct Cell`. -/
structure Cell where
  number : Int
  ladder_to : Int
  snake_to : Int
deriving DecidableEq, Repr

/-- Embedding of `is_cell_last`. -/
def is_cell_last (cell : Cell) : Bool := cell.number = (BOARD_SIZE : Int)

/-- Embedding of `compare_cells`. -/
def compare_cells (a b : Cell) : Int := a.number - b.number

/-- Embedding of `dupcell`; `malloc_ok` is the outcome of its allocation. -/
def dupcell (malloc_ok : Bool) (cell : Cell) : Option Cell :=
  if malloc_ok then some cell else none

/-- Embedding of `print_cell`: the text written for one cell. -/
def print_cell (cell : Cell) : String :=
  "[" ++ toString cell.number ++ "]" ++
  (if cell.snake_to ≠ EMPTY then "-snake to " ++ toString cell.snake_to
   else if cell.ladder_to ≠ EMPTY then "-ladder to " ++ toString cell.ladder_to
   else "") ++
  (if is_cell_last cell then "" else " ->")

/-- The first loop of `create_board` from index `i` on, `count` cells remaining;
`malloc_ok i` is the outcome of the allocation of cell `i`. The result `none` is
the failure path. -/
def create_board_cells (malloc_ok : Nat → Bool) : Nat → Nat → Option (List Cell)
  | 0, _ => some []
  | count + 1, i =>
    if malloc_ok i then
      match create_board_cells malloc_ok count (i + 1) with
      | none => none
      | some rest => some (⟨(i : Int) + 1, EMPTY, EMPTY⟩ :: rest)
    else none

/-- The second loop of `create_board` over the rows of `transitions`, whose
first components all lie between 1 and `BOARD_SIZE`. -/
def create_board_transitions : List (Int × Int) → List Cell → List Cell
  | [], cells => cells
  | (from_cell, to_cell) :: rest, cells =>
    create_board_transitions rest
      (if from_cell < to_cell then
        cells.modify (fun c => { c with ladder_to := to_cell }) (from_cell - 1).toNat
       else cells.modify (fun c => { c with snake_to := to_cell }) (from_cell - 1).toNat)

/-- Embedding of `create_board`: the array `cells`, or `none` for `EXIT_FAILURE`. -/
def create_board (malloc_ok : Nat → Bool) : Option (List Cell) :=
  match create_board_cells malloc_ok BOARD_SIZE 0 with
  | none => none
  | some cells => some (create_board_transitions (transitions.take NUM_OF_TRANSITIONS) cells)

/-- Outcomes of the allocations made during `fill_database`: of the board cells,
of the three allocations of the `i`-th `add_to_database`, and of the table
growth of the `j`-th link made from cell `i`. -/
structure Allocations where
  cell_ok : Nat → Bool
  db_ok : Nat → Bool
  node_ok : Nat → Bool
  add_ok : Nat → Bool
  table : Nat → Nat → Option MarkovNodeFrequency

/-- The first loop of `fill_database`: `add_to_database` on each cell from
index `i` on; the results are not looked at. -/
def fill_database_add (a : Allocations) : List Cell → Nat → State Cell → Except Fault (State Cell)
  | [], _, st => .ok st
  | cell :: rest, i, st =>
    match add_to_database st cell (a.db_ok i) (a.node_ok i) (a.add_ok i) with
    | .error f => .error f
    | .ok (_, st1) => fill_database_add a rest (i + 1) st1

/-- The expression `get_node_from_database(markov_chain, cell)->data`: the
`MarkovNode` of the cell found; a `NULL` result is dereferenced. -/
def node_of (st : State Cell) (cell : Option Cell) : Except Fault Ptr :=
  match cell with
  | none => .error .invalid_pointer
  | some c =>
    match get_node_from_database st c with
    | .error f => .error f
    | .ok (none, _) => .error .null_dereference
    | .ok (some i, _) =>
      match (registry st)[i]? with
      | none => .error .invalid_pointer
      | some node => .ok node.data

/-- The dice loop of `fill_database` for the cell at index `i`: `count`
iterations remain and `j` is the current value of the dice. The variable
`index_to` is unsigned in the source: a negative value becomes a huge one, which
leaves the loop like a value of `BOARD_SIZE` or more. -/
def fill_database_dice (a : Allocations) (cells : List Cell) (i : Nat) (from_node : Ptr) :
    Nat → Nat → State Cell → Except Fault (State Cell)
  | 0, _, st => .ok st
  | count + 1, j, st =>
    match st.heap[from_node]? with
    | none => .error .invalid_pointer
    | some n =>
      match n.data with
      | none => .error .null_dereference
      | some d =>
        let index_to := d.number + (j : Int) - 1
        if index_to ≥ (BOARD_SIZE : Int) ∨ index_to < 0 then .ok st
        else
          match node_of st cells[index_to.toNat]? with
          | .error f => .error f
          | .ok to_node =>
            match add_node_to_frequencies_list_at st from_node to_node (a.table i j) with
            | .error f => .error f
            | .ok (_, st1) => fill_database_dice a cells i from_node count (j + 1) st1

/-- The second loop of `fill_database` over the cells from index `i` on. An
index outside the array `cells` is an invalid pointer. -/
def fill_database_link (a : Allocations) (cells : List Cell) :
    List Cell → Nat → State Cell → Except Fault (State Cell)
  | [], _, st => .ok st
  | cell :: rest, i, st =>
    match node_of st (some cell) with
    | .error f => .error f
    | .ok from_node =>
      if cell.snake_to ≠ EMPTY ∨ cell.ladder_to ≠ EMPTY then
        let index_to := MAX cell.snake_to cell.ladder_to - 1
        match node_of st (if index_to < 0 then none else cells[index_to.toNat]?) with
        | .error f => .error f
        | .ok to_node =>
          match add_node_to_frequencies_list_at st from_node to_node (a.table i 0) with
          | .error f => .error f
          | .ok (_, st1) => fill_database_link a cells rest (i + 1) st1
      else
        match fill_database_dice a cells i from_node DICE_MAX 1 st with
        | .error f => .error f
        | .ok st1 => fill_database_link a cells rest (i + 1) st1

/-- Embedding of `fill_database` of `snakes_and_ladders.c`: the exit code and the
state after the call. -/
def fill_database (a : Allocations) (st : State Cell) : Except Fault (Int × State Cell) :=
  match create_board a.cell_ok with
  | none => .ok (EXIT_FAILURE, st)
  | some cells =>
    match fill_database_add a cells 0 st with
    | .error f => .error f
    | .ok st1 =>
      match fill_database_link a cells cells 0 st1 with
      | .error f => .error f
      | .ok st2 => .ok (EXIT_SUCCESS, st2)

/-- The chain object that `main` constructs, the allocations of `dupcell`
succeeding. -/
def markov_chain : MarkovChain Cell :=
  ⟨none, print_cell, compare_cells, fun _ => (), dupcell true, is_cell_last⟩

/-- Every allocation succeeds; fresh memory holds `junk`. -/
def all_succeed (junk : MarkovNodeFrequency) : Allocations :=
  ⟨fun _ => true, fun _ => true, fun _ => true, fun _ => true, fun _ _ => some junk⟩

end SnakesAndLadders

namespace SnakesAndLadders

/-- The board that `create_board` builds when every allocation succeeds. -/
def board_cells : List Cell := (create_board (fun _ => true)).getD []

/-- The node that `new_markov_node` and `add_to_database` make for a state. -/
def fresh_node (c : Cell) : MarkovNode Cell := ⟨some c, none, 0, 0⟩

/-- A state of the second loop of `fill_database`: the registry holds, in board
order, one cell per board cell, cell `i` pointing to the node `i`, which holds
the board cell `i` and is valid. -/
def board_state (st : State Cell) : Prop :=
  st.markov_chain.comp_func = compare_cells ∧
  registry st = (List.range BOARD_SIZE).map Node.mk ∧
  st.heap.length = BOARD_SIZE ∧
  ∀ i, i < BOARD_SIZE → ∃ n c, st.heap[i]? = some n ∧ board_cells[i]? = some c ∧
    n.data = some c ∧ n.valid

end SnakesAndLadders

/-- The chain of the tweet generator after reading the one-word corpus `hello`. -/
def hello_state : State String :=
  ⟨[⟨some "hello", none, 0, 0⟩],
    { TweetsGenerator.markov_chain with database := some ⟨[⟨0⟩], 1⟩ }⟩

/-! ## Vocabulary of the safety properties -/

/-- The number of calls of `rand()` made by `generate_tweet` before its `for`
loop: none when the first node is supplied, those of `get_first_random_node`
otherwise. -/
def draws_before_walk (st : State α) (first_node : Option Ptr) (rand : Nat → Int)
    (fuel : Nat) : Nat :=
  match first_node with
  | some _ => 0
  | none =>
    match get_first_random_node st rand fuel 0 with
    | some (.ok (_, pos)) => pos
    | _ => 0

/-- Whether every call `add_node_to_frequencies_list(first_node, second_node)` of
a sequence is given, as `second_node`, a node that is in the arena when the call
is made (a pointer returned by `add_to_database`, not a dangling one). -/
def links_live (st : State α) : List (Call α) → Bool
  | [] => true
  | c :: rest =>
    (match c with
      | .insert _ _ _ _ => true
      | .link _ second_node _ => decide (second_node < st.heap.length)) &&
      (match step st c with
        | .ok st1 => links_live st1 rest
        | .error _ => false)

/-- A well-formed chain: the registry cells point, in order, to all the nodes of
the arena, every node is fit for a walk, and the `size` field of the list is its
number of cells. -/
def well_formed (st : State α) : Prop :=
  registry_exact st ∧ heap_ok st.heap ∧ registry_size st = ((registry st).length : Int)

namespace SnakesAndLadders

/-- The table that the claim on dice cells gives the node of the cell `i + 1`
(node `i`): the nodes of the cells `i + 2, ..., min (i + 7) 100` in ascending
order, each with count 1. -/
def dice_table (i : Nat) : List MarkovNodeFrequency :=
  (List.range' (i + 1) (min DICE_MAX (BOARD_SIZE - 1 - i))).map (fun q => ⟨some q, 1⟩)

end SnakesAndLadders

namespace TweetsGenerator

/-! ## The corpus loader of `tweets_generator.c` -/

/-- Value of the macro `READ_ALL_WORDS`. -/
def READ_ALL_WORDS : Int := -1

/-- Value of the macro `MAX_SENTENCE_LENGTH`. -/
def MAX_SENTENCE_LENGTH : Nat := 1000

/-- Model of the reading loop of the C library function `fgets`: at most `n`
characters are taken from the stream `fp`, stopping after a newline or at the
end of the stream. The result is the text read and the rest of the stream. -/
def fgets_loop : Nat → List Char → List Char × List Char
  | 0, fp => ([], fp)
  | _ + 1, [] => ([], [])
  | n + 1, c :: fp =>
    if c = '\n' then ([c], fp)
    else (c :: (fgets_loop n fp).1, (fgets_loop n fp).2)

/-- Model of the C library function `fgets(s, size, fp)` on a stream of
characters without NUL: `none` is the `NULL` returned at the end of the stream;
otherwise at most `size - 1` characters are stored. -/
def fgets (size : Nat) (fp : List Char) : Option (List Char × List Char) :=
  match fp with
  | [] => none
  | _ :: _ => some (fgets_loop (size - 1) fp)

/-- Model of the C library function `strtok` with the one-character delimiter
string `delim`, applied to the text `s` (the buffer on the first call, the saved
position on the calls with `NULL`): the leading delimiters are skipped; `none`
is the `NULL` returned when nothing is left; otherwise the result is the token,
which runs up to the next delimiter, and the position saved behind that
delimiter. -/
def strtok (s : List Char) (delim : Char) : Option (List Char × List Char) :=
  match s.dropWhile (fun c => decide (c = delim)) with
  | [] => none
  | c :: rest =>
    some ((c :: rest).takeWhile (fun c => decide (c ≠ delim)),
      ((c :: rest).dropWhile (fun c => decide (c ≠ delim))).drop 1)

/-- What the loader passes to the engine: a word given to `add_to_database`, or
the two nodes given to `add_node_to_frequencies_list`. -/
inductive Passed where
  | word (w : String)
  | link (first_node second_node : Ptr)
deriving DecidableEq, Repr

/-- Outcomes of the allocations made during `fill_database`: of the three
allocations of the `i`-th call of `add_to_database` and of the table growth of
the link that follows it. -/
structure Allocations where
  db_ok : Nat → Bool
  node_ok : Nat → Bool
  add_ok : Nat → Bool
  table : Nat → Option MarkovNodeFrequency

/-- The state of the loader: the program state, the variable `words_to_read`,
and two observations of the run: the number of calls of `add_to_database` made
so far and what was passed to the engine, in order. -/
structure Loading where
  st : State String
  words_to_read : Int
  calls : Nat
  passed : List Passed

/-- The `while` loop of `add_sentence_to_database`. The variable `word_pointer`
is the last result of `strtok` (the token and the saved position), `prev_word`
the cell of the previous word; `fuel` bounds the number of iterations followed,
and `none` means that the loop is still running when it is used up. The boolean
result is `true` on the allocation-failure path. -/
def add_sentence_to_database_loop (a : Allocations) :
    Nat → Option (List Char × List Char) → Option Nat → Loading →
      Option (Except Fault (Bool × Loading))
  | 0, _, _, _ => none
  | _ + 1, none, _, s => some (.ok (false, s))
  | fuel + 1, some (word_pointer, saved), prev_word, s =>
    if s.words_to_read > 0 ∨ s.words_to_read = READ_ALL_WORDS then
      match add_to_database s.st (String.mk word_pointer) (a.db_ok s.calls) (a.node_ok s.calls)
          (a.add_ok s.calls) with
      | .error f => some (.error f)
      | .ok (none, st1) =>
        some (.ok (true, ⟨st1, s.words_to_read, s.calls + 1,
          s.passed ++ [.word (String.mk word_pointer)]⟩))
      | .ok (some current_node, st1) =>
        let linked : Except Fault (State String × List Passed) :=
          match prev_word with
          | none => .ok (st1, [])
          | some prev =>
            match (registry st1)[prev]?, (registry st1)[current_node]? with
            | some p, some c =>
              match add_node_to_frequencies_list_at st1 p.data c.data (a.table s.calls) with
              | .error f => .error f
              | .ok (_, st2) => .ok (st2, [.link p.data c.data])
            | _, _ => .error .invalid_pointer
        match linked with
        | .error f => some (.error f)
        | .ok (st2, links) =>
          add_sentence_to_database_loop a fuel (strtok saved ' ') (some current_node)
            ⟨st2,
              if s.words_to_read ≠ READ_ALL_WORDS then s.words_to_read - 1
              else s.words_to_read,
              s.calls + 1, s.passed ++ [.word (String.mk word_pointer)] ++ links⟩
    else some (.ok (false, s))

/-- Embedding of `add_sentence_to_database`. Every iteration of its loop consumes
a character of the buffer, so that the fuel given is never used up. -/
def add_sentence_to_database (a : Allocations) (sentence_buffer : List Char) (s : Loading) :
    Option (Except Fault (Bool × Loading)) :=
  add_sentence_to_database_loop a (sentence_buffer.length + 1) (strtok sentence_buffer ' ')
    none s

/-- The `while` loop of `fill_database` of `tweets_generator.c` on the stream `fp`;
`fuel` bounds the number of iterations followed. -/
def fill_database_loop (a : Allocations) :
    Nat → List Char → Loading → Option (Except Fault (Bool × Loading))
  | 0, _, _ => none
  | fuel + 1, fp, s =>
    match fgets MAX_SENTENCE_LENGTH fp with
    | none => some (.ok (false, s))
    | some (line, fp1) =>
      if s.words_to_read > 0 ∨ s.words_to_read = READ_ALL_WORDS then
        let sentence_buffer := if line.getLast? = some '\n' then line.dropLast else line
        match add_sentence_to_database a sentence_buffer s with
        | none => none
        | some (.error f) => some (.error f)
        | some (.ok (true, s1)) => some (.ok (true, s1))
        | some (.ok (false, s1)) => fill_database_loop a fuel fp1 s1
      else some (.ok (false, s))

/-- Embedding of `fill_database` of `tweets_generator.c` on a stream of
characters without NUL. Every iteration of the loop consumes a character of the
stream, so that the fuel given is never used up. -/
def fill_database (a : Allocations) (fp : List Char) (words_to_read : Int)
    (st : State String) : Option (Except Fault (Bool × Loading)) :=
  fill_database_loop a (fp.length + 1) fp ⟨st, words_to_read, 0, []⟩

/-- Every allocation succeeds; fresh memory holds `junk`. -/
def all_succeed (junk : MarkovNodeFrequency) : Allocations :=
  ⟨fun _ => true, fun _ => true, fun _ => true, fun _ => junk⟩

/-- What a call of `fill_database` passed to the engine (nothing is reported for
a call that raised a fault or whose fuel was used up). -/
def passed_of (r : Option (Except Fault (Bool × Loading))) : List Passed :=
  match r with
  | some (.ok (_, s)) => s.passed
  | _ => []

/-- The words among what was passed to the engine. -/
def words_of : List Passed → List String
  | [] => []
  | .word w :: rest => w :: words_of rest
  | .link _ _ :: rest => words_of rest

/-- A word of a corpus: not empty, without space, without newline and without
NUL. -/
def word_ok (w : String) : Prop :=
  w.data ≠ [] ∧ ' ' ∉ w.data ∧ '\n' ∉ w.data ∧ '\x00' ∉ w.data

/-- The text of a line of words separated by one space. -/
def render_line : List String → List Char
  | [] => []
  | [w] => w.data
  | w :: rest => w.data ++ ' ' :: render_line rest

/-- The text of a corpus: every line is followed by a newline. -/
def render : List (List String) → List Char
  | [] => []
  | line :: rest => render_line line ++ '\n' :: render rest

/-- The first `k` words of a corpus, line by line. -/
def take_words : Nat → List (List String) → List (List String)
  | _, [] => []
  | k, line :: rest => line.take k :: take_words (k - line.length) rest

/-- The lines of a corpus that a call with the given `words_to_read` is to
process: all of them for `READ_ALL_WORDS`, the first `words_to_read` words
otherwise. -/
def processed (words_to_read : Int) (corpus : List (List String)) : List (List String) :=
  if words_to_read = READ_ALL_WORDS then corpus else take_words words_to_read.toNat corpus

/-- What is passed to the engine for a line of words, each given with the node
that holds it, after a previous word held by `prev` (`none` at the start of the
line): every word, and after every word but the first the link from the node of
the word before it. -/
def chain_events : Option Ptr → List (String × Ptr) → List Passed
  | _, [] => []
  | none, (w, p) :: rest => .word w :: chain_events (some p) rest
  | some q, (w, p) :: rest => .word w :: .link q p :: chain_events (some p) rest

/-- A corpus of one line of `MAX_SENTENCE_LENGTH` = 1000 characters: the word
`hi`, a space and a word of 997 letters. -/
def long_corpus : List (List String) := [["hi", String.mk (List.replicate 997 'a')]]


/-- A state fit for the loader: every registry cell holds a word, no two cells
hold the same word, and the chain compares with `strcmp` and copies with a
`strdup` whose allocation succeeds. -/
def loader_ok (st : State String) : Prop :=
  registry_ok st ∧ registry_unique st ∧ st.markov_chain.comp_func = strcmp ∧
  st.markov_chain.copy_func = strdup true

/-- The number of words of a line of `n` words that a call with the given
`words_to_read` is to process at most. -/
def quota (words_to_read : Int) (n : Nat) : Nat :=
  if words_to_read = READ_ALL_WORDS then n else words_to_read.toNat


/-- Whether a call of `fill_database` returned `false`, its success value. -/
def completed (r : Option (Except Fault (Bool × Loading))) : Bool :=
  match r with
  | some (.ok (false, _)) => true
  | _ => false

/-- The chain after a call of `fill_database`: the word and the transition
table of every node of the arena, in the order of their allocation (no node is
reported for a call that raised a fault or whose fuel was used up). -/
def nodes_of (r : Option (Except Fault (Bool × Loading))) :
    List (Option String × List MarkovNodeFrequency) :=
  match r with
  | some (.ok (_, s)) => s.st.heap.map (fun n => (n.data, n.table))
  | _ => []

end TweetsGenerator

/-! ## The `int` arithmetic of the counts -/

/-- Value of `INT_MAX` on the target: an `int` has 32 bits. -/
def INT_MAX : Int := 2147483647

/-- The value that an `int` holds after an arithmetic result `x`: the
representative of `x` modulo `2^32` between `-2^31` and `2^31 - 1` (two's
complement). Signed overflow is undefined in C; this is what the compiled
program does. -/
def int_wrap (x : Int) : Int := (x + 2147483648) % 4294967296 - 2147483648

/-- Embedding of `add_node_to_frequencies_list` with the `int` arithmetic of the
count: `frequency++` is taken modulo `2^32`. The sizes, which count the
destinations and are at most the number of calls made, are incremented as in
`add_node_to_frequencies_list`. -/
def add_node_to_frequencies_list_int (first_node : MarkovNode α) (second_node : Ptr)
    (alloc : Option MarkovNodeFrequency) : Bool × MarkovNode α :=
  let node_idx := get_node_from_frequencies_list first_node second_node
  if node_idx ≠ NOT_IN_ARRAY then
    (true,
      { first_node with
        frequencies_list := first_node.frequencies_list.map
          (List.modify (fun e => { e with frequency := int_wrap (e.frequency + 1) })
            node_idx.toNat) })
  else
    match increase_markov_node_frequency_size first_node alloc with
    | (none, n) => (false, n)
    | (some _, n) =>
      (true,
        { n with
          frequencies_list := n.frequencies_list.map
            (fun fl => fl.set n.frequencies_list_size.toNat ⟨some second_node, 1⟩)
          frequencies_list_size := n.frequencies_list_size + 1 })

/-- A sequence of calls `add_node_to_frequencies_list(first_node, d)` on one
node, with the `int` arithmetic of the count: the results of the calls in order,
and the node after the last call. -/
def add_nodes_to_frequencies_list_int (first_node : MarkovNode α) :
    List (Ptr × Option MarkovNodeFrequency) → List Bool × MarkovNode α
  | [] => ([], first_node)
  | (d, alloc) :: rest =>
    let r := add_node_to_frequencies_list_int first_node d alloc
    let rs := add_nodes_to_frequencies_list_int r.2 rest
    (r.1 :: rs.1, rs.2)

/-- The call `add_node_to_frequencies_list(first_node, second_node)` on the
program state, with the `int` arithmetic of the count. -/
def add_node_to_frequencies_list_at_int (st : State α) (first_node second_node : Ptr)
    (alloc : Option MarkovNodeFrequency) : Except Fault (Bool × State α) :=
  match st.heap[first_node]? with
  | none => .error .invalid_pointer
  | some n =>
    match add_node_to_frequencies_list_int n second_node alloc with
    | (b, n1) => .ok (b, ⟨st.heap.set first_node n1, st.markov_chain⟩)

/-- Effect of one call on the program state, with the `int` arithmetic of the
count. -/
def step_int (st : State α) : Call α → Except Fault (State α)
  | .insert data_ptr db_ok node_ok add_ok =>
    match add_to_database st data_ptr db_ok node_ok add_ok with
    | .ok (_, st1) => .ok st1
    | .error f => .error f
  | .link first_node second_node alloc =>
    match add_node_to_frequencies_list_at_int st first_node second_node alloc with
    | .ok (_, st1) => .ok st1
    | .error f => .error f

/-- Effect of a sequence of calls, with the `int` arithmetic of the count. -/
def run_int (st : State α) : List (Call α) → Except Fault (State α)
  | [] => .ok st
  | c :: rest =>
    match step_int st c with
    | .ok st1 => run_int st1 rest
    | .error f => .error f

/-- Whether a call returned its success value, with the `int` arithmetic of the
count. -/
def step_succeeds_int (st : State α) : Call α → Bool
  | .insert data_ptr db_ok node_ok add_ok =>
    match add_to_database st data_ptr db_ok node_ok add_ok with
    | .ok (some _, _) => true
    | _ => false
  | .link first_node second_node alloc =>
    match add_node_to_frequencies_list_at_int st first_node second_node alloc with
    | .ok (true, _) => true
    | _ => false

/-- Whether every call of a sequence returned its success value, with the `int`
arithmetic of the count. -/
def run_succeeds_int (st : State α) : List (Call α) → Bool
  | [] => true
  | c :: rest =>
    step_succeeds_int st c &&
      (match step_int st c with
        | .ok st1 => run_succeeds_int st1 rest
        | .error _ => false)

/-- Whether every call `add_node_to_frequencies_list(first_node, second_node)` of
a sequence is given, as `second_node`, a node that is in the arena when the call
is made, with the `int` arithmetic of the count. -/
def links_live_int (st : State α) : List (Call α) → Bool
  | [] => true
  | c :: rest =>
    (match c with
      | .insert _ _ _ _ => true
      | .link _ second_node _ => decide (second_node < st.heap.length)) &&
      (match step_int st c with
        | .ok st1 => links_live_int st1 rest
        | .error _ => false)

/-! ## Transition tables -/

theorem loop_not_found (d : Ptr) (t : List MarkovNodeFrequency) (i : Int) (hi : 0 ≤ i) :
    get_node_from_frequencies_list_loop d t i = NOT_IN_ARRAY ↔
      ∀ e ∈ t, e.markov_node ≠ some d := by
  induction t generalizing i with
  | nil => simp [get_node_from_frequencies_list_loop]
  | cons e rest ih =>
    simp only [get_node_from_frequencies_list_loop, List.mem_cons, forall_eq_or_imp]
    by_cases h : e.markov_node = some d
    · simp [h, NOT_IN_ARRAY]; omega
    · simp [h, ih (i + 1) (by omega)]

theorem loop_range (d : Ptr) (t : List MarkovNodeFrequency) (i : Int) :
    get_node_from_frequencies_list_loop d t i = NOT_IN_ARRAY ∨
      (i ≤ get_node_from_frequencies_list_loop d t i ∧
        get_node_from_frequencies_list_loop d t i < i + t.length) := by
  induction t generalizing i with
  | nil => simp [get_node_from_frequencies_list_loop]
  | cons e rest ih =>
    simp only [get_node_from_frequencies_list_loop]
    by_cases h : e.markov_node = some d
    · simp [h]
    · simp only [h, if_false]
      rcases ih (i + 1) with h1 | h1
      · left; exact h1
      · right; simp only [List.length_cons, Nat.cast_add, Nat.cast_one]; omega

theorem loop_found (d : Ptr) (t : List MarkovNodeFrequency) (i : Int) (hi : 0 ≤ i)
    (h : get_node_from_frequencies_list_loop d t i ≠ NOT_IN_ARRAY) :
    ∃ k e, get_node_from_frequencies_list_loop d t i = i + (k : Nat) ∧ t[k]? = some e ∧
      e.markov_node = some d ∧ ∀ j e1, j < k → t[j]? = some e1 → e1.markov_node ≠ some d := by
  induction t generalizing i with
  | nil => simp [get_node_from_frequencies_list_loop] at h
  | cons e rest ih =>
    simp only [get_node_from_frequencies_list_loop] at h ⊢
    by_cases hd : e.markov_node = some d
    · refine ⟨0, e, by simp [hd], by simp, hd, ?_⟩
      intro j e1 hj; omega
    · simp only [hd, if_false] at h ⊢
      obtain ⟨k, e0, h1, h2, h3, h4⟩ := ih (i + 1) (by omega) h
      refine ⟨k + 1, e0, by rw [h1]; push_cast; ring, by simpa using h2, h3, ?_⟩
      intro j e1 hj hje
      cases j with
      | zero => simp at hje; subst hje; exact hd
      | succ j => exact h4 j e1 (by omega) (by simpa using hje)

theorem realloc_length (l : List MarkovNodeFrequency) (n : Nat) (junk : MarkovNodeFrequency) :
    (realloc l n junk).length = n := by
  simp [realloc]; omega

theorem realloc_set_take (l : List MarkovNodeFrequency) (s : Nat) (junk x : MarkovNodeFrequency)
    (hs : s ≤ l.length) :
    ((realloc l (s + 1) junk).set s x).take (s + 1) = l.take s ++ [x] := by
  apply List.ext_getElem?
  intro j
  simp only [realloc, List.getElem?_take, List.getElem?_set, List.getElem?_append, List.length_take,
    List.length_append, List.length_replicate]
  by_cases h1 : j < s
  · have : j < s + 1 := by omega
    have h3 : j < l.length := by omega
    have h4 : ¬ s = j := by omega
    have h5 : j < min s l.length := by omega
    simp [h1, this, h3, h4, h5]
  · by_cases h2 : j = s
    · subst h2
      have h5 : ¬ (j < min j l.length) := by omega
      have h6 : j - min j l.length = 0 := by omega
      have h7 : j < min (j + 1) (l.length + (j + 1 - l.length)) := by omega
      simp [h5, h6, h7]
    · have : ¬ j < s + 1 := by omega
      have h5 : ¬ (j < min s l.length) := by omega
      have h6 : j - min s l.length ≠ 0 := by omega
      simp [this, h5]
      omega

theorem modify_eq_table_add (d : Ptr) (t : List MarkovNodeFrequency) (i : Int) (hi : 0 ≤ i)
    (h : get_node_from_frequencies_list_loop d t i ≠ NOT_IN_ARRAY) :
    List.modify (fun e => { e with frequency := e.frequency + 1 })
      (get_node_from_frequencies_list_loop d t i - i).toNat t = table_add d t := by
  induction t generalizing i with
  | nil => simp [get_node_from_frequencies_list_loop] at h
  | cons e rest ih =>
    simp only [get_node_from_frequencies_list_loop, table_add] at h ⊢
    by_cases hd : e.markov_node = some d
    · simp [hd]
    · simp only [hd, if_false] at h ⊢
      have hr := loop_range d rest (i + 1)
      rcases hr with hr | hr
      · exact absurd hr h
      · have : (get_node_from_frequencies_list_loop d rest (i + 1) - i).toNat =
            (get_node_from_frequencies_list_loop d rest (i + 1) - (i + 1)).toNat + 1 := by omega
        rw [this, List.modify_succ_cons, ih (i + 1) (by omega) h]

theorem table_add_not_found (d : Ptr) (t : List MarkovNodeFrequency)
    (h : ∀ e ∈ t, e.markov_node ≠ some d) : table_add d t = t ++ [⟨some d, 1⟩] := by
  induction t with
  | nil => rfl
  | cons e rest ih =>
    simp only [List.mem_cons, forall_eq_or_imp] at h
    simp [table_add, h.1, ih h.2]

/-- Refinement: on a valid node, a call that finds the destination or whose
allocation succeeds returns `true` and acts on the table as `table_add`. -/
theorem add_node_refines (n : MarkovNode α) (d : Ptr) (alloc : Option MarkovNodeFrequency)
    (hv : n.valid)
    (hs : get_node_from_frequencies_list n d ≠ NOT_IN_ARRAY ∨ alloc.isSome) :
    (add_node_to_frequencies_list n d alloc).1 = true ∧
    (add_node_to_frequencies_list n d alloc).2.table = table_add d n.table ∧
    (add_node_to_frequencies_list n d alloc).2.valid ∧
    (add_node_to_frequencies_list n d alloc).2.data = n.data := by
  obtain ⟨data, fl, size, msize⟩ := n
  cases fl with
  | none =>
    have hl : get_node_from_frequencies_list (⟨data, none, size, msize⟩ : MarkovNode α) d
        = NOT_IN_ARRAY := rfl
    rw [hl] at hs
    simp only [ne_eq, not_true_eq_false, false_or] at hs
    obtain ⟨junk, rfl⟩ := Option.isSome_iff_exists.mp hs
    simp [add_node_to_frequencies_list, hl, increase_markov_node_frequency_size,
      MarkovNode.table, MarkovNode.valid, table_add]
  | some fl =>
    simp only [MarkovNode.valid] at hv
    obtain ⟨h0, hle⟩ := hv
    by_cases hf : get_node_from_frequencies_list (⟨data, some fl, size, msize⟩ : MarkovNode α) d
        = NOT_IN_ARRAY
    · rw [hf] at hs
      simp only [ne_eq, not_true_eq_false, false_or] at hs
      obtain ⟨junk, rfl⟩ := Option.isSome_iff_exists.mp hs
      have hnf : ∀ e ∈ fl.take size.toNat, e.markov_node ≠ some d :=
        (loop_not_found d _ 0 (le_refl _)).mp hf
      have hsz : (size + 1).toNat = size.toNat + 1 := by omega
      simp only [add_node_to_frequencies_list, hf, increase_markov_node_frequency_size,
        MarkovNode.table, MarkovNode.valid, ne_eq, not_true_eq_false, if_false, Option.map_some',
        hsz, realloc_set_take fl size.toNat junk _ hle, table_add_not_found d _ hnf,
        List.length_set, realloc_length]
      refine ⟨trivial, trivial, ⟨by omega, le_refl _⟩, trivial⟩
    · have hm := modify_eq_table_add d (fl.take size.toNat) 0 (le_refl _) hf
      simp only [sub_zero] at hm
      have hf2 : get_node_from_frequencies_list_loop d (fl.take size.toNat) 0 ≠ NOT_IN_ARRAY := hf
      simp only [add_node_to_frequencies_list, get_node_from_frequencies_list, ne_eq, hf2,
        not_false_eq_true, if_true, Option.map_some', MarkovNode.table, MarkovNode.valid,
        List.take_modify, hm, List.length_modify]
      exact ⟨trivial, trivial, ⟨h0, hle⟩, trivial⟩

/-- A call that does not find the destination and whose allocation fails returns
`false` and leaves the node as it was. -/
theorem add_node_fails (n : MarkovNode α) (d : Ptr)
    (hs : get_node_from_frequencies_list n d = NOT_IN_ARRAY) :
    add_node_to_frequencies_list n d none = (false, n) := by
  obtain ⟨data, fl, size, msize⟩ := n
  cases fl <;> simp [add_node_to_frequencies_list, hs, increase_markov_node_frequency_size]

theorem lookup_eq_loop (n : MarkovNode α) (d : Ptr) :
    get_node_from_frequencies_list n d = get_node_from_frequencies_list_loop d n.table 0 := by
  obtain ⟨data, fl, size, msize⟩ := n
  cases fl <;> rfl

theorem count_sum_table_add (d : Ptr) (t : List MarkovNodeFrequency) :
    count_sum (table_add d t) = count_sum t + 1 := by
  induction t with
  | nil => simp [table_add, count_sum]
  | cons e rest ih =>
    simp only [table_add]
    by_cases h : e.markov_node = some d
    · simp [h, count_sum]; ring
    · simp only [h, if_false]
      simp only [count_sum, List.map_cons, List.sum_cons] at ih ⊢
      rw [ih]; ring

theorem entries_for_table_add_ne (d d1 : Ptr) (t : List MarkovNodeFrequency) (h : d1 ≠ d) :
    entries_for d1 (table_add d t) = entries_for d1 t := by
  induction t with
  | nil => simp [table_add, entries_for, h.symm]
  | cons e rest ih =>
    simp only [table_add]
    by_cases he : e.markov_node = some d
    · simp [he, entries_for, h.symm]
    · simp only [he, if_false]
      simp only [entries_for, List.filter_cons] at ih ⊢
      rw [ih]

theorem entries_for_table_add_eq (d : Ptr) (t : List MarkovNodeFrequency) :
    entries_for d (table_add d t) =
      match entries_for d t with
      | [] => [⟨some d, 1⟩]
      | e :: rest => ⟨some d, e.frequency + 1⟩ :: rest := by
  induction t with
  | nil => simp [table_add, entries_for]
  | cons e rest ih =>
    simp only [table_add]
    by_cases he : e.markov_node = some d
    · simp [he, entries_for]
    · simp only [he, if_false]
      simp only [entries_for, List.filter_cons] at ih ⊢
      simp only [he, decide_False, Bool.false_eq_true, if_false]
      exact ih

theorem dests_table_add (d : Ptr) (t : List MarkovNodeFrequency) :
    (table_add d t).map (fun e => e.markov_node) =
      if some d ∈ t.map (fun e => e.markov_node) then t.map (fun e => e.markov_node)
      else t.map (fun e => e.markov_node) ++ [some d] := by
  induction t with
  | nil => simp [table_add]
  | cons e rest ih =>
    simp only [table_add]
    by_cases he : e.markov_node = some d
    · simp [he]
    · have he2 : ¬ some d = e.markov_node := fun h => he h.symm
      simp only [he, if_false, List.map_cons, List.mem_cons, he2, false_or, ih]
      split <;> simp

theorem nodup_table_add (d : Ptr) (t : List MarkovNodeFrequency)
    (h : (t.map (fun e => e.markov_node)).Nodup) :
    ((table_add d t).map (fun e => e.markov_node)).Nodup := by
  rw [dests_table_add]
  split
  · exact h
  · rename_i hn
    rw [List.nodup_append]
    refine ⟨h, List.nodup_singleton _, ?_⟩
    intro a ha hb
    simp at hb
    subst hb
    exact hn ha

theorem positive_table_add (d : Ptr) (t : List MarkovNodeFrequency)
    (h : ∀ e ∈ t, 1 ≤ e.frequency) : ∀ e ∈ table_add d t, 1 ≤ e.frequency := by
  induction t with
  | nil => simp [table_add]
  | cons a rest ih =>
    simp only [List.mem_cons, forall_eq_or_imp] at h
    simp only [table_add]
    by_cases he : a.markov_node = some d
    · simp only [he, if_true, List.mem_cons, forall_eq_or_imp]
      exact ⟨by have := h.1; simp; omega, h.2⟩
    · simp only [he, if_false, List.mem_cons, forall_eq_or_imp]
      exact ⟨h.1, ih h.2⟩

theorem monotone_table_add (d : Ptr) (t : List MarkovNodeFrequency) (i : Nat)
    (e : MarkovNodeFrequency) (h : t[i]? = some e) :
    ∃ e1, (table_add d t)[i]? = some e1 ∧ e1.markov_node = e.markov_node ∧
      e.frequency ≤ e1.frequency ∧ e1.frequency ≤ e.frequency + 1 := by
  induction t generalizing i with
  | nil => simp at h
  | cons a rest ih =>
    simp only [table_add]
    by_cases he : a.markov_node = some d
    · simp only [he, if_true]
      cases i with
      | zero =>
        simp at h; subst h
        exact ⟨⟨some d, a.frequency + 1⟩, by simp [he], he.symm, by simp, by simp⟩
      | succ i => exact ⟨e, by simpa using h, rfl, le_refl _, by omega⟩
    · simp only [he, if_false]
      cases i with
      | zero =>
        simp at h; subst h
        exact ⟨_, by simp, rfl, le_refl _, by omega⟩
      | succ i =>
        obtain ⟨e1, h1, h2, h3⟩ := ih i (by simpa using h)
        exact ⟨e1, by simpa using h1, h2, h3⟩

/-- Every call on a valid node leaves a valid node whose table is either the
old one (call failed) or `table_add` of the old one (call succeeded). -/
theorem add_node_cases (n : MarkovNode α) (d : Ptr) (alloc : Option MarkovNodeFrequency)
    (hv : n.valid) :
    (add_node_to_frequencies_list n d alloc).2.valid ∧
    (((add_node_to_frequencies_list n d alloc).1 = true ∧
        (add_node_to_frequencies_list n d alloc).2.table = table_add d n.table) ∨
      ((add_node_to_frequencies_list n d alloc).1 = false ∧
        (add_node_to_frequencies_list n d alloc).2 = n)) := by
  by_cases hs : get_node_from_frequencies_list n d ≠ NOT_IN_ARRAY ∨ alloc.isSome
  · obtain ⟨h1, h2, h3, _⟩ := add_node_refines n d alloc hv hs
    exact ⟨h3, Or.inl ⟨h1, h2⟩⟩
  · simp only [not_or, ne_eq, not_not, Option.not_isSome_iff_eq_none] at hs
    obtain ⟨h1, rfl⟩ := hs
    rw [add_node_fails n d h1]
    exact ⟨hv, Or.inr ⟨rfl, rfl⟩⟩

/-- The table after a sequence of calls that all succeeded. -/
theorem add_nodes_table (n : MarkovNode α) (calls : List (Ptr × Option MarkovNodeFrequency))
    (hv : n.valid) (hok : ∀ b ∈ (add_nodes_to_frequencies_list n calls).1, b = true) :
    (add_nodes_to_frequencies_list n calls).2.table =
      (calls.map (fun c => c.1)).foldl (fun t d => table_add d t) n.table := by
  induction calls generalizing n with
  | nil => rfl
  | cons c rest ih =>
    obtain ⟨d, alloc⟩ := c
    simp only [add_nodes_to_frequencies_list, List.mem_cons, forall_eq_or_imp] at hok
    obtain ⟨hv1, hc⟩ := add_node_cases n d alloc hv
    rcases hc with ⟨_, ht⟩ | ⟨hf, _⟩
    · simp only [add_nodes_to_frequencies_list, List.map_cons, List.foldl_cons]
      rw [ih _ hv1 hok.2, ht]
    · rw [hok.1] at hf; exact absurd hf (by simp)

theorem count_sum_foldl (ds : List Ptr) (t : List MarkovNodeFrequency) :
    count_sum (ds.foldl (fun t d => table_add d t) t) = count_sum t + ds.length := by
  induction ds generalizing t with
  | nil => simp
  | cons d rest ih =>
    simp only [List.foldl_cons, List.length_cons]
    rw [ih, count_sum_table_add]; push_cast; ring

theorem entries_for_foldl (ds : List Ptr) (t : List MarkovNodeFrequency) (d : Ptr) (c : Nat)
    (h : entries_for d t = single_entry d c) :
    entries_for d (ds.foldl (fun t d => table_add d t) t) = single_entry d (c + ds.count d) := by
  induction ds generalizing t c with
  | nil => simpa using h
  | cons x rest ih =>
    simp only [List.foldl_cons]
    by_cases hx : x = d
    · subst hx
      have : entries_for x (table_add x t) = single_entry x (c + 1) := by
        rw [entries_for_table_add_eq, h]
        by_cases hc : c = 0
        · simp [single_entry, hc]
        · simp [single_entry, hc]
      rw [ih _ _ this, List.count_cons_self]
      congr 1; omega
    · have : entries_for d (table_add x t) = single_entry d c := by
        rw [entries_for_table_add_ne x d t (fun h => hx h.symm), h]
      rw [ih _ _ this, List.count_cons_of_ne (fun h => hx h.symm)]

/-- Invariant of a reachable node: valid, destinations pairwise distinct,
counts at least 1. -/
theorem add_nodes_invariant (n : MarkovNode α) (calls : List (Ptr × Option MarkovNodeFrequency))
    (hv : n.valid) (hnd : (n.table.map (fun e => e.markov_node)).Nodup)
    (hpos : ∀ e ∈ n.table, 1 ≤ e.frequency) :
    (add_nodes_to_frequencies_list n calls).2.valid ∧
    ((add_nodes_to_frequencies_list n calls).2.table.map (fun e => e.markov_node)).Nodup ∧
    ∀ e ∈ (add_nodes_to_frequencies_list n calls).2.table, 1 ≤ e.frequency := by
  induction calls generalizing n with
  | nil => exact ⟨hv, hnd, hpos⟩
  | cons c rest ih =>
    obtain ⟨d, alloc⟩ := c
    simp only [add_nodes_to_frequencies_list]
    obtain ⟨hv1, hc⟩ := add_node_cases n d alloc hv
    rcases hc with ⟨_, ht⟩ | ⟨_, hf⟩
    · apply ih _ hv1
      · rw [ht]; exact nodup_table_add d _ hnd
      · rw [ht]; exact positive_table_add d _ hpos
    · rw [hf]; exact ih n hv hnd hpos

/-- C8. Entry lookup by identity: `get_node_from_frequencies_list` returns
`NOT_IN_ARRAY` exactly when no entry of the table has the address `d` as its
destination; otherwise it returns the smallest index whose entry has the
destination `d`. The stored values play no part: when every entry points to
another node `d1`, the result is `NOT_IN_ARRAY` even if, in the arena, the
values of `d1` and `d` compare equal. -/
theorem get_node_from_frequencies_list_spec (first_node : MarkovNode α) (d : Ptr) :
    (get_node_from_frequencies_list first_node d = NOT_IN_ARRAY ↔
      ∀ e ∈ first_node.table, e.markov_node ≠ some d) ∧
    (get_node_from_frequencies_list first_node d ≠ NOT_IN_ARRAY →
      ∃ (i : Nat) (e : MarkovNodeFrequency),
        get_node_from_frequencies_list first_node d = (i : Int) ∧
        first_node.table[i]? = some e ∧ e.markov_node = some d ∧
        ∀ j e1, j < i → first_node.table[j]? = some e1 → e1.markov_node ≠ some d) ∧
    (∀ (heap : List (MarkovNode α)) (comp_func : α → α → Int) (d1 : Ptr) (v v1 : α),
      d1 ≠ d → (heap[d]?).bind (fun n => n.data) = some v →
      (heap[d1]?).bind (fun n => n.data) = some v1 → comp_func v1 v = 0 →
      (∀ e ∈ first_node.table, e.markov_node = some d1) →
      get_node_from_frequencies_list first_node d = NOT_IN_ARRAY) := by
  rw [lookup_eq_loop]
  refine ⟨loop_not_found d _ 0 (le_refl _), ?_, ?_⟩
  · intro h
    obtain ⟨k, e, h1, h2, h3, h4⟩ := loop_found d _ 0 (le_refl _) h
    exact ⟨k, e, by rw [h1]; simp, h2, h3, h4⟩
  · intro heap comp_func d1 v v1 hne _ _ _ hall
    apply (loop_not_found d _ 0 (le_refl _)).mpr
    intro e he
    rw [hall e he]
    simpa using hne

theorem get_node_from_frequencies_list_spec_witness :
    get_node_from_frequencies_list
      example_node 0 = NOT_IN_ARRAY :=
  (get_node_from_frequencies_list_spec
    example_node 0).1.mpr (by decide)

/-! ## Weighted random selection -/

theorem total_weight_loop_eq (t : List MarkovNodeFrequency) (acc : Int) :
    total_weight_loop t acc = acc + count_sum t := by
  induction t generalizing acc with
  | nil => simp [total_weight_loop, count_sum]
  | cons e rest ih =>
    simp only [total_weight_loop, ih, count_sum, List.map_cons, List.sum_cons]; ring

theorem count_sum_nonneg (t : List MarkovNodeFrequency) (h : ∀ e ∈ t, 0 ≤ e.frequency) :
    0 ≤ count_sum t := by
  induction t with
  | nil => simp [count_sum]
  | cons e rest ih =>
    simp only [List.mem_cons, forall_eq_or_imp] at h
    have := ih h.2
    simp only [count_sum, List.map_cons, List.sum_cons] at this ⊢
    omega

theorem count_sum_cons (e : MarkovNodeFrequency) (t : List MarkovNodeFrequency) :
    count_sum (e :: t) = e.frequency + count_sum t := by
  simp [count_sum]

/-- On a node with a non-empty table of non-zero total weight, the function runs
its second loop on the table with the draw `rand % total_weight`. -/
theorem get_next_random_node_draw (n : MarkovNode α) (rand : Int) (hne : n.table ≠ [])
    (htot : count_sum n.table ≠ 0) :
    get_next_random_node n rand =
      .ok (get_next_random_node_loop n.table (Int.tmod rand (count_sum n.table))) := by
  obtain ⟨data, fl, size, msize⟩ := n
  cases fl with
  | none => simp [MarkovNode.table] at hne
  | some fl =>
    simp only [MarkovNode.table] at hne htot ⊢
    have hsz : size ≠ 0 := by
      intro h; subst h; simp at hne
    simp [get_next_random_node, hsz, total_weight_loop_eq, get_random_number, htot]

theorem selection_bracket (t : List MarkovNodeFrequency) (r : Int)
    (hpos : ∀ e ∈ t, 0 ≤ e.frequency) (h0 : 0 ≤ r) (hlt : r < count_sum t) :
    ∃ (k : Nat) (e : MarkovNodeFrequency), t[k]? = some e ∧
      get_next_random_node_loop t r = e.markov_node ∧
      cum_weight t k ≤ r ∧ r < cum_weight t (k + 1) := by
  induction t generalizing r with
  | nil => simp [count_sum] at hlt; omega
  | cons a rest ih =>
    simp only [List.mem_cons, forall_eq_or_imp] at hpos
    rw [count_sum_cons] at hlt
    by_cases hr : r < a.frequency
    · refine ⟨0, a, by simp, by simp [get_next_random_node_loop, hr], ?_, ?_⟩
      · simpa [cum_weight, count_sum] using h0
      · simpa [cum_weight, count_sum] using hr
    · obtain ⟨k, e, h1, h2, h3, h4⟩ := ih (r - a.frequency) hpos.2 (by omega) (by omega)
      refine ⟨k + 1, e, by simpa using h1, by simp [get_next_random_node_loop, hr, h2], ?_, ?_⟩
      · simp only [cum_weight, List.take_succ_cons, count_sum_cons] at h3 ⊢; omega
      · simp only [cum_weight, List.take_succ_cons, count_sum_cons] at h4 ⊢; omega

theorem db_loop_spec (heap : List (MarkovNode α)) (comp_func : α → α → Int) (s : α)
    (nodes : List Node) (i : Nat) (hall : ∀ c ∈ nodes, ∃ v, stored heap c = some v) :
    (get_node_from_database_loop heap comp_func s nodes i = .ok none ∧
      ∀ c ∈ nodes, ∀ v, stored heap c = some v → comp_func v s ≠ 0) ∨
    (∃ (k : Nat) (c : Node) (v : α),
      get_node_from_database_loop heap comp_func s nodes i = .ok (some (i + k)) ∧
      nodes[k]? = some c ∧ stored heap c = some v ∧ comp_func v s = 0 ∧
      ∀ j c1 v1, j < k → nodes[j]? = some c1 → stored heap c1 = some v1 →
        comp_func v1 s ≠ 0) := by
  induction nodes generalizing i with
  | nil => left; simp [get_node_from_database_loop]
  | cons a rest ih =>
    simp only [List.mem_cons, forall_eq_or_imp] at hall
    obtain ⟨⟨v, hv⟩, hrest⟩ := hall
    have hv2 := hv
    simp only [stored] at hv2
    cases hget : heap[a.data]? with
    | none => simp [hget] at hv2
    | some n =>
      simp only [hget, Option.some_bind] at hv2
      by_cases hc : comp_func v s = 0
      · right
        refine ⟨0, a, v, ?_, by simp, hv, hc, ?_⟩
        · simp [get_node_from_database_loop, hget, hv2, hc, STRCMP_EQUAL]
        · intro j c1 v1 hj; omega
      · have hloop : get_node_from_database_loop heap comp_func s (a :: rest) i =
            get_node_from_database_loop heap comp_func s rest (i + 1) := by
          simp [get_node_from_database_loop, hget, hv2, hc, STRCMP_EQUAL]
        rw [hloop]
        rcases ih (i + 1) hrest with ⟨h1, h2⟩ | ⟨k, c, w, h1, h2, h3, h4, h5⟩
        · left
          refine ⟨h1, ?_⟩
          intro c hcm w hw
          rcases List.mem_cons.mp hcm with rfl | hcm
          · rw [hv] at hw; cases hw; exact hc
          · exact h2 c hcm w hw
        · right
          refine ⟨k + 1, c, w, by rw [h1]; congr 2; omega, by simpa using h2, h3, h4, ?_⟩
          intro j c1 v1 hj hjc hs
          cases j with
          | zero =>
            simp at hjc; subst hjc
            rw [hv] at hs; cases hs; exact hc
          | succ j => exact h5 j c1 v1 (by omega) (by simpa using hjc) hs

/-- On a registry whose cells all hold a state value, the lookup returns the
position of the first cell that compares equal to `s`, or nothing when there is
none, and leaves the state as it is. -/
theorem lookup_result (st : State α) (s : α) (hok : registry_ok st) :
    ∃ r, get_node_from_database st s = .ok (r, st) ∧
      (r = none ↔ ∀ c ∈ registry st, ∀ v, stored st.heap c = some v →
        st.markov_chain.comp_func v s ≠ 0) ∧
      (∀ i, r = some i → ∃ c v, (registry st)[i]? = some c ∧ stored st.heap c = some v ∧
        st.markov_chain.comp_func v s = 0 ∧
        ∀ j c1 v1, j < i → (registry st)[j]? = some c1 → stored st.heap c1 = some v1 →
          st.markov_chain.comp_func v1 s ≠ 0) := by
  cases hdb : st.markov_chain.database with
  | none =>
    refine ⟨none, by simp [get_node_from_database, hdb], ?_, by simp⟩
    simp [registry, hdb]
  | some database =>
    have hreg : registry st = database.nodes := by simp [registry, hdb]
    rw [registry_ok, hreg] at hok
    rw [hreg]
    rcases db_loop_spec st.heap st.markov_chain.comp_func s database.nodes 0 hok with
      ⟨h1, h2⟩ | ⟨k, c, v, h1, h2, h3, h4, h5⟩
    · refine ⟨none, by simp [get_node_from_database, hdb, h1], by simpa using h2, by simp⟩
    · refine ⟨some k, by simp [get_node_from_database, hdb, h1], ?_, ?_⟩
      · constructor
        · intro h; cases h
        · intro h; exact absurd h4 (h c (List.getElem?_mem h2) v h3)
      · intro i hi
        cases hi
        exact ⟨c, v, h2, h3, h4, h5⟩

/-- C3. Lookup: `get_node_from_database` returns nothing when the database is
absent or empty; on a registry whose cells all hold a state value it returns
the position of the first cell, in insertion order, whose stored value `v`
satisfies `comp_func v s = 0`, and nothing exactly when no cell compares equal
to `s`. The state after the call is the state before it. -/
theorem get_node_from_database_spec (st : State α) (s : α) :
    (st.markov_chain.database = none → get_node_from_database st s = .ok (none, st)) ∧
    (∀ database, st.markov_chain.database = some database → database.nodes = [] →
      get_node_from_database st s = .ok (none, st)) ∧
    (registry_ok st →
      ∃ r, get_node_from_database st s = .ok (r, st) ∧
        (r = none ↔ ∀ c ∈ registry st, ∀ v, stored st.heap c = some v →
          st.markov_chain.comp_func v s ≠ 0) ∧
        (∀ i, r = some i → ∃ c v, (registry st)[i]? = some c ∧ stored st.heap c = some v ∧
          st.markov_chain.comp_func v s = 0 ∧
          ∀ j c1 v1, j < i → (registry st)[j]? = some c1 → stored st.heap c1 = some v1 →
            st.markov_chain.comp_func v1 s ≠ 0)) := by
  refine ⟨?_, ?_, lookup_result st s⟩
  · intro h
    simp [get_node_from_database, h]
  · intro database h hn
    simp [get_node_from_database, h, hn, get_node_from_database_loop]

theorem modify_length_append (heap : List (MarkovNode α)) (x : MarkovNode α)
    (f : MarkovNode α → MarkovNode α) :
    List.modify f heap.length (heap ++ [x]) = heap ++ [f x] := by
  induction heap with
  | nil => simp
  | cons a rest ih => simp [ih]

theorem stored_append (heap ext : List (MarkovNode α)) (c : Node) (v : α)
    (h : stored heap c = some v) : stored (heap ++ ext) c = some v := by
  simp only [stored] at h ⊢
  cases hg : heap[c.data]? with
  | none => simp [hg] at h
  | some n =>
    have hlt : c.data < heap.length := by
      by_contra hc
      rw [List.getElem?_eq_none (not_lt.mp hc)] at hg
      cases hg
    rw [List.getElem?_append_left hlt, hg]
    simpa [hg] using h

theorem add_to_database_cases (st : State α) (s : α) (db_ok node_ok add_ok : Bool)
    (hok : registry_ok st) (r : Option Nat) (st1 : State α)
    (h : add_to_database st s db_ok node_ok add_ok = .ok (r, st1)) :
    AddOutcome st s r st1 ∧
    st1.markov_chain.comp_func = st.markov_chain.comp_func ∧
    st1.markov_chain.copy_func = st.markov_chain.copy_func ∧
    st1.markov_chain.is_last = st.markov_chain.is_last := by
  obtain ⟨heap, mc⟩ := st
  cases hdb : mc.database with
  | none =>
    cases db_ok with
    | false =>
      simp [add_to_database, allocate_database, hdb] at h
      obtain ⟨rfl, rfl⟩ := h
      exact ⟨.failed [] rfl rfl rfl (by simp), rfl, rfl, rfl⟩
    | true =>
      cases node_ok with
      | false =>
        simp [add_to_database, allocate_database, hdb, get_node_from_database,
          get_node_from_database_loop, new_markov_node] at h
      | true =>
        cases hcp : mc.copy_func s with
        | none =>
          simp [add_to_database, allocate_database, hdb, get_node_from_database,
            get_node_from_database_loop, new_markov_node, hcp, modify_length_append] at h
          obtain ⟨rfl, rfl⟩ := h
          exact ⟨.failed [⟨none, none, 0, 0⟩] rfl (by simp [registry, hdb])
            (by simp [registry_size, hdb]) rfl, rfl, rfl, rfl⟩
        | some c =>
          cases add_ok with
          | false =>
            simp [add_to_database, allocate_database, hdb, get_node_from_database,
              get_node_from_database_loop, new_markov_node, hcp, modify_length_append, add] at h
            obtain ⟨rfl, rfl⟩ := h
            exact ⟨.failed [⟨some c, none, 0, 0⟩] rfl (by simp [registry, hdb])
              (by simp [registry_size, hdb]) rfl, rfl, rfl, rfl⟩
          | true =>
            simp [add_to_database, allocate_database, hdb, get_node_from_database,
              get_node_from_database_loop, new_markov_node, hcp, modify_length_append, add,
              LINKED_LIST_ADD_FAILED] at h
            obtain ⟨rfl, rfl⟩ := h
            exact ⟨.inserted c hcp (by simp [registry, hdb]) (by simp [registry, hdb])
              (by simp [registry_size, hdb]) rfl (by simp [registry, hdb]), rfl, rfl, rfl⟩
  | some database =>
    have hreg : registry (⟨heap, mc⟩ : State α) = database.nodes := by simp [registry, hdb]
    have hok2 : ∀ c ∈ database.nodes, ∃ v, stored heap c = some v := by
      rw [← hreg]; exact hok
    rcases db_loop_spec heap mc.comp_func s database.nodes 0 hok2 with
      ⟨h1, h2⟩ | ⟨k, c, v, h1, h2, h3, h4, h5⟩
    · cases node_ok with
      | false =>
        simp [add_to_database, allocate_database, hdb, get_node_from_database, h1,
          new_markov_node] at h
      | true =>
        cases hcp : mc.copy_func s with
        | none =>
          simp [add_to_database, allocate_database, hdb, get_node_from_database, h1,
            new_markov_node, hcp, modify_length_append] at h
          obtain ⟨rfl, rfl⟩ := h
          exact ⟨.failed [⟨none, none, 0, 0⟩] rfl (by simp [registry, hdb])
            (by simp [registry_size, hdb]) rfl, rfl, rfl, rfl⟩
        | some c =>
          cases add_ok with
          | false =>
            simp [add_to_database, allocate_database, hdb, get_node_from_database, h1,
              new_markov_node, hcp, modify_length_append, add] at h
            obtain ⟨rfl, rfl⟩ := h
            exact ⟨.failed [⟨some c, none, 0, 0⟩] rfl (by simp [registry, hdb])
              (by simp [registry_size, hdb]) rfl, rfl, rfl, rfl⟩
          | true =>
            simp [add_to_database, allocate_database, hdb, get_node_from_database, h1,
              new_markov_node, hcp, modify_length_append, add, LINKED_LIST_ADD_FAILED] at h
            obtain ⟨rfl, rfl⟩ := h
            exact ⟨.inserted c hcp (by simp [registry, hdb]) (by simp [registry, hdb])
              (by simp [registry_size, hdb]) rfl (by rw [hreg]; exact h2), rfl, rfl, rfl⟩
    · simp [add_to_database, allocate_database, hdb, get_node_from_database, h1] at h
      obtain ⟨rfl, rfl⟩ := h
      exact ⟨.found k c v rfl rfl (by rw [hreg]; exact h2) h3 h4 (by rw [hreg]; exact h5),
        rfl, rfl, rfl⟩

theorem add_node_data (n : MarkovNode α) (d : Ptr) (alloc : Option MarkovNodeFrequency) :
    (add_node_to_frequencies_list n d alloc).2.data = n.data := by
  obtain ⟨data, fl, size, msize⟩ := n
  simp only [add_node_to_frequencies_list]
  split
  · rfl
  · cases fl <;> cases alloc <;> simp [increase_markov_node_frequency_size]

theorem stored_set (heap : List (MarkovNode α)) (p : Ptr) (n n1 : MarkovNode α)
    (hp : heap[p]? = some n) (hd : n1.data = n.data) (c : Node) :
    stored (heap.set p n1) c = stored heap c := by
  simp only [stored, List.getElem?_set]
  have hlt : p < heap.length := by
    by_contra hc
    rw [List.getElem?_eq_none (not_lt.mp hc)] at hp
    cases hp
  by_cases h : p = c.data
  · rw [← h]
    simp [hlt, hp, hd]
  · simp [h]

/-- With the database allocated, a lookup that finds a cell makes
`add_to_database` return that cell and leave the state as it is. -/
theorem add_to_database_found (st : State α) (s : α) (db_ok node_ok add_ok : Bool)
    (k : Nat) (hne : registry st ≠ [])
    (h : get_node_from_database st s = .ok (some k, st)) :
    add_to_database st s db_ok node_ok add_ok = .ok (some k, st) := by
  obtain ⟨heap, mc⟩ := st
  cases hdb : mc.database with
  | none => simp [registry, hdb] at hne
  | some database =>
    simp only [add_to_database, allocate_database, hdb]
    rw [h]

/-- When every allocation succeeds, `add_to_database` returns a cell. -/
theorem add_to_database_succeeds (st : State α) (s c : α) (hok : registry_ok st)
    (hcp : st.markov_chain.copy_func s = some c) :
    ∃ r st1, add_to_database st s true true true = .ok (some r, st1) := by
  obtain ⟨heap, mc⟩ := st
  simp only at hcp
  cases hdb : mc.database with
  | none =>
    simp [add_to_database, allocate_database, hdb, get_node_from_database,
      get_node_from_database_loop, new_markov_node, hcp, add, LINKED_LIST_ADD_FAILED]
  | some database =>
    have hok2 : ∀ c ∈ database.nodes, ∃ v, stored heap c = some v := by
      have : registry (⟨heap, mc⟩ : State α) = database.nodes := by simp [registry, hdb]
      rw [← this]; exact hok
    rcases db_loop_spec heap mc.comp_func s database.nodes 0 hok2 with
      ⟨h1, _⟩ | ⟨k, _, _, h1, _⟩
    · simp [add_to_database, allocate_database, hdb, get_node_from_database, h1,
        new_markov_node, hcp, add, LINKED_LIST_ADD_FAILED]
    · simp [add_to_database, allocate_database, hdb, get_node_from_database, h1]

/-- C2. Insertion of a new state: when no registry cell compares equal to `s`,
a call of `add_to_database` that returns a cell has appended exactly one cell at
the end of the registry (`size` grew by 1, the earlier cells and every earlier
`MarkovNode` are as before); the new cell is the one returned, and its
`MarkovNode` holds `copy_func(s)` with an empty transition table of size 0.
When every allocation succeeds such a cell is returned. -/
theorem add_to_database_new (st : State α) (s : α) (db_ok node_ok add_ok : Bool)
    (hok : registry_ok st)
    (hnew : ∀ c ∈ registry st, ∀ v, stored st.heap c = some v →
      st.markov_chain.comp_func v s ≠ 0) :
    (∀ r st1, add_to_database st s db_ok node_ok add_ok = .ok (some r, st1) →
      registry st1 = registry st ++ [⟨st.heap.length⟩] ∧
      registry_size st1 = registry_size st + 1 ∧
      r = (registry st).length ∧
      (registry st1)[r]? = some ⟨st.heap.length⟩ ∧
      st.markov_chain.copy_func s ≠ none ∧
      st1.heap = st.heap ++ [⟨st.markov_chain.copy_func s, none, 0, 0⟩] ∧
      st1.heap[st.heap.length]? = some ⟨st.markov_chain.copy_func s, none, 0, 0⟩ ∧
      (∀ n, st1.heap[st.heap.length]? = some n → n.table = [])) ∧
    (∀ c, st.markov_chain.copy_func s = some c →
      ∃ st1, add_to_database st s true true true = .ok (some (registry st).length, st1)) := by
  have key : ∀ (a b c : Bool) r st1, add_to_database st s a b c = .ok (some r, st1) →
      registry st1 = registry st ++ [⟨st.heap.length⟩] ∧
      registry_size st1 = registry_size st + 1 ∧
      r = (registry st).length ∧
      (registry st1)[r]? = some ⟨st.heap.length⟩ ∧
      st.markov_chain.copy_func s ≠ none ∧
      st1.heap = st.heap ++ [⟨st.markov_chain.copy_func s, none, 0, 0⟩] ∧
      st1.heap[st.heap.length]? = some ⟨st.markov_chain.copy_func s, none, 0, 0⟩ ∧
      (∀ n, st1.heap[st.heap.length]? = some n → n.table = []) := by
    intro a b c r st1 h
    obtain ⟨hout, _⟩ := add_to_database_cases st s a b c hok (some r) st1 h
    cases hout with
    | found i c v hr hst hi hv hc hmin =>
      exact absurd hc (hnew c (List.getElem?_mem hi) v hv)
    | failed ext hr hreg hsize hheap => cases hr
    | inserted c hcopy hr hreg hsize hheap hnew1 =>
      cases hr
      refine ⟨hreg, hsize, rfl, by rw [hreg]; simp, by rw [hcopy]; simp,
        by rw [hheap, hcopy], by rw [hheap, hcopy]; simp, ?_⟩
      intro n hn
      rw [hheap] at hn
      simp at hn
      subst hn
      rfl
  refine ⟨key db_ok node_ok add_ok, ?_⟩
  intro c hcp
  obtain ⟨r, st1, h⟩ := add_to_database_succeeds st s c hok hcp
  have := (key true true true r st1 h).2.2.1
  subst this
  exact ⟨st1, h⟩

/-- What one call preserves: the registry invariants, the callbacks, the cells
already in the registry (the registry only grows at its end) and the values
they hold. -/
theorem step_preserves (st st1 : State α) (c : Call α)
    (htrans : ∀ x y z, st.markov_chain.comp_func x y = 0 → st.markov_chain.comp_func y z = 0 →
      st.markov_chain.comp_func x z = 0)
    (hcopy : ∀ s v, st.markov_chain.copy_func s = some v → st.markov_chain.comp_func v s = 0)
    (hok : registry_ok st) (huniq : registry_unique st) (h : step st c = .ok st1) :
    registry_ok st1 ∧ registry_unique st1 ∧
    st1.markov_chain.comp_func = st.markov_chain.comp_func ∧
    st1.markov_chain.copy_func = st.markov_chain.copy_func ∧
    (∃ ext, registry st1 = registry st ++ ext) ∧
    (∀ c ∈ registry st, stored st1.heap c = stored st.heap c) := by
  cases c with
  | insert s db_ok node_ok add_ok =>
    simp only [step] at h
    cases hadd : add_to_database st s db_ok node_ok add_ok with
    | error f => rw [hadd] at h; cases h
    | ok res =>
      obtain ⟨r, st2⟩ := res
      rw [hadd] at h
      simp only [Except.ok.injEq] at h
      subst h
      obtain ⟨hout, hcmp, hcp, _⟩ := add_to_database_cases st s db_ok node_ok add_ok hok r st2 hadd
      have hstored : ∀ ext, st2.heap = st.heap ++ ext →
          ∀ c ∈ registry st, stored st2.heap c = stored st.heap c := by
        intro ext hheap c hc
        obtain ⟨v, hv⟩ := hok c hc
        rw [hheap, stored_append st.heap ext c v hv, hv]
      cases hout with
      | found i c v hr hst hi hv hc hmin =>
        subst hst
        exact ⟨hok, huniq, rfl, rfl, ⟨[], by simp⟩, fun _ _ => rfl⟩
      | failed ext hr hreg hsize hheap =>
        have hs := hstored ext hheap
        refine ⟨?_, ?_, hcmp, hcp, ⟨[], by simp [hreg]⟩, hs⟩
        · intro c hc
          rw [hreg] at hc
          rw [hs c hc]; exact hok c hc
        · rw [registry_unique, hreg, hcmp]
          refine List.Pairwise.imp_of_mem ?_ huniq
          intro a b ha hb hR va vb hva hvb
          rw [hs a ha] at hva
          rw [hs b hb] at hvb
          exact hR va vb hva hvb
      | inserted v hcopy1 hr hreg hsize hheap hnew =>
        have hs := hstored _ hheap
        have hlast : stored st2.heap ⟨st.heap.length⟩ = some v := by
          rw [hheap]; simp [stored]
        refine ⟨?_, ?_, hcmp, hcp, ⟨_, hreg⟩, hs⟩
        · intro c hc
          rw [hreg] at hc
          rcases List.mem_append.mp hc with hc | hc
          · rw [hs c hc]; exact hok c hc
          · simp at hc; subst hc; exact ⟨v, hlast⟩
        · rw [registry_unique, hreg, hcmp, List.pairwise_append]
          refine ⟨?_, List.pairwise_singleton _ _, ?_⟩
          · refine List.Pairwise.imp_of_mem ?_ huniq
            intro a b ha hb hR va vb hva hvb
            rw [hs a ha] at hva
            rw [hs b hb] at hvb
            exact hR va vb hva hvb
          · intro a ha b hb va vb hva hvb hc
            simp at hb; subst hb
            rw [hlast] at hvb; cases hvb
            rw [hs a ha] at hva
            exact hnew a ha va hva (htrans _ _ _ hc (hcopy s _ hcopy1))
  | link first_node second_node alloc =>
    simp only [step, add_node_to_frequencies_list_at] at h
    cases hget : st.heap[first_node]? with
    | none => rw [hget] at h; cases h
    | some n =>
      rw [hget] at h
      simp only [Except.ok.injEq] at h
      subst h
      have hs : ∀ c, stored (st.heap.set first_node
          (add_node_to_frequencies_list n second_node alloc).2) c = stored st.heap c :=
        stored_set st.heap first_node n _ hget (add_node_data n second_node alloc)
      refine ⟨?_, ?_, rfl, rfl, ⟨[], by simp [registry]⟩, fun c _ => hs c⟩
      · intro c hc
        have hc2 : c ∈ registry st := hc
        rw [hs c]; exact hok c hc2
      · have huniq2 : (registry st).Pairwise (fun a b => ∀ va vb, stored st.heap a = some va →
            stored st.heap b = some vb → st.markov_chain.comp_func va vb ≠ 0) := huniq
        show (registry st).Pairwise _
        refine List.Pairwise.imp ?_ huniq2
        intro a b hR va vb hva hvb
        rw [hs a] at hva
        rw [hs b] at hvb
        exact hR va vb hva hvb

/-- The same preservation for a sequence of calls. -/
theorem run_preserves (st st1 : State α) (calls : List (Call α))
    (htrans : ∀ x y z, st.markov_chain.comp_func x y = 0 → st.markov_chain.comp_func y z = 0 →
      st.markov_chain.comp_func x z = 0)
    (hcopy : ∀ s v, st.markov_chain.copy_func s = some v → st.markov_chain.comp_func v s = 0)
    (hok : registry_ok st) (huniq : registry_unique st) (h : run st calls = .ok st1) :
    registry_ok st1 ∧ registry_unique st1 ∧
    st1.markov_chain.comp_func = st.markov_chain.comp_func ∧
    st1.markov_chain.copy_func = st.markov_chain.copy_func ∧
    (∃ ext, registry st1 = registry st ++ ext) ∧
    (∀ c ∈ registry st, stored st1.heap c = stored st.heap c) := by
  induction calls generalizing st with
  | nil =>
    simp only [run, Except.ok.injEq] at h
    subst h
    exact ⟨hok, huniq, rfl, rfl, ⟨[], by simp⟩, fun _ _ => rfl⟩
  | cons c rest ih =>
    simp only [run] at h
    cases hstep : step st c with
    | error f => rw [hstep] at h; cases h
    | ok st2 =>
      rw [hstep] at h
      obtain ⟨h1, h2, h3, h4, ⟨ext, h5⟩, h6⟩ := step_preserves st st2 c htrans hcopy hok huniq hstep
      obtain ⟨k1, k2, k3, k4, ⟨ext2, k5⟩, k6⟩ :=
        ih st2 (by rw [h3]; exact htrans) (by rw [h3, h4]; exact hcopy) h1 h2 h
      refine ⟨k1, k2, by rw [k3, h3], by rw [k4, h4], ⟨ext ++ ext2, by rw [k5, h5]; simp⟩, ?_⟩
      intro c hc
      rw [k6 c (by rw [h5]; exact List.mem_append_left _ hc), h6 c hc]

/-- In a registry without equal cells in order, two cells at different positions
hold values that do not compare equal, given that `comp_func` is symmetric. -/
theorem unique_index (st : State α)
    (hsymm : ∀ x y, st.markov_chain.comp_func x y = 0 → st.markov_chain.comp_func y x = 0)
    (huniq : registry_unique st) (i j : Nat) (ci cj : Node) (vi vj : α) (hij : i ≠ j)
    (hi : (registry st)[i]? = some ci) (hj : (registry st)[j]? = some cj)
    (hvi : stored st.heap ci = some vi) (hvj : stored st.heap cj = some vj) :
    st.markov_chain.comp_func vi vj ≠ 0 := by
  obtain ⟨hil, rfl⟩ := List.getElem?_eq_some.mp hi
  obtain ⟨hjl, rfl⟩ := List.getElem?_eq_some.mp hj
  have hp := List.pairwise_iff_getElem.mp huniq
  rcases Nat.lt_or_gt_of_ne hij with h | h
  · exact hp i j hil hjl h vi vj hvi hvj
  · intro hc
    exact hp j i hjl hil h vj vi hvj hvi (hsymm _ _ hc)

theorem initial_state (print_func : α → String) (comp_func : α → α → Int)
    (copy_func : α → Option α) (free_data : α → Unit) (is_last : α → Bool)
    (mc : MarkovChain α) (heap0 : List (MarkovNode α))
    (hnew : new_markov_chain print_func comp_func copy_func free_data is_last true = .ok mc) :
    mc.comp_func = comp_func ∧ mc.copy_func = copy_func ∧
    registry (⟨heap0, mc⟩ : State α) = [] := by
  simp only [new_markov_chain, if_true, Except.ok.injEq] at hnew
  subst hnew
  exact ⟨rfl, rfl, rfl⟩

/-- C4. Registry uniqueness invariant: in every state reached from a freshly
constructed chain by any sequence of calls of `add_to_database` and
`add_node_to_frequencies_list` (with any allocation outcomes), where `comp_func`
is symmetric and transitive and `copy_func` returns a value that compares equal
to its argument, no two cells at different positions of the registry hold
values that compare equal; and any further call leaves the cells of the
registry in place, adding cells only at the end. -/
theorem registry_uniqueness (print_func : α → String) (comp_func : α → α → Int)
    (copy_func : α → Option α) (free_data : α → Unit) (is_last : α → Bool)
    (mc : MarkovChain α) (heap0 : List (MarkovNode α)) (calls : List (Call α)) (st : State α)
    (hsymm : ∀ x y, comp_func x y = 0 → comp_func y x = 0)
    (htrans : ∀ x y z, comp_func x y = 0 → comp_func y z = 0 → comp_func x z = 0)
    (hcopy : ∀ s v, copy_func s = some v → comp_func v s = 0)
    (hnew : new_markov_chain print_func comp_func copy_func free_data is_last true = .ok mc)
    (hrun : run ⟨heap0, mc⟩ calls = .ok st) :
    (∀ (i j : Nat) (ci cj : Node) (vi vj : α), i ≠ j →
      (registry st)[i]? = some ci → (registry st)[j]? = some cj →
      stored st.heap ci = some vi → stored st.heap cj = some vj → comp_func vi vj ≠ 0) ∧
    (∀ c st1, step st c = .ok st1 → ∃ ext, registry st1 = registry st ++ ext) := by
  obtain ⟨hc1, hc2, hreg⟩ := initial_state print_func comp_func copy_func free_data is_last mc
    heap0 hnew
  have hok0 : registry_ok (⟨heap0, mc⟩ : State α) := by
    intro c hc; rw [hreg] at hc; simp at hc
  have hu0 : registry_unique (⟨heap0, mc⟩ : State α) := by
    rw [registry_unique, hreg]; exact List.Pairwise.nil
  obtain ⟨h1, h2, h3, h4, _, _⟩ := run_preserves ⟨heap0, mc⟩ st calls
    (by simp only [hc1]; exact htrans) (by simp only [hc1, hc2]; exact hcopy) hok0 hu0 hrun
  simp only [hc1] at h3
  simp only [hc2] at h4
  constructor
  · intro i j ci cj vi vj hij hi hj hvi hvj
    have := unique_index st (by rw [h3]; exact hsymm) h2 i j ci cj vi vj hij hi hj hvi hvj
    rw [h3] at this
    exact this
  · intro c st1 hstep
    exact (step_preserves st st1 c (by rw [h3]; exact htrans) (by rw [h3, h4]; exact hcopy)
      h1 h2 hstep).2.2.2.2.1

/-- C1. Dedup of `add_to_database`: on a chain built from a freshly constructed
one by any sequence of calls, where `comp_func` is symmetric and transitive and
`copy_func` returns a value that compares equal to its argument, if a call with
the state `s` returned the cell `r`, then after any further sequence of calls a
call with a state `s1` that compares equal to `s` returns the same cell `r` and
leaves the whole state (so the registry, its size and its order) as it was. -/
theorem add_to_database_dedup (print_func : α → String) (comp_func : α → α → Int)
    (copy_func : α → Option α) (free_data : α → Unit) (is_last : α → Bool)
    (mc : MarkovChain α) (heap0 : List (MarkovNode α)) (pre mid : List (Call α))
    (s s1 : α) (st1 st2 st3 : State α) (r : Nat)
    (db_ok node_ok add_ok db_ok1 node_ok1 add_ok1 : Bool)
    (hsymm : ∀ x y, comp_func x y = 0 → comp_func y x = 0)
    (htrans : ∀ x y z, comp_func x y = 0 → comp_func y z = 0 → comp_func x z = 0)
    (hcopy : ∀ s v, copy_func s = some v → comp_func v s = 0)
    (hnew : new_markov_chain print_func comp_func copy_func free_data is_last true = .ok mc)
    (hpre : run ⟨heap0, mc⟩ pre = .ok st1)
    (hins : add_to_database st1 s db_ok node_ok add_ok = .ok (some r, st2))
    (hmid : run st2 mid = .ok st3)
    (heq : comp_func s1 s = 0) :
    add_to_database st3 s1 db_ok1 node_ok1 add_ok1 = .ok (some r, st3) := by
  obtain ⟨hc1, hc2, hreg⟩ := initial_state print_func comp_func copy_func free_data is_last mc
    heap0 hnew
  have hok0 : registry_ok (⟨heap0, mc⟩ : State α) := by
    intro c hc; rw [hreg] at hc; simp at hc
  have hu0 : registry_unique (⟨heap0, mc⟩ : State α) := by
    rw [registry_unique, hreg]; exact List.Pairwise.nil
  obtain ⟨a1, a2, a3, a4, _, _⟩ := run_preserves ⟨heap0, mc⟩ st1 pre
    (by simp only [hc1]; exact htrans) (by simp only [hc1, hc2]; exact hcopy) hok0 hu0 hpre
  simp only [hc1] at a3
  simp only [hc2] at a4
  -- the first insertion, seen as one step
  have hstep : step st1 (.insert s db_ok node_ok add_ok) = .ok st2 := by
    simp [step, hins]
  obtain ⟨b1, b2, b3, b4, _, _⟩ := step_preserves st1 st2 _ (by rw [a3]; exact htrans)
    (by rw [a3, a4]; exact hcopy) a1 a2 hstep
  rw [a3] at b3
  rw [a4] at b4
  -- the cell returned holds a value that compares equal to `s`
  have hcell : ∃ c v, (registry st2)[r]? = some c ∧ stored st2.heap c = some v ∧
      comp_func v s = 0 := by
    obtain ⟨hout, _⟩ := add_to_database_cases st1 s db_ok node_ok add_ok a1 (some r) st2 hins
    cases hout with
    | found i c v hr hst hi hv hc hmin =>
      cases hr; subst hst
      exact ⟨c, v, hi, hv, by rw [← a3]; exact hc⟩
    | failed ext hr hreg hsize hheap => cases hr
    | inserted v hcopy1 hr hreg1 hsize hheap hnew1 =>
      cases hr
      refine ⟨⟨st1.heap.length⟩, v, by rw [hreg1]; simp, by rw [hheap]; simp [stored], ?_⟩
      exact hcopy s v (by rw [← a4]; exact hcopy1)
  obtain ⟨c, v, hc, hv, hvs⟩ := hcell
  obtain ⟨d1, d2, d3, d4, ⟨ext, d5⟩, d6⟩ := run_preserves st2 st3 mid
    (by rw [b3]; exact htrans) (by rw [b3, b4]; exact hcopy) b1 b2 hmid
  rw [b3] at d3
  have hc3 : (registry st3)[r]? = some c := by
    rw [d5]
    obtain ⟨hlt, hget⟩ := List.getElem?_eq_some.mp hc
    rw [List.getElem?_append_left hlt]; exact hc
  have hv3 : stored st3.heap c = some v := by
    rw [d6 c (List.getElem?_mem hc)]; exact hv
  have hvs1 : comp_func v s1 = 0 := htrans _ _ _ hvs (hsymm _ _ heq)
  -- the lookup of `s1` finds the cell `r`
  obtain ⟨res, hres, hnone, hsome⟩ := lookup_result st3 s1 d1
  have hlook : get_node_from_database st3 s1 = .ok (some r, st3) := by
    cases res with
    | none =>
      have := hnone.mp rfl c (List.getElem?_mem hc3) v hv3
      rw [d3] at this
      exact absurd hvs1 this
    | some k =>
      obtain ⟨ck, vk, hk1, hk2, hk3, _⟩ := hsome k rfl
      rw [d3] at hk3
      by_cases hkr : k = r
      · subst hkr; exact hres
      · have := unique_index st3 (by rw [d3]; exact hsymm) d2 k r ck c vk v hkr hk1 hc3 hk2 hv3
        rw [d3] at this
        exact absurd (htrans _ _ _ hk3 (hsymm _ _ hvs1)) this
  exact add_to_database_found st3 s1 db_ok1 node_ok1 add_ok1 r
    (by intro h; rw [h] at hc3; simp at hc3) hlook

/-! ## Concrete runs -/

theorem example_state_ok : registry_ok example_state := by
  intro c hc
  have : c = ⟨0⟩ ∨ c = ⟨1⟩ := by simpa [registry, example_state, example_chain_with] using hc
  rcases this with rfl | rfl
  · exact ⟨5, rfl⟩
  · exact ⟨8, rfl⟩

theorem example_symm (x y : Nat) (h : (x : Int) - (y : Int) = 0) : (y : Int) - (x : Int) = 0 := by
  omega

theorem example_trans (x y z : Nat) (h1 : (x : Int) - (y : Int) = 0)
    (h2 : (y : Int) - (z : Int) = 0) : (x : Int) - (z : Int) = 0 := by
  omega

theorem example_copy (s v : Nat) (h : (fun a : Nat => some a) s = some v) :
    (v : Int) - (s : Int) = 0 := by
  simp at h; omega

theorem add_to_database_dedup_witness :
    run (⟨[], example_chain⟩ : State Nat) [.insert 5 true true true]
      = .ok ⟨[⟨some 5, none, 0, 0⟩], example_chain_with [⟨0⟩] 1⟩ ∧
    add_to_database (⟨[⟨some 5, none, 0, 0⟩], example_chain_with [⟨0⟩] 1⟩ : State Nat) 8
      true true true = .ok (some 1,
        ⟨[⟨some 5, none, 0, 0⟩, ⟨some 8, none, 0, 0⟩], example_chain_with [⟨0⟩, ⟨1⟩] 2⟩) ∧
    run (⟨[⟨some 5, none, 0, 0⟩, ⟨some 8, none, 0, 0⟩], example_chain_with [⟨0⟩, ⟨1⟩] 2⟩ :
      State Nat) [.link 0 1 (some ⟨none, 0⟩)] = .ok example_state ∧
    add_to_database example_state 8 false false false = .ok (some 1, example_state) :=
  ⟨rfl, rfl, rfl,
    add_to_database_dedup example_chain.print_func example_chain.comp_func
      example_chain.copy_func example_chain.free_data example_chain.is_last example_chain [] [.insert 5 true true true]
      [.link 0 1 (some ⟨none, 0⟩)] 8 8
      ⟨[⟨some 5, none, 0, 0⟩], example_chain_with [⟨0⟩] 1⟩
      ⟨[⟨some 5, none, 0, 0⟩, ⟨some 8, none, 0, 0⟩], example_chain_with [⟨0⟩, ⟨1⟩] 2⟩
      example_state 1 true true true false false false
      example_symm example_trans example_copy rfl rfl rfl rfl (by decide)⟩

theorem add_to_database_new_witness :
    registry_ok example_state ∧
    (∀ c ∈ registry example_state, ∀ v, stored example_state.heap c = some v →
      example_state.markov_chain.comp_func v 9 ≠ 0) ∧
    ∃ st1, add_to_database example_state 9 true true true = .ok (some 2, st1) :=
  have hnew : ∀ c ∈ registry example_state, ∀ v, stored example_state.heap c = some v →
      example_state.markov_chain.comp_func v 9 ≠ 0 := by
    intro c hc v hv
    have : c = ⟨0⟩ ∨ c = ⟨1⟩ := by simpa [registry, example_state, example_chain_with] using hc
    rcases this with rfl | rfl
    · have h5 : v = 5 := by
        have : stored example_state.heap ⟨0⟩ = some 5 := rfl
        rw [this] at hv; cases hv; rfl
      subst h5; decide
    · have h8 : v = 8 := by
        have : stored example_state.heap ⟨1⟩ = some 8 := rfl
        rw [this] at hv; cases hv; rfl
      subst h8; decide
  ⟨example_state_ok, hnew,
    (add_to_database_new example_state 9 true true true example_state_ok hnew).2 9 rfl⟩

theorem get_node_from_database_spec_witness :
    registry_ok example_state ∧
    ∃ r, get_node_from_database example_state 8 = .ok (r, example_state) ∧
      (r = none ↔ ∀ c ∈ registry example_state, ∀ v, stored example_state.heap c = some v →
        example_state.markov_chain.comp_func v 8 ≠ 0) ∧
      (∀ i, r = some i → ∃ c v, (registry example_state)[i]? = some c ∧
        stored example_state.heap c = some v ∧
        example_state.markov_chain.comp_func v 8 = 0 ∧
        ∀ j c1 v1, j < i → (registry example_state)[j]? = some c1 →
          stored example_state.heap c1 = some v1 →
          example_state.markov_chain.comp_func v1 8 ≠ 0) :=
  ⟨example_state_ok, (get_node_from_database_spec example_state 8).2.2 example_state_ok⟩

theorem registry_uniqueness_witness :
    run (⟨[], example_chain⟩ : State Nat)
      [.insert 5 true true true, .insert 8 true true true, .link 0 1 (some ⟨none, 0⟩),
        .insert 5 true false true] = .ok example_state ∧
    (∀ (i j : Nat) (ci cj : Node) (vi vj : Nat), i ≠ j →
      (registry example_state)[i]? = some ci → (registry example_state)[j]? = some cj →
      stored example_state.heap ci = some vi → stored example_state.heap cj = some vj →
      (vi : Int) - (vj : Int) ≠ 0) :=
  ⟨rfl,
    (registry_uniqueness example_chain.print_func example_chain.comp_func
      example_chain.copy_func example_chain.free_data example_chain.is_last example_chain []
      [.insert 5 true true true, .insert 8 true true true, .link 0 1 (some ⟨none, 0⟩),
        .insert 5 true false true] example_state
      example_symm example_trans example_copy rfl rfl).1⟩

/-! ## Walks -/

theorem generate_tweet_loop_length (heap : List (MarkovNode α)) (is_last : α → Bool)
    (rand : Nat → Int) (steps : Nat) (p : Ptr) (pos : Nat) :
    (generate_tweet_loop heap is_last rand steps p pos).printed.length ≤ steps := by
  induction steps generalizing p pos with
  | zero => simp [generate_tweet_loop]
  | succ k ih =>
    simp only [generate_tweet_loop]
    split
    · simp
    · split
      · simp
      · simp
      · split
        · simp
        · split
          · simp
          · split
            · simp
            · simp only [List.length_cons]
              exact Nat.succ_le_succ (ih _ _)

theorem generate_tweet_length (st : State α) (first_node : Option Ptr) (max_length : Int)
    (rand : Nat → Int) (fuel : Nat) :
    (generate_tweet st first_node max_length rand fuel).printed.length ≤
      (max_length - 1).toNat + 1 := by
  simp only [generate_tweet]
  split
  · simp
  · simp
  · split
    · simp
    · split
      · simp
      · simp only [List.length_cons]
        exact Nat.succ_le_succ (generate_tweet_loop_length _ _ _ _ _ _)

/-- C11, as amended. Walk length bound: `generate_tweet` calls `print_func` on at
most `max_length` states, the start state included, when `max_length` is at
least 1, and on at most one state (the start state) otherwise: in every case on
at most `max max_length 1` states. -/
theorem walk_length_bound (st : State α) (first_node : Option Ptr) (max_length : Int)
    (rand : Nat → Int) (fuel : Nat) :
    ((generate_tweet st first_node max_length rand fuel).printed.length : Int) ≤
      max max_length 1 ∧
    (1 ≤ max_length →
      ((generate_tweet st first_node max_length rand fuel).printed.length : Int) ≤
        max_length) := by
  have h := generate_tweet_length st first_node max_length rand fuel
  constructor
  · rcases le_total max_length 1 with h1 | h1
    · rw [max_eq_right h1]; omega
    · rw [max_eq_left h1]; omega
  · intro h1; omega

theorem walk_length_bound_witness :
    (1 : Int) ≤ 2 ∧
    ((generate_tweet example_state (some 0) 2 (fun _ => 0) 0).printed.length : Int) ≤ 2 :=
  ⟨by decide, (walk_length_bound example_state (some 0) 2 (fun _ => 0) 0).2 (by decide)⟩

/-- C11, as stated, fails: with `max_length = 0` the walk from a supplied start
node still calls `print_func` once, on the start state. -/
theorem walk_length_bound_counterexample :
    (generate_tweet example_state (some 0) 0 (fun _ => 0) 0).printed = [(0, 5)] ∧
    ¬ (((generate_tweet example_state (some 0) 0 (fun _ => 0) 0).printed.length : Int) ≤ 0) := by
  decide

/-- C12. The walk emits the start state: for a supplied start node that is a
live node holding a state value, whatever the draws and `max_length`, the first
call of `print_func` made by `generate_tweet` is on the state of the start node
(so the emitted sequence is not empty). -/
theorem walk_emits_start (st : State α) (p : Ptr) (max_length : Int) (rand : Nat → Int)
    (fuel : Nat) (first : MarkovNode α) (d : α)
    (hp : st.heap[p]? = some first) (hd : first.data = some d) :
    (generate_tweet st (some p) max_length rand fuel).printed ≠ [] ∧
    (generate_tweet st (some p) max_length rand fuel).printed.head? = some (p, d) := by
  simp [generate_tweet, hp, hd]

theorem walk_emits_start_witness :
    example_state.heap[1]? = some ⟨some 8, none, 0, 0⟩ ∧
    (generate_tweet example_state (some 1) 7 (fun i => i) 0).printed.head? = some (1, 8) :=
  ⟨rfl, (walk_emits_start example_state 1 7 (fun i => i) 0 ⟨some 8, none, 0, 0⟩ 8 rfl rfl).2⟩

theorem table_eq_nil_size (heap : List (MarkovNode α)) (n : MarkovNode α) (hn : node_ok heap n)
    (ht : n.table = []) : n.frequencies_list_size = 0 := by
  obtain ⟨data, fl, size, msize⟩ := n
  obtain ⟨hv, hnull, _⟩ := hn
  cases fl with
  | none => exact hnull rfl
  | some l =>
    simp only [MarkovNode.valid] at hv
    simp only [MarkovNode.table, List.take_eq_nil_iff] at ht
    dsimp only at hv ht ⊢
    rcases ht with h | h
    · omega
    · subst h
      simp only [List.length_nil] at hv
      omega

theorem count_sum_pos (t : List MarkovNodeFrequency) (hne : t ≠ [])
    (hpos : ∀ e ∈ t, 1 ≤ e.frequency) : 0 < count_sum t := by
  cases t with
  | nil => exact absurd rfl hne
  | cons e rest =>
    simp only [List.mem_cons, forall_eq_or_imp] at hpos
    have := count_sum_nonneg rest (fun x hx => by have := hpos.2 x hx; omega)
    rw [count_sum_cons]
    omega

/-- On a node fit for a walk, with a non-negative value of `rand()`,
`get_next_random_node` returns `NULL` when the table is empty and otherwise a
destination of the table, which is a live node holding a state value. -/
theorem get_next_random_node_ok (heap : List (MarkovNode α)) (n : MarkovNode α) (r : Int)
    (hn : node_ok heap n) (hr : 0 ≤ r) :
    (n.table = [] ∧ get_next_random_node n r = .ok none) ∨
    (n.table ≠ [] ∧ ∃ e q m v, e ∈ n.table ∧ e.markov_node = some q ∧
      get_next_random_node n r = .ok (some q) ∧ heap[q]? = some m ∧ m.data = some v) := by
  by_cases ht : n.table = []
  · left
    refine ⟨ht, ?_⟩
    have := table_eq_nil_size heap n hn ht
    simp [get_next_random_node, this]
  · right
    refine ⟨ht, ?_⟩
    obtain ⟨_, _, hall⟩ := hn
    have hpos : ∀ e ∈ n.table, 1 ≤ e.frequency := fun e he => (hall e he).1
    have hT := count_sum_pos n.table ht hpos
    have h1 : 0 ≤ Int.tmod r (count_sum n.table) := Int.tmod_nonneg _ hr
    have h2 : Int.tmod r (count_sum n.table) < count_sum n.table := Int.tmod_lt_of_pos _ hT
    obtain ⟨k, e, hk, hsel, _, _⟩ := selection_bracket n.table _
      (fun e he => by have := hpos e he; omega) h1 h2
    have hmem : e ∈ n.table := List.getElem?_mem hk
    obtain ⟨_, q, m, v, hq, hm, hv⟩ := hall e hmem
    refine ⟨e, q, m, v, hmem, hq, ?_, hm, hv⟩
    rw [get_next_random_node_draw n r ht (by omega), hsel, hq]

/-- The walk loop on an arena fit for walks, from a node that holds a
non-terminal state: the loop returns; every emitted state but the last one is
non-terminal and sits in a node with a non-empty table; and when the loop ends
before its bound the last state is terminal or sits in a node with an empty
table. The list considered starts with the current node. -/
theorem generate_tweet_loop_stops (heap : List (MarkovNode α)) (is_last : α → Bool)
    (rand : Nat → Int) (hheap : heap_ok heap) (hrand : ∀ i, 0 ≤ rand i)
    (steps : Nat) (p : Ptr) (pos : Nat) (obj : MarkovNode α) (d : α)
    (hp : heap[p]? = some obj) (hd : obj.data = some d) (hl : is_last d = false) :
    (generate_tweet_loop heap is_last rand steps p pos).ending = .returned ∧
    (∀ (i : Nat) (q : Ptr) (e : α),
      i + 1 < ((p, d) :: (generate_tweet_loop heap is_last rand steps p pos).printed).length →
      ((p, d) :: (generate_tweet_loop heap is_last rand steps p pos).printed)[i]? = some (q, e) →
      is_last e = false ∧ ∃ m, heap[q]? = some m ∧ m.data = some e ∧ m.table ≠ []) ∧
    ((generate_tweet_loop heap is_last rand steps p pos).printed.length < steps →
      ∃ q e, ((p, d) :: (generate_tweet_loop heap is_last rand steps p pos).printed).getLast?
          = some (q, e) ∧
        (is_last e = true ∨ ∃ m, heap[q]? = some m ∧ m.data = some e ∧ m.table = [])) := by
  induction steps generalizing p pos obj d with
  | zero =>
    simp [generate_tweet_loop]
  | succ k ih =>
    have hobj : node_ok heap obj := hheap obj (List.getElem?_mem hp)
    rcases get_next_random_node_ok heap obj (rand pos) hobj (hrand pos) with
      ⟨ht, hnext⟩ | ⟨ht, e0, q, m, v, _, _, hnext, hq, hv⟩
    · simp only [generate_tweet_loop, hp, hnext]
      refine ⟨by first | rfl | trivial, ?_, ?_⟩
      · intro i q e hi; simp at hi
      · intro _
        exact ⟨p, d, rfl, Or.inr ⟨obj, hp, hd, ht⟩⟩
    · by_cases hlv : is_last v = true
      · simp only [generate_tweet_loop, hp, hnext, hq, hv, hlv, if_true]
        refine ⟨by first | rfl | trivial, ?_, ?_⟩
        · intro i q1 e hi hget
          have hi0 : i = 0 := by simp at hi; omega
          subst hi0
          simp at hget
          obtain ⟨rfl, rfl⟩ := hget
          exact ⟨hl, obj, hp, hd, ht⟩
        · intro _
          exact ⟨q, v, rfl, Or.inl hlv⟩
      · have hlv2 : is_last v = false := by simpa using hlv
        obtain ⟨i1, i2, i3⟩ := ih q (pos + 1) m v hq hv hlv2
        simp only [generate_tweet_loop, hp, hnext, hq, hv, hlv2, Bool.false_eq_true, if_false]
        refine ⟨i1, ?_, ?_⟩
        · intro i q1 e hi hget
          cases i with
          | zero =>
            simp at hget
            obtain ⟨rfl, rfl⟩ := hget
            exact ⟨hl, obj, hp, hd, ht⟩
          | succ j =>
            apply i2 j q1 e
            · simp only [List.length_cons] at hi ⊢; omega
            · simpa using hget
        · intro hlen
          simp only [List.length_cons] at hlen
          obtain ⟨q1, e, h1, h2⟩ := i3 (by omega)
          refine ⟨q1, e, ?_, h2⟩
          rw [List.getLast?_cons_cons]
          exact h1

theorem get_node_in_index_loop_ok (len steps i : Nat) (h : i + steps < len) :
    get_node_in_index_loop len steps (some i) = .ok (some (i + steps)) := by
  induction steps generalizing i with
  | zero => simp [get_node_in_index_loop]
  | succ k ih =>
    have h1 : i + 1 < len := by omega
    simp only [get_node_in_index_loop, h1, if_true]
    rw [ih (i + 1) (by omega)]
    congr 2; omega

theorem get_node_in_index_ok (list : LinkedList) (index : Int) (h0 : 0 ≤ index)
    (h : index < list.nodes.length) :
    get_node_in_index list index = .ok (some index.toNat) := by
  have hlen : list.nodes.length ≠ 0 := by omega
  simp only [get_node_in_index, hlen, if_false]
  rw [get_node_in_index_loop_ok _ _ 0 (by omega)]
  simp

/-- One iteration of the loop of `get_first_random_node` on a registry whose
`size` is its number of cells: the cell at the drawn index is read, and the loop
goes on exactly when its state is terminal. -/
theorem get_first_random_node_iter (st : State α) (database : LinkedList) (rand : Nat → Int)
    (fuel pos : Nat) (d : α)
    (hsize : database.size = database.nodes.length) (hrand : 0 ≤ rand pos)
    (hd : drawn_state st database (rand pos) = some d) :
    ∃ node, database.nodes[(Int.tmod (rand pos) database.size).toNat]? = some node ∧
      stored st.heap node = some d ∧
      get_first_random_node_loop st database rand (fuel + 1) pos =
        if st.markov_chain.is_last d then
          get_first_random_node_loop st database rand fuel (pos + 1)
        else some (.ok (node.data, pos + 1)) := by
  simp only [drawn_state] at hd
  cases hnode : database.nodes[(Int.tmod (rand pos) database.size).toNat]? with
  | none => simp [hnode] at hd
  | some node =>
    simp only [hnode, Option.some_bind] at hd
    refine ⟨node, rfl, hd, ?_⟩
    have hlt : (Int.tmod (rand pos) database.size).toNat < database.nodes.length := by
      by_contra hc
      rw [List.getElem?_eq_none (not_lt.mp hc)] at hnode
      cases hnode
    have hpos : 0 < database.size := by omega
    have h0 : 0 ≤ Int.tmod (rand pos) database.size := Int.tmod_nonneg _ hrand
    have hne : database.size ≠ 0 := by omega
    have hidx := get_node_in_index_ok database (Int.tmod (rand pos) database.size) h0 (by omega)
    simp only [stored] at hd
    cases hm : st.heap[node.data]? with
    | none => simp [hm] at hd
    | some m =>
      simp only [hm, Option.some_bind] at hd
      simp only [get_first_random_node_loop, get_random_number, hne, if_false, hidx, hnode, hm, hd]

theorem get_first_random_node_loop_first (st : State α) (database : LinkedList)
    (rand : Nat → Int) (k fuel pos : Nat) (d : α)
    (hsize : database.size = database.nodes.length) (hrand : ∀ i, 0 ≤ rand i)
    (hterm : ∀ j, j < k → ∃ t, drawn_state st database (rand (pos + j)) = some t ∧
      st.markov_chain.is_last t = true)
    (hk : drawn_state st database (rand (pos + k)) = some d)
    (hkl : st.markov_chain.is_last d = false) (hfuel : k < fuel) :
    ∃ node, database.nodes[(Int.tmod (rand (pos + k)) database.size).toNat]? = some node ∧
      stored st.heap node = some d ∧
      get_first_random_node_loop st database rand fuel pos = some (.ok (node.data, pos + k + 1)) := by
  induction k generalizing fuel pos with
  | zero =>
    obtain ⟨f, rfl⟩ : ∃ f, fuel = f + 1 := ⟨fuel - 1, by omega⟩
    obtain ⟨node, h1, h2, h3⟩ := get_first_random_node_iter st database rand f pos d hsize
      (hrand pos) hk
    exact ⟨node, h1, h2, by rw [h3]; simp [hkl]⟩
  | succ k ih =>
    obtain ⟨f, rfl⟩ : ∃ f, fuel = f + 1 := ⟨fuel - 1, by omega⟩
    obtain ⟨t, ht, htl⟩ := hterm 0 (by omega)
    obtain ⟨_, _, _, h3⟩ := get_first_random_node_iter st database rand f pos t hsize
      (hrand pos) ht
    have hshift : ∀ j, pos + 1 + j = pos + (j + 1) := fun j => by omega
    obtain ⟨node, i1, i2, i3⟩ := ih f (pos + 1)
      (fun j hj => by rw [hshift]; exact hterm (j + 1) (by omega))
      (by rw [hshift]; exact hk) (by omega)
    rw [hshift] at i1
    refine ⟨node, i1, i2, ?_⟩
    rw [h3]
    simp only [htl, if_true, i3]
    congr 3; omega

theorem get_first_random_node_loop_nonterminal (st : State α) (database : LinkedList)
    (rand : Nat → Int) (fuel pos : Nat) (p : Ptr) (pos1 : Nat)
    (h : get_first_random_node_loop st database rand fuel pos = some (.ok (p, pos1))) :
    ∃ m d, st.heap[p]? = some m ∧ m.data = some d ∧ st.markov_chain.is_last d = false := by
  induction fuel generalizing pos with
  | zero => simp [get_first_random_node_loop] at h
  | succ f ih =>
    simp only [get_first_random_node_loop] at h
    split at h
    · cases h
    · split at h
      · cases h
      · cases h
      · split at h
        · cases h
        · split at h
          · cases h
          · split at h
            · cases h
            · rename_i node _ _ m hm _ d hd
              split at h
              · exact ih (pos + 1) h
              · rename_i hl
                simp only [Option.some.injEq, Except.ok.injEq, Prod.mk.injEq] at h
                obtain ⟨rfl, _⟩ := h
                exact ⟨m, d, hm, hd, by simpa using hl⟩

/-- C15. Random start selection: on a chain with a registry (its `size` being
its number of cells, which is not zero as soon as a draw falls on a cell), with
non-negative values of `rand()`, if the first `k` draws (taken modulo the
registry size) fall on terminal states and the next one on a non-terminal state,
`get_first_random_node` returns the node of the registry cell at that draw's
index, after `k + 1` draws. Whenever the function returns a node, the state of
that node is not terminal. -/
theorem random_start (st : State α) (database : LinkedList) (rand : Nat → Int)
    (k fuel pos : Nat) (d : α)
    (hdb : st.markov_chain.database = some database)
    (hsize : database.size = database.nodes.length)
    (hrand : ∀ i, 0 ≤ rand i)
    (hterm : ∀ j, j < k → ∃ t, drawn_state st database (rand (pos + j)) = some t ∧
      st.markov_chain.is_last t = true)
    (hk : drawn_state st database (rand (pos + k)) = some d)
    (hkl : st.markov_chain.is_last d = false) (hfuel : k < fuel) :
    (∃ node, database.nodes[(Int.tmod (rand (pos + k)) database.size).toNat]? = some node ∧
      stored st.heap node = some d ∧
      get_first_random_node st rand fuel pos = some (.ok (node.data, pos + k + 1))) ∧
    (∀ (fuel1 pos1 : Nat) (p : Ptr) (pos2 : Nat),
      get_first_random_node st rand fuel1 pos1 = some (.ok (p, pos2)) →
      ∃ m e, st.heap[p]? = some m ∧ m.data = some e ∧ st.markov_chain.is_last e = false) := by
  constructor
  · simp only [get_first_random_node, hdb]
    exact get_first_random_node_loop_first st database rand k fuel pos d hsize hrand hterm hk
      hkl hfuel
  · intro fuel1 pos1 p pos2 h
    simp only [get_first_random_node, hdb] at h
    exact get_first_random_node_loop_nonterminal st database rand fuel1 pos1 p pos2 h



theorem random_start_witness :
    (∀ j, j < 0 → ∃ t, drawn_state example_state ⟨[⟨0⟩, ⟨1⟩], 2⟩ ((fun i : Nat => (i : Int) + 1) (0 + j))
        = some t ∧ example_state.markov_chain.is_last t = true) ∧
    drawn_state example_state ⟨[⟨0⟩, ⟨1⟩], 2⟩ ((fun i : Nat => (i : Int) + 1) (0 + 0)) = some 8 ∧
    get_first_random_node example_state (fun i : Nat => (i : Int) + 1) 3 0 = some (.ok (1, 1)) :=
  have hterm : ∀ j, j < 0 → ∃ t,
      drawn_state example_state ⟨[⟨0⟩, ⟨1⟩], 2⟩ ((fun i : Nat => (i : Int) + 1) (0 + j)) = some t ∧
      example_state.markov_chain.is_last t = true := fun j hj => absurd hj (Nat.not_lt_zero j)
  ⟨hterm, rfl,
    by
      obtain ⟨node, h1, _, h3⟩ := (random_start example_state ⟨[⟨0⟩, ⟨1⟩], 2⟩
        (fun i : Nat => (i : Int) + 1) 0 3 0 8 rfl rfl (fun i => by positivity) hterm rfl rfl
        (by decide)).1
      have hn : node = ⟨1⟩ := by
        have : (([⟨0⟩, ⟨1⟩] : List Node)[1]?) = some node := h1
        simpa using this.symm
      subst hn
      exact h3⟩

theorem round_trip_build (mc : MarkovChain α) (w1 w2 w3 : α) (j1 j2 : MarkovNodeFrequency)
    (hdb : mc.database = none)
    (hc1 : mc.copy_func w1 = some w1) (hc2 : mc.copy_func w2 = some w2)
    (hc3 : mc.copy_func w3 = some w3)
    (h12 : mc.comp_func w1 w2 ≠ 0) (h13 : mc.comp_func w1 w3 ≠ 0)
    (h23 : mc.comp_func w2 w3 ≠ 0) :
    run ⟨[], mc⟩ [.insert w1 true true true, .insert w2 true true true,
        .insert w3 true true true, .link 0 1 (some j1), .link 1 2 (some j2)] =
      .ok ⟨[⟨some w1, some [⟨some 1, 1⟩], 1, 1⟩, ⟨some w2, some [⟨some 2, 1⟩], 1, 1⟩,
            ⟨some w3, none, 0, 0⟩],
          { mc with database := some ⟨[⟨0⟩, ⟨1⟩, ⟨2⟩], 3⟩ }⟩ := by
  simp [run, step, add_to_database, allocate_database, hdb, get_node_from_database,
    get_node_from_database_loop, new_markov_node, hc1, hc2, hc3, h12, h13, h23, add,
    LINKED_LIST_ADD_FAILED, STRCMP_EQUAL, add_node_to_frequencies_list_at,
    add_node_to_frequencies_list, get_node_from_frequencies_list, NOT_IN_ARRAY,
    increase_markov_node_frequency_size]

theorem round_trip_walk (mc : MarkovChain α) (w1 w2 w3 : α) (rand : Nat → Int) (fuel : Nat)
    (hl2 : mc.is_last w2 = false) :
    generate_tweet
      (⟨[⟨some w1, some [⟨some 1, 1⟩], 1, 1⟩, ⟨some w2, some [⟨some 2, 1⟩], 1, 1⟩,
            ⟨some w3, none, 0, 0⟩],
          { mc with database := some ⟨[⟨0⟩, ⟨1⟩, ⟨2⟩], 3⟩ }⟩ : State α)
      (some 0) 10 rand fuel = ⟨[(0, w1), (1, w2), (2, w3)], .returned⟩ := by
  have e9 : ((10 : Int) - 1).toNat = 7 + 1 + 1 := by decide
  by_cases hl3 : mc.is_last w3 = true
  · simp [generate_tweet, e9, generate_tweet_loop, get_next_random_node, total_weight_loop,
      get_random_number, get_next_random_node_loop, hl2, hl3]
  · simp [generate_tweet, e9, generate_tweet_loop, get_next_random_node, total_weight_loop,
      get_random_number, get_next_random_node_loop, hl2, hl3]

/-! ## Teardown -/

theorem registry_exact_ok (st : State α) (h : registry_exact st) : registry_ok st := by
  obtain ⟨hreg, hdata⟩ := h
  intro c hc
  have hmem : c.data ∈ (registry st).map (fun c => c.data) := List.mem_map.mpr ⟨c, hc, rfl⟩
  rw [hreg] at hmem
  have hlt : c.data < st.heap.length := List.mem_range.mp hmem
  have hget : st.heap[c.data]? = some st.heap[c.data] := List.getElem?_eq_getElem hlt
  cases hd : (st.heap[c.data]).data with
  | none => exact absurd hd (hdata _ (List.getElem_mem hlt))
  | some v => exact ⟨v, by simp [stored, hget, hd]⟩

theorem step_exact (st st1 : State α) (c : Call α) (h : registry_exact st)
    (hstep : step st c = .ok st1) (hsucc : step_succeeds st c = true) :
    registry_exact st1 := by
  have hok := registry_exact_ok st h
  obtain ⟨hreg, hdata⟩ := h
  cases c with
  | insert s db_ok node_ok add_ok =>
    simp only [step] at hstep
    simp only [step_succeeds] at hsucc
    cases hadd : add_to_database st s db_ok node_ok add_ok with
    | error f => rw [hadd] at hstep; cases hstep
    | ok res =>
      obtain ⟨r, st2⟩ := res
      rw [hadd] at hstep hsucc
      simp only [Except.ok.injEq] at hstep
      subst hstep
      obtain ⟨hout, _⟩ := add_to_database_cases st s db_ok node_ok add_ok hok r st2 hadd
      cases hout with
      | found i c v hr hst hi hv hc hmin => subst hst; exact ⟨hreg, hdata⟩
      | failed ext hr hreg1 hsize hheap => subst hr; simp at hsucc
      | inserted v hcopy hr hreg1 hsize hheap hnew =>
        constructor
        · rw [hreg1, hheap]
          simp [hreg, List.range_succ]
        · intro n hn
          rw [hheap] at hn
          rcases List.mem_append.mp hn with hn | hn
          · exact hdata n hn
          · simp at hn; subst hn; simp
  | link first_node second_node alloc =>
    simp only [step, add_node_to_frequencies_list_at] at hstep
    cases hget : st.heap[first_node]? with
    | none => rw [hget] at hstep; cases hstep
    | some n =>
      rw [hget] at hstep
      simp only [Except.ok.injEq] at hstep
      subst hstep
      constructor
      · simpa [registry] using hreg
      · intro m hm
        rcases List.mem_or_eq_of_mem_set hm with hm | hm
        · exact hdata m hm
        · subst hm
          rw [add_node_data]
          exact hdata n (List.getElem?_mem hget)

theorem run_exact (st st1 : State α) (calls : List (Call α)) (h : registry_exact st)
    (hrun : run st calls = .ok st1) (hsucc : run_succeeds st calls = true) :
    registry_exact st1 := by
  induction calls generalizing st with
  | nil =>
    simp only [run, Except.ok.injEq] at hrun
    subst hrun; exact h
  | cons c rest ih =>
    simp only [run] at hrun
    simp only [run_succeeds, Bool.and_eq_true] at hsucc
    cases hstep : step st c with
    | error f => rw [hstep] at hrun; cases hrun
    | ok st2 =>
      rw [hstep] at hrun hsucc
      exact ih st2 (step_exact st st2 c h hstep hsucc.1) hrun hsucc.2

theorem free_database_loop_exact (heap : List (MarkovNode α)) (m k : Nat)
    (h : ∀ p, k ≤ p → p < k + m → ∃ n v, heap[p]? = some n ∧ n.data = some v) :
    free_database_loop heap ((List.range' k m).map Node.mk) k =
      .ok ((List.range' k m).flatMap (cell_release heap)) := by
  induction m generalizing k with
  | zero => simp [free_database_loop]
  | succ m ih =>
    obtain ⟨n, v, hn, hv⟩ := h k (le_refl _) (by omega)
    have := ih (k + 1) (fun p h1 h2 => h p (by omega) (by omega))
    simp only [List.range'_succ, List.map_cons, free_database_loop, hn, hv, this,
      List.flatMap_cons, cell_release]

theorem registry_of_exact (st : State α) (h : registry_exact st) :
    registry st = (List.range st.heap.length).map Node.mk := by
  rw [← h.1, List.map_map]
  have hid : (Node.mk ∘ fun c : Node => c.data) = id := by funext c; rfl
  rw [hid, List.map_id]

theorem mem_cell_release (heap : List (MarkovNode α)) (p : Ptr) (n : MarkovNode α)
    (hn : heap[p]? = some n) (x : Allocation) :
    x ∈ cell_release heap p ↔
      x = .data p ∨ (x = .frequencies_list p ∧ n.frequencies_list ≠ none) ∨
      x = .markov_node p ∨ x = .list_node p := by
  simp only [cell_release, hn]
  by_cases hf : n.frequencies_list = none <;> simp [hf]

theorem mem_node_allocations (heap : List (MarkovNode α)) (p : Ptr) (n : MarkovNode α)
    (hn : heap[p]? = some n) (x : Allocation) :
    x ∈ node_allocations heap p ↔
      x = .markov_node p ∨ (x = .data p ∧ n.data ≠ none) ∨
      (x = .frequencies_list p ∧ n.frequencies_list ≠ none) := by
  simp only [node_allocations, hn]
  cases hd : n.data <;> cases hf : n.frequencies_list <;> simp

theorem cell_release_nodup (heap : List (MarkovNode α)) (p : Ptr) :
    (cell_release heap p).Nodup := by
  simp only [cell_release]
  split
  · exact List.nodup_nil
  · split <;> simp

theorem cell_release_index (heap : List (MarkovNode α)) (p : Ptr) (x : Allocation)
    (h : x ∈ cell_release heap p) :
    x = .data p ∨ x = .frequencies_list p ∨ x = .markov_node p ∨ x = .list_node p := by
  simp only [cell_release] at h
  split at h
  · simp at h
  · rename_i n hn
    rcases (mem_cell_release heap p n hn x).mp (by simp only [cell_release, hn]; exact h) with
      h | h | h | h
    · exact Or.inl h
    · exact Or.inr (Or.inl h.1)
    · exact Or.inr (Or.inr (Or.inl h))
    · exact Or.inr (Or.inr (Or.inr h))

theorem released_nodup (heap : List (MarkovNode α)) (len : Nat) :
    ((List.range len).flatMap (cell_release heap) ++
      [Allocation.database, Allocation.markov_chain]).Nodup := by
  rw [List.nodup_append]
  refine ⟨?_, by simp, ?_⟩
  · rw [List.nodup_flatMap]
    refine ⟨fun p _ => cell_release_nodup heap p, ?_⟩
    refine List.Pairwise.imp_of_mem ?_ (List.nodup_range len)
    intro a b _ _ hab
    simp only [Function.onFun]
    rw [List.disjoint_left]
    intro x hxa hxb
    have ha := cell_release_index heap a x hxa
    have hb := cell_release_index heap b x hxb
    rcases ha with rfl | rfl | rfl | rfl <;> rcases hb with h | h | h | h <;>
      simp at h <;> exact hab h
  · intro x hx hy
    rw [List.mem_flatMap] at hx
    obtain ⟨p, _, hp⟩ := hx
    have := cell_release_index heap p x hp
    rcases this with rfl | rfl | rfl | rfl <;> simp at hy

theorem mem_released (heap : List (MarkovNode α)) (x : Allocation) :
    x ∈ (List.range heap.length).flatMap (cell_release heap) ↔
      ∃ p n, heap[p]? = some n ∧
        (x = .data p ∨ (x = .frequencies_list p ∧ n.frequencies_list ≠ none) ∨
          x = .markov_node p ∨ x = .list_node p) := by
  rw [List.mem_flatMap]
  constructor
  · rintro ⟨p, hp, hx⟩
    have hlt := List.mem_range.mp hp
    exact ⟨p, heap[p], List.getElem?_eq_getElem hlt,
      (mem_cell_release heap p _ (List.getElem?_eq_getElem hlt) x).mp hx⟩
  · rintro ⟨p, n, hn, hx⟩
    have hlt : p < heap.length := by
      by_contra hc
      rw [List.getElem?_eq_none (not_lt.mp hc)] at hn
      cases hn
    exact ⟨p, List.mem_range.mpr hlt, (mem_cell_release heap p n hn x).mpr hx⟩

theorem mem_live_nodes (heap : List (MarkovNode α)) (x : Allocation) :
    x ∈ (List.range heap.length).flatMap (node_allocations heap) ↔
      ∃ p n, heap[p]? = some n ∧
        (x = .markov_node p ∨ (x = .data p ∧ n.data ≠ none) ∨
          (x = .frequencies_list p ∧ n.frequencies_list ≠ none)) := by
  rw [List.mem_flatMap]
  constructor
  · rintro ⟨p, hp, hx⟩
    have hlt := List.mem_range.mp hp
    exact ⟨p, heap[p], List.getElem?_eq_getElem hlt,
      (mem_node_allocations heap p _ (List.getElem?_eq_getElem hlt) x).mp hx⟩
  · rintro ⟨p, n, hn, hx⟩
    have hlt : p < heap.length := by
      by_contra hc
      rw [List.getElem?_eq_none (not_lt.mp hc)] at hn
      cases hn
    exact ⟨p, List.mem_range.mpr hlt, (mem_node_allocations heap p n hn x).mpr hx⟩

/-- Teardown of a state that holds nothing but what successful calls made, with
the database allocated. -/
theorem free_database_exact (st : State α) (database : LinkedList) (h : registry_exact st)
    (hdb : st.markov_chain.database = some database) :
    free_database st.heap (some st.markov_chain) =
      .ok ((List.range st.heap.length).flatMap (cell_release st.heap) ++
        [Allocation.database, Allocation.markov_chain], none) ∧
    ∀ x, x ∈ (List.range st.heap.length).flatMap (cell_release st.heap) ++
        [Allocation.database, Allocation.markov_chain] ↔ x ∈ live_allocations st := by
  have hreg := registry_of_exact st h
  have hnodes : database.nodes = (List.range st.heap.length).map Node.mk := by
    rw [← hreg]; simp [registry, hdb]
  have hsome : ∀ p, p < st.heap.length → ∃ n v, st.heap[p]? = some n ∧ n.data = some v := by
    intro p hp
    have hget : st.heap[p]? = some st.heap[p] := List.getElem?_eq_getElem hp
    cases hd : (st.heap[p]).data with
    | none => exact absurd hd (h.2 _ (List.getElem_mem hp))
    | some v => exact ⟨_, v, hget, hd⟩
  constructor
  · have hloop := free_database_loop_exact st.heap st.heap.length 0
      (fun p _ hp => hsome p (by omega))
    rw [← List.range_eq_range'] at hloop
    simp only [free_database, hdb, hnodes, hloop]
  · intro x
    have hlen : database.nodes.length = st.heap.length := by rw [hnodes]; simp
    simp only [live_allocations, hdb, hlen, List.mem_append, mem_released, mem_live_nodes,
      List.mem_cons, List.mem_singleton, List.mem_map, List.mem_range, List.not_mem_nil,
      or_false]
    constructor
    · rintro (⟨p, n, hn, hx⟩ | hx | hx)
      · have hlt : p < st.heap.length := by
          by_contra hc
          rw [List.getElem?_eq_none (not_lt.mp hc)] at hn
          cases hn
        rcases hx with hx | hx | hx | hx
        · right
          refine ⟨p, n, hn, Or.inr (Or.inl ⟨hx, ?_⟩)⟩
          exact h.2 n (List.getElem?_mem hn)
        · right; exact ⟨p, n, hn, Or.inr (Or.inr hx)⟩
        · right; exact ⟨p, n, hn, Or.inl hx⟩
        · left; right; right; exact ⟨p, hlt, hx.symm⟩
      · left; right; left; exact hx
      · left; left; exact hx
    · rintro ((hx | hx | ⟨p, hp, hx⟩) | ⟨p, n, hn, hx⟩)
      · right; right; exact hx
      · right; left; exact hx
      · obtain ⟨n, v, hn, _⟩ := hsome p hp
        left; exact ⟨p, n, hn, Or.inr (Or.inr (Or.inr hx.symm))⟩
      · left
        rcases hx with hx | hx | hx
        · exact ⟨p, n, hn, Or.inr (Or.inr (Or.inl hx))⟩
        · exact ⟨p, n, hn, Or.inl hx.1⟩
        · exact ⟨p, n, hn, Or.inr (Or.inl hx)⟩

/-- C19. Teardown of a populated chain: for a chain built from a freshly
constructed one by calls of `add_to_database` and `add_node_to_frequencies_list`
that all succeeded, with at least one state in the registry, `free_database`
returns with the handle set to `NULL`; it releases no object twice; the objects
it releases are exactly the objects allocated for the chain (every node, its
state copy through `free_data`, its array of entries when not `NULL`, every list
cell, the list and the chain); the list and the chain come last, in this order;
in particular the state copy, the node and the cell of every registry cell are
released. -/
theorem free_database_populated (print_func : α → String) (comp_func : α → α → Int)
    (copy_func : α → Option α) (free_data : α → Unit) (is_last : α → Bool)
    (mc : MarkovChain α) (calls : List (Call α)) (st : State α)
    (hnew : new_markov_chain print_func comp_func copy_func free_data is_last true = .ok mc)
    (hrun : run ⟨[], mc⟩ calls = .ok st) (hsucc : run_succeeds ⟨[], mc⟩ calls = true)
    (hpop : registry st ≠ []) :
    ∃ released,
      free_database st.heap (some st.markov_chain) =
        .ok (released ++ [Allocation.database, Allocation.markov_chain], none) ∧
      (released ++ [Allocation.database, Allocation.markov_chain]).Nodup ∧
      (∀ x, x ∈ released ++ [Allocation.database, Allocation.markov_chain] ↔
        x ∈ live_allocations st) ∧
      (∀ (i : Nat) (c : Node), (registry st)[i]? = some c →
        Allocation.data c.data ∈ released ∧ Allocation.markov_node c.data ∈ released ∧
        Allocation.list_node i ∈ released) := by
  obtain ⟨_, _, hreg0⟩ := initial_state print_func comp_func copy_func free_data is_last mc []
    hnew
  have h0 : registry_exact (⟨[], mc⟩ : State α) := by
    constructor
    · rw [hreg0]; rfl
    · intro n hn; simp at hn
  have hex := run_exact ⟨[], mc⟩ st calls h0 hrun hsucc
  cases hdb : st.markov_chain.database with
  | none => simp [registry, hdb] at hpop
  | some database =>
    obtain ⟨h1, h2⟩ := free_database_exact st database hex hdb
    refine ⟨_, h1, released_nodup st.heap st.heap.length, h2, ?_⟩
    intro i c hic
    rw [registry_of_exact st hex] at hic
    have hlt : i < st.heap.length := by
      by_contra hc
      rw [List.getElem?_eq_none (by simpa using not_lt.mp hc)] at hic
      cases hic
    have hci : c = ⟨i⟩ := by
      rw [List.getElem?_map, List.getElem?_range hlt] at hic
      simpa using hic.symm
    subst hci
    have hget : st.heap[i]? = some st.heap[i] := List.getElem?_eq_getElem hlt
    exact ⟨(mem_released st.heap _).mpr ⟨i, _, hget, Or.inl rfl⟩,
      (mem_released st.heap _).mpr ⟨i, _, hget, Or.inr (Or.inr (Or.inl rfl))⟩,
      (mem_released st.heap _).mpr ⟨i, _, hget, Or.inr (Or.inr (Or.inr rfl))⟩⟩

theorem free_database_populated_witness :
    run (⟨[], example_chain⟩ : State Nat)
      [.insert 5 true true true, .insert 8 true true true, .link 0 1 (some ⟨none, 0⟩)]
      = .ok example_state ∧
    run_succeeds (⟨[], example_chain⟩ : State Nat)
      [.insert 5 true true true, .insert 8 true true true, .link 0 1 (some ⟨none, 0⟩)] = true ∧
    ∃ released,
      free_database example_state.heap (some example_state.markov_chain) =
        .ok (released ++ [Allocation.database, Allocation.markov_chain], none) ∧
      (released ++ [Allocation.database, Allocation.markov_chain]).Nodup :=
  ⟨rfl, rfl,
    by
      obtain ⟨released, h1, h2, _⟩ := free_database_populated example_chain.print_func
        example_chain.comp_func example_chain.copy_func example_chain.free_data
        example_chain.is_last example_chain
        [.insert 5 true true true, .insert 8 true true true, .link 0 1 (some ⟨none, 0⟩)]
        example_state rfl rfl rfl (by decide)
      exact ⟨released, h1, h2⟩⟩

/-- C18. Teardown of a never-populated chain, evaluated: on the chain that
`new_markov_chain` returns (database `NULL`), `free_database` returns at its
second guard: it releases nothing, the chain object stays allocated and the
caller's handle still points to it. -/
theorem free_database_fresh (print_func : α → String) (comp_func : α → α → Int)
    (copy_func : α → Option α) (free_data : α → Unit) (is_last : α → Bool)
    (heap : List (MarkovNode α)) :
    new_markov_chain print_func comp_func copy_func free_data is_last true =
      .ok ⟨none, print_func, comp_func, free_data, copy_func, is_last⟩ ∧
    free_database heap (some ⟨none, print_func, comp_func, free_data, copy_func, is_last⟩) =
      .ok ([], some ⟨none, print_func, comp_func, free_data, copy_func, is_last⟩) ∧
    Allocation.markov_chain ∈
      live_allocations ⟨heap, ⟨none, print_func, comp_func, free_data, copy_func, is_last⟩⟩ := by
  refine ⟨rfl, rfl, ?_⟩
  simp [live_allocations]

/-- C20. Constructor failure, evaluated: when their `malloc` fails,
`new_markov_chain` and `new_markov_node` write through the `NULL` result instead
of returning it. -/
theorem constructors_dereference_null (print_func : α → String) (comp_func : α → α → Int)
    (copy_func : α → Option α) (free_data : α → Unit) (is_last : α → Bool)
    (heap : List (MarkovNode α)) :
    new_markov_chain print_func comp_func copy_func free_data is_last false =
      .error .null_dereference ∧
    new_markov_node heap false = .error .null_dereference :=
  ⟨rfl, rfl⟩

/-- C14. Sentences of at least 2 states, evaluated on the chain of the one-word
corpus `hello`: the word is not terminal, it is the only possible start, its
table is empty, and the sentence generated with `max_length = 20` is the single
word, whatever the draws. -/
theorem single_word_sentence :
    add_to_database ⟨[], TweetsGenerator.markov_chain⟩ "hello" true true true =
      .ok (some 0, hello_state) ∧
    TweetsGenerator.ends_with_dot "hello" = false ∧
    ∀ (rand : Nat → Int) (fuel : Nat),
      generate_tweet hello_state none 20 rand (fuel + 1) = ⟨[(0, "hello")], .returned⟩ := by
  refine ⟨rfl, by decide, ?_⟩
  intro rand fuel
  have e : ((20 : Int) - 1).toNat = 18 + 1 := by decide
  have hl : TweetsGenerator.ends_with_dot "hello" = false := by decide
  simp [generate_tweet, get_first_random_node, get_first_random_node_loop, hello_state,
    TweetsGenerator.markov_chain, get_random_number, get_node_in_index,
    get_node_in_index_loop, hl, e, generate_tweet_loop, get_next_random_node]

/-- C16. Round trip: on the chain built from the empty one by inserting `w1`,
`w2`, `w3` (three states that do not compare equal, copied as they are) and
linking `w1` to `w2` once and `w2` to `w3` once, where `w2` is not terminal,
`generate_tweet` from the node of `w1` with `max_length = 10` emits exactly
`[w1, w2, w3]` and returns, whatever the draws. After `w3` the walk stops
whether `w3` is terminal or not, since its table is empty. -/
theorem round_trip (mc : MarkovChain α) (w1 w2 w3 : α) (j1 j2 : MarkovNodeFrequency)
    (rand : Nat → Int) (fuel : Nat)
    (hdb : mc.database = none)
    (hc1 : mc.copy_func w1 = some w1) (hc2 : mc.copy_func w2 = some w2)
    (hc3 : mc.copy_func w3 = some w3)
    (h12 : mc.comp_func w1 w2 ≠ 0) (h13 : mc.comp_func w1 w3 ≠ 0)
    (h23 : mc.comp_func w2 w3 ≠ 0) (hl2 : mc.is_last w2 = false) :
    ∃ st, run ⟨[], mc⟩ [.insert w1 true true true, .insert w2 true true true,
        .insert w3 true true true, .link 0 1 (some j1), .link 1 2 (some j2)] = .ok st ∧
      (registry st).map (stored st.heap) = [some w1, some w2, some w3] ∧
      (registry st).map (fun c => c.data) = [0, 1, 2] ∧
      (generate_tweet st (some 0) 10 rand fuel).printed = [(0, w1), (1, w2), (2, w3)] ∧
      (generate_tweet st (some 0) 10 rand fuel).ending = .returned := by
  refine ⟨_, round_trip_build mc w1 w2 w3 j1 j2 hdb hc1 hc2 hc3 h12 h13 h23, ?_, ?_, ?_, ?_⟩
  · simp [registry, stored]
  · simp [registry]
  · rw [round_trip_walk mc w1 w2 w3 rand fuel hl2]
  · rw [round_trip_walk mc w1 w2 w3 rand fuel hl2]

theorem round_trip_witness :
    TweetsGenerator.markov_chain.comp_func "hello" "big" ≠ 0 ∧
    TweetsGenerator.markov_chain.is_last "big" = false ∧
    TweetsGenerator.markov_chain.is_last "world." = true ∧
    ∃ st, run ⟨[], TweetsGenerator.markov_chain⟩ [.insert "hello" true true true,
        .insert "big" true true true, .insert "world." true true true,
        .link 0 1 (some ⟨none, 0⟩), .link 1 2 (some ⟨none, 0⟩)] = .ok st ∧
      (generate_tweet st (some 0) 10 (fun i => 7 * i) 0).printed =
        [(0, "hello"), (1, "big"), (2, "world.")] :=
  ⟨by decide, by decide, by decide,
    by
      obtain ⟨st, h1, _, _, h4, _⟩ := round_trip TweetsGenerator.markov_chain "hello" "big"
        "world." ⟨none, 0⟩ ⟨none, 0⟩ (fun i => 7 * i) 0 rfl rfl rfl rfl (by decide) (by decide)
        (by decide) (by decide)
      exact ⟨st, h1, h4⟩⟩

namespace SnakesAndLadders

/-! ## The board of snakes and ladders -/

set_option maxRecDepth 100000 in
theorem create_board_eq : create_board (fun _ => true) = some board_cells := by
  decide

set_option maxRecDepth 100000 in
theorem board_cells_length : board_cells.length = BOARD_SIZE := by
  decide

set_option maxRecDepth 100000 in
theorem board_cells_number_all :
    ∀ i, i < BOARD_SIZE → (board_cells[i]?).map (fun c => c.number) = some ((i : Int) + 1) := by
  decide

theorem board_cells_number (i : Nat) (c : Cell) (h : board_cells[i]? = some c) :
    c.number = (i : Int) + 1 := by
  have hlt : i < BOARD_SIZE := by
    rw [← board_cells_length]
    by_contra hc
    rw [List.getElem?_eq_none (not_lt.mp hc)] at h
    cases h
  have := board_cells_number_all i hlt
  rw [h] at this
  simpa using this

end SnakesAndLadders

namespace SnakesAndLadders

theorem board_state_registry_ok (st : State Cell) (h : board_state st) : registry_ok st := by
  obtain ⟨_, hreg, _, hall⟩ := h
  intro c hc
  rw [hreg] at hc
  obtain ⟨i, hi, rfl⟩ := List.mem_map.mp hc
  obtain ⟨n, cell, hn, _, hd, _⟩ := hall i (List.mem_range.mp hi)
  exact ⟨cell, by simp [stored, hn, hd]⟩

theorem board_state_stored (st : State Cell) (h : board_state st) (i : Nat) (node : Node)
    (v : Cell) (hi : (registry st)[i]? = some node) (hv : stored st.heap node = some v) :
    node = ⟨i⟩ ∧ i < BOARD_SIZE ∧ board_cells[i]? = some v := by
  obtain ⟨_, hreg, _, hall⟩ := h
  rw [hreg] at hi
  have hlt : i < BOARD_SIZE := by
    by_contra hc
    rw [List.getElem?_eq_none (by simpa using not_lt.mp hc)] at hi
    cases hi
  have hnode : node = ⟨i⟩ := by
    rw [List.getElem?_map, List.getElem?_range hlt] at hi
    simpa using hi.symm
  subst hnode
  obtain ⟨n, cell, hn, hc, hd, _⟩ := hall i hlt
  simp only [stored, hn, Option.some_bind, hd, Option.some.injEq] at hv
  subst hv
  exact ⟨rfl, hlt, hc⟩

/-- In a board state the lookup of the board cell `k` gives the node `k`. -/
theorem node_of_board (st : State Cell) (h : board_state st) (k : Nat) (hk : k < BOARD_SIZE) :
    node_of st board_cells[k]? = .ok k := by
  have hok := board_state_registry_ok st h
  obtain ⟨hcomp, hreg, _, hall⟩ := id h
  obtain ⟨n, c, hn, hc, hd, _⟩ := hall k hk
  obtain ⟨r, hres, hnone, hsome⟩ := lookup_result st c hok
  have hck := board_cells_number k c hc
  cases r with
  | none =>
    have hmem : (⟨k⟩ : Node) ∈ registry st := by
      rw [hreg]; exact List.mem_map.mpr ⟨k, List.mem_range.mpr hk, rfl⟩
    have := hnone.mp rfl ⟨k⟩ hmem c (by simp [stored, hn, hd])
    rw [hcomp] at this
    simp [compare_cells] at this
  | some i =>
    obtain ⟨node, v, hi, hv, hz, _⟩ := hsome i rfl
    obtain ⟨rfl, hlt, hci⟩ := board_state_stored st h i node v hi hv
    have hvi := board_cells_number i v hci
    rw [hcomp] at hz
    simp only [compare_cells] at hz
    have hik : i = k := by omega
    subst hik
    simp [node_of, hc, hres, hi]

/-- In a board state a link from the node `i` returns, changes the node `i` only
(into the node that `add_node_to_frequencies_list` makes of it) and leaves a
board state. -/
theorem link_board (st : State Cell) (h : board_state st) (i : Nat) (hi : i < BOARD_SIZE)
    (q : Ptr) (alloc : Option MarkovNodeFrequency) :
    ∃ n b, st.heap[i]? = some n ∧
      add_node_to_frequencies_list_at st i q alloc = .ok (b,
        ⟨st.heap.set i (add_node_to_frequencies_list n q alloc).2, st.markov_chain⟩) ∧
      board_state ⟨st.heap.set i (add_node_to_frequencies_list n q alloc).2, st.markov_chain⟩ := by
  obtain ⟨hcomp, hreg, hlen, hall⟩ := id h
  obtain ⟨n, c, hn, hc, hd, hv⟩ := hall i hi
  refine ⟨n, (add_node_to_frequencies_list n q alloc).1, hn, ?_, ?_⟩
  · simp [add_node_to_frequencies_list_at, hn]
  · refine ⟨hcomp, hreg, by simpa using hlen, ?_⟩
    intro j hj
    by_cases hji : i = j
    · subst hji
      refine ⟨_, c, ?_, hc, ?_, (add_node_cases n q alloc hv).1⟩
      · simp only [List.getElem?_set]
        simp [hlen, hi]
      · rw [add_node_data]; exact hd
    · obtain ⟨m, cm, hm, hcm, hdm, hvm⟩ := hall j hj
      exact ⟨m, cm, by simp only [List.getElem?_set, hji, if_false]; exact hm, hcm, hdm, hvm⟩

end SnakesAndLadders

namespace SnakesAndLadders

set_option maxRecDepth 100000 in
theorem board_cells_target :
    ∀ c ∈ board_cells, (c.snake_to ≠ EMPTY ∨ c.ladder_to ≠ EMPTY) →
      ¬ (MAX c.snake_to c.ladder_to - 1 < 0) ∧
      (MAX c.snake_to c.ladder_to - 1).toNat < BOARD_SIZE := by
  decide

/-- The dice loop for the cell `i` in a board state returns, changes the node `i`
only and leaves a board state. -/
theorem fill_database_dice_board (a : Allocations) (i : Nat) (hi : i < BOARD_SIZE)
    (count j : Nat) (st : State Cell) (h : board_state st) :
    ∃ st1, fill_database_dice a board_cells i i count j st = .ok st1 ∧ board_state st1 ∧
      ∀ k, k ≠ i → st1.heap[k]? = st.heap[k]? := by
  induction count generalizing j st with
  | zero => exact ⟨st, rfl, h, fun _ _ => rfl⟩
  | succ count ih =>
    obtain ⟨_, _, _, hall⟩ := id h
    obtain ⟨n, c, hn, hc, hd, _⟩ := hall i hi
    have hnum := board_cells_number i c hc
    simp only [fill_database_dice, hn, hd]
    by_cases hb : c.number + (j : Int) - 1 ≥ (BOARD_SIZE : Int) ∨ c.number + (j : Int) - 1 < 0
    · rw [if_pos hb]
      exact ⟨st, rfl, h, fun _ _ => rfl⟩
    · rw [if_neg hb]
      have hidx : (c.number + (j : Int) - 1).toNat = i + j := by omega
      have hlt : i + j < BOARD_SIZE := by
        have : ¬ (c.number + (j : Int) - 1 ≥ (BOARD_SIZE : Int)) := fun hc => hb (Or.inl hc)
        omega
      rw [hidx, node_of_board st h (i + j) hlt]
      obtain ⟨n1, b, hn1, hlink, hst1⟩ := link_board st h i hi (i + j) (a.table i j)
      simp only [hlink]
      obtain ⟨st2, h1, h2, h3⟩ := ih (j + 1) _ hst1
      refine ⟨st2, h1, h2, ?_⟩
      intro k hk
      rw [h3 k hk]
      simp only [List.getElem?_set]
      simp [hk.symm]

/-- The second loop of `fill_database` from the cell `i` on, in a board state: it
returns a board state, leaves the nodes before `i` as they are, and gives every
snake or ladder cell whose table was empty the single entry of its target. -/
theorem fill_database_link_board (a : Allocations) (htable : ∀ i j, (a.table i j).isSome)
    (rest : List Cell) (i : Nat) (st : State Cell) (h : board_state st)
    (hrest : board_cells.drop i = rest) :
    ∃ st1, fill_database_link a board_cells rest i st = .ok st1 ∧ board_state st1 ∧
      (∀ k, k < i → st1.heap[k]? = st.heap[k]?) ∧
      ∀ k c n, i ≤ k → board_cells[k]? = some c →
        (c.snake_to ≠ EMPTY ∨ c.ladder_to ≠ EMPTY) → st.heap[k]? = some n → n.table = [] →
        ∃ n1, st1.heap[k]? = some n1 ∧
          n1.table = [⟨some (MAX c.snake_to c.ladder_to - 1).toNat, 1⟩] := by
  induction rest generalizing i st with
  | nil =>
    refine ⟨st, rfl, h, fun _ _ => rfl, ?_⟩
    intro k c n hik hc
    have hlen : board_cells.length ≤ i := by
      have := congrArg List.length hrest
      simp at this
      omega
    rw [List.getElem?_eq_none (by omega)] at hc
    cases hc
  | cons cell rest ih =>
    have hci : board_cells[i]? = some cell := by
      have := congrArg (fun l => l[0]?) hrest
      simpa using this
    have hdrop : board_cells.drop (i + 1) = rest := by
      have := congrArg List.tail hrest
      simpa using this
    have hi : i < BOARD_SIZE := by
      rw [← board_cells_length]
      by_contra hc
      rw [List.getElem?_eq_none (not_lt.mp hc)] at hci
      cases hci
    have hfrom : node_of st (some cell) = .ok i := by
      rw [← hci]; exact node_of_board st h i hi
    obtain ⟨_, _, _, hall⟩ := id h
    obtain ⟨n, c0, hn, hc0, hd, hv⟩ := hall i hi
    have hcc : c0 = cell := by rw [hci] at hc0; cases hc0; rfl
    subst hcc
    simp only [fill_database_link, hfrom]
    by_cases hs : c0.snake_to ≠ EMPTY ∨ c0.ladder_to ≠ EMPTY
    · rw [if_pos hs]
      obtain ⟨hneg, htl⟩ := board_cells_target c0 (List.getElem?_mem hci) hs
      rw [if_neg hneg, node_of_board st h _ htl]
      obtain ⟨n1, b, hn1, hlink, hst1⟩ := link_board st h i hi
        (MAX c0.snake_to c0.ladder_to - 1).toNat (a.table i 0)
      simp only [hlink]
      obtain ⟨st2, h1, h2, h3, h4⟩ := ih (i + 1) _ hst1 hdrop
      refine ⟨st2, h1, h2, ?_, ?_⟩
      · intro k hk
        rw [h3 k (by omega)]
        simp only [List.getElem?_set]
        have : ¬ i = k := by omega
        simp [this]
      · intro k c n2 hik hc hsc hn2 ht
        by_cases hki : k = i
        · subst hki
          rw [hn1] at hn2; cases hn2
          rw [hci] at hc; cases hc
          obtain ⟨_, e2, _, _⟩ := add_node_refines n1 (MAX c0.snake_to c0.ladder_to - 1).toNat
            (a.table k 0) (by rw [hn] at hn1; cases hn1; exact hv) (Or.inr (htable k 0))
          refine ⟨_, ?_, by rw [e2, ht]; rfl⟩
          rw [h3 k (by omega)]
          simp only [List.getElem?_set]
          have hlen : k < st.heap.length := by
            by_contra hc
            rw [List.getElem?_eq_none (not_lt.mp hc)] at hn1
            cases hn1
          simp [hlen]
        · apply h4 k c n2 (by omega) hc hsc _ ht
          simp only [List.getElem?_set]
          have : ¬ i = k := fun h => hki h.symm
          simp only [this, if_false]
          exact hn2
    · rw [if_neg hs]
      obtain ⟨st1, hdice, hst1, hframe⟩ := fill_database_dice_board a i hi DICE_MAX 1 st h
      simp only [hdice]
      obtain ⟨st2, h1, h2, h3, h4⟩ := ih (i + 1) st1 hst1 hdrop
      refine ⟨st2, h1, h2, ?_, ?_⟩
      · intro k hk
        rw [h3 k (by omega), hframe k (by omega)]
      · intro k c n2 hik hc hsc hn2 ht
        have hki : k ≠ i := by
          intro hki
          subst hki
          rw [hci] at hc; cases hc
          exact hs hsc
        apply h4 k c n2 (by omega) hc hsc _ ht
        rw [hframe k hki]
        exact hn2

end SnakesAndLadders

namespace SnakesAndLadders

set_option maxRecDepth 100000 in
theorem board_cells_nodup : (board_cells.map (fun c => c.number)).Nodup := by
  decide

/-- The first loop of `fill_database`, all allocations succeeding, on cells whose
numbers are pairwise distinct and absent from the registry: each cell gets a
new node at the end of the arena and a new cell at the end of the registry. -/
theorem fill_database_add_fresh (a : Allocations) (hdb : ∀ i, a.db_ok i = true)
    (hnode : ∀ i, a.node_ok i = true) (hadd : ∀ i, a.add_ok i = true)
    (cs : List Cell) (i : Nat) (st : State Cell)
    (hcomp : st.markov_chain.comp_func = compare_cells)
    (hcopy : st.markov_chain.copy_func = dupcell true)
    (hok : registry_ok st)
    (hnew : ∀ c ∈ cs, ∀ node ∈ registry st, ∀ v, stored st.heap node = some v →
      v.number ≠ c.number)
    (hnd : (cs.map (fun c => c.number)).Nodup) :
    ∃ st1, fill_database_add a cs i st = .ok st1 ∧
      st1.markov_chain.comp_func = compare_cells ∧
      st1.heap = st.heap ++ cs.map fresh_node ∧
      registry st1 = registry st ++ (List.range' st.heap.length cs.length).map Node.mk := by
  induction cs generalizing i st with
  | nil => exact ⟨st, rfl, hcomp, by simp, by simp⟩
  | cons c rest ih =>
    have hcp : st.markov_chain.copy_func c = some c := by rw [hcopy]; rfl
    obtain ⟨r, st1, hres⟩ := add_to_database_succeeds st c c hok hcp
    obtain ⟨hout, hcmp1, hcp1, _⟩ := add_to_database_cases st c true true true hok (some r) st1
      hres
    simp only [List.map_cons, List.nodup_cons, List.mem_map, not_exists, not_and] at hnd
    cases hout with
    | found i0 node v hr hst hi hv hc hmin =>
      rw [hcomp] at hc
      simp only [compare_cells] at hc
      exact absurd (by omega) (hnew c (List.mem_cons_self _ _) node (List.getElem?_mem hi) v hv)
    | failed ext hr hreg hsize hheap => cases hr
    | inserted v hcopy1 hr hreg hsize hheap hnew1 =>
      have hvc : v = c := by rw [hcp] at hcopy1; cases hcopy1; rfl
      subst hvc
      have hstored : ∀ node ∈ registry st, stored st1.heap node = stored st.heap node := by
        intro node hn
        obtain ⟨w, hw⟩ := hok node hn
        rw [hheap, stored_append st.heap _ node w hw, hw]
      have hlast : stored st1.heap ⟨st.heap.length⟩ = some v := by
        rw [hheap]; simp [stored]
      have hok1 : registry_ok st1 := by
        intro node hn
        rw [hreg] at hn
        rcases List.mem_append.mp hn with hn | hn
        · rw [hstored node hn]; exact hok node hn
        · simp at hn; subst hn; exact ⟨v, hlast⟩
      have hnew1 : ∀ c1 ∈ rest, ∀ node ∈ registry st1, ∀ w, stored st1.heap node = some w →
          w.number ≠ c1.number := by
        intro c1 hc1 node hn w hw
        rw [hreg] at hn
        rcases List.mem_append.mp hn with hn | hn
        · rw [hstored node hn] at hw
          exact hnew c1 (List.mem_cons_of_mem _ hc1) node hn w hw
        · simp at hn; subst hn
          rw [hlast] at hw; cases hw
          intro heq
          exact hnd.1 c1 hc1 heq.symm
      obtain ⟨st2, h1, h2, h3, h4⟩ := ih (i + 1) st1 (by rw [hcmp1, hcomp]) (by rw [hcp1, hcopy])
        hok1 hnew1 hnd.2
      refine ⟨st2, ?_, h2, ?_, ?_⟩
      · simp only [fill_database_add, hdb, hnode, hadd, hres]
        exact h1
      · rw [h3, hheap]; simp [fresh_node]
      · rw [h4, hreg, hheap]
        simp [List.range'_succ]

end SnakesAndLadders

namespace SnakesAndLadders

set_option maxRecDepth 100000 in
theorem board_transitions_cells :
    ∀ t ∈ transitions,
      (board_cells[(t.1 - 1).toNat]?).map (fun c =>
        (c.number, decide (c.snake_to ≠ EMPTY ∨ c.ladder_to ≠ EMPTY),
          (MAX c.snake_to c.ladder_to - 1).toNat)) = some (t.1, true, (t.2 - 1).toNat) ∧
      (t.1 - 1).toNat < BOARD_SIZE ∧ (t.2 - 1).toNat < BOARD_SIZE ∧
      (board_cells[(t.2 - 1).toNat]?).map (fun c => c.number) = some t.2 := by
  decide

/-- The state after the first loop of `fill_database` run from the empty chain. -/
theorem fill_database_add_board (a : Allocations) (hdb : ∀ i, a.db_ok i = true)
    (hnode : ∀ i, a.node_ok i = true) (hadd : ∀ i, a.add_ok i = true) :
    ∃ st1, fill_database_add a board_cells 0 ⟨[], markov_chain⟩ = .ok st1 ∧ board_state st1 ∧
      st1.heap = board_cells.map fresh_node := by
  obtain ⟨st1, h1, h2, h3, h4⟩ := fill_database_add_fresh a hdb hnode hadd board_cells 0
    ⟨[], markov_chain⟩ rfl rfl (by intro c hc; simp [registry, markov_chain] at hc)
    (by intro c _ node hn; simp [registry, markov_chain] at hn) board_cells_nodup
  simp only [List.nil_append] at h3
  refine ⟨st1, h1, ⟨h2, ?_, ?_, ?_⟩, h3⟩
  · rw [h4]
    simp [registry, markov_chain, board_cells_length, List.range_eq_range']
  · rw [h3]; simp [board_cells_length]
  · intro i hi
    have hlt : i < board_cells.length := by rw [board_cells_length]; exact hi
    refine ⟨fresh_node board_cells[i], board_cells[i], ?_, List.getElem?_eq_getElem hlt, rfl,
      by simp [fresh_node, MarkovNode.valid]⟩
    rw [h3, List.getElem?_map, List.getElem?_eq_getElem hlt]
    rfl

/-- C17. Board shortcut cells: in the chain that the `fill_database` of
`snakes_and_ladders.c` builds from the empty chain when every allocation
succeeds, the registry holds the 100 nodes in board order, and for every row
`(x, y)` of `transitions` the node of cell `x` has a transition table made of
the single entry (node of cell `y`, count 1). In particular the table of cell 13
is the single entry (cell 4, 1). -/
theorem board_shortcuts (a : Allocations) (hcell : ∀ i, a.cell_ok i = true)
    (hdb : ∀ i, a.db_ok i = true) (hnode : ∀ i, a.node_ok i = true)
    (hadd : ∀ i, a.add_ok i = true) (htable : ∀ i j, (a.table i j).isSome) :
    ∃ st, fill_database a ⟨[], markov_chain⟩ = .ok (EXIT_SUCCESS, st) ∧
      registry st = (List.range BOARD_SIZE).map Node.mk ∧
      (∀ t ∈ transitions, ∃ n c m cm,
        st.heap[(t.1 - 1).toNat]? = some n ∧ n.data = some c ∧ c.number = t.1 ∧
        n.table = [⟨some (t.2 - 1).toNat, 1⟩] ∧
        st.heap[(t.2 - 1).toNat]? = some m ∧ m.data = some cm ∧ cm.number = t.2) ∧
      (∃ n c m cm, st.heap[12]? = some n ∧ n.data = some c ∧ c.number = 13 ∧
        n.table = [⟨some 3, 1⟩] ∧
        st.heap[3]? = some m ∧ m.data = some cm ∧ cm.number = 4) := by
  have hcells : a.cell_ok = fun _ => true := funext hcell
  obtain ⟨st1, h1, hb1, hheap1⟩ := fill_database_add_board a hdb hnode hadd
  obtain ⟨st2, h2, hb2, _, hsc⟩ := fill_database_link_board a htable board_cells 0 st1 hb1
    (by simp)
  have hall : ∀ t ∈ transitions, ∃ n c m cm,
      st2.heap[(t.1 - 1).toNat]? = some n ∧ n.data = some c ∧ c.number = t.1 ∧
      n.table = [⟨some (t.2 - 1).toNat, 1⟩] ∧
      st2.heap[(t.2 - 1).toNat]? = some m ∧ m.data = some cm ∧ cm.number = t.2 := by
    intro t ht
    obtain ⟨f1, f2, f3, f4⟩ := board_transitions_cells t ht
    obtain ⟨_, _, _, hnodes⟩ := id hb2
    obtain ⟨n, c, hn, hc, hd, _⟩ := hnodes _ f2
    obtain ⟨m, cm, hm, hcm, hdm, _⟩ := hnodes _ f3
    rw [hc] at f1
    simp only [Option.map_some', Option.some.injEq, Prod.mk.injEq, decide_eq_true_eq] at f1
    obtain ⟨g1, g2, g3⟩ := f1
    rw [hcm] at f4
    simp only [Option.map_some', Option.some.injEq] at f4
    have hfresh : st1.heap[(t.1 - 1).toNat]? = some (fresh_node c) := by
      rw [hheap1, List.getElem?_map, hc]; rfl
    obtain ⟨n1, hn1, ht1⟩ := hsc _ c (fresh_node c) (Nat.zero_le _) hc g2 hfresh rfl
    rw [hn] at hn1; cases hn1
    exact ⟨n, c, m, cm, hn, hd, g1, by rw [ht1, g3], hm, hdm, f4⟩
  refine ⟨st2, ?_, hb2.2.1, hall, ?_⟩
  · simp only [fill_database, hcells, create_board_eq, h1, h2]
  · exact hall (13, 4) (by decide)

end SnakesAndLadders

namespace SnakesAndLadders

theorem board_shortcuts_witness :
    (∀ i j, ((all_succeed ⟨none, 0⟩).table i j).isSome) ∧
    ∃ st, fill_database (all_succeed ⟨none, 0⟩) ⟨[], markov_chain⟩ = .ok (EXIT_SUCCESS, st) ∧
      ∃ n, st.heap[12]? = some n ∧ n.table = [⟨some 3, 1⟩] :=
  ⟨fun _ _ => rfl,
    by
      obtain ⟨st, h1, _, _, n, _, _, _, hn, _, _, ht, _⟩ := board_shortcuts (all_succeed ⟨none, 0⟩)
        (fun _ => rfl) (fun _ => rfl) (fun _ => rfl) (fun _ => rfl) (fun _ _ => rfl)
      exact ⟨st, h1, n, hn, ht⟩⟩

end SnakesAndLadders

/-! ## Counts within the range of `int` -/

theorem int_wrap_eq (x : Int) (h0 : -2147483648 ≤ x) (h1 : x ≤ INT_MAX) : int_wrap x = x := by
  simp only [INT_MAX] at h1
  simp only [int_wrap]
  omega

theorem modify_congr_at (f g : MarkovNodeFrequency → MarkovNodeFrequency) (i : Nat)
    (l : List MarkovNodeFrequency) (h : ∀ e, l[i]? = some e → f e = g e) :
    List.modify f i l = List.modify g i l := by
  apply List.ext_getElem?
  intro j
  simp only [List.getElem?_modify]
  by_cases hij : i = j
  · subst hij
    cases he : l[i]? with
    | none => simp
    | some e => simp [h e he]
  · simp [hij]

/-- While the count to increment is below `INT_MAX`, the call with `int`
arithmetic is the call on mathematical integers. -/
theorem add_node_int_eq (n : MarkovNode α) (d : Ptr) (alloc : Option MarkovNodeFrequency)
    (h : ∀ e ∈ n.table, -2147483648 ≤ e.frequency + 1 ∧ e.frequency + 1 ≤ INT_MAX) :
    add_node_to_frequencies_list_int n d alloc = add_node_to_frequencies_list n d alloc := by
  obtain ⟨data, fl, size, msize⟩ := n
  cases fl with
  | none => rfl
  | some fl =>
    by_cases hf : get_node_from_frequencies_list (⟨data, some fl, size, msize⟩ : MarkovNode α) d
        = NOT_IN_ARRAY
    · simp only [add_node_to_frequencies_list_int, add_node_to_frequencies_list, hf, ne_eq,
        not_true_eq_false, if_false]
    · have hf2 : get_node_from_frequencies_list_loop d (fl.take size.toNat) 0 ≠ NOT_IN_ARRAY := hf
      have hr := loop_range d (fl.take size.toNat) 0
      rcases hr with hr | ⟨h0, hlt⟩
      · exact absurd hr hf2
      · have hm : List.modify (fun e => { e with frequency := int_wrap (e.frequency + 1) })
            (get_node_from_frequencies_list_loop d (fl.take size.toNat) 0).toNat fl =
            List.modify (fun e => { e with frequency := e.frequency + 1 })
              (get_node_from_frequencies_list_loop d (fl.take size.toNat) 0).toNat fl := by
          apply modify_congr_at
          intro e he
          have hlen : (get_node_from_frequencies_list_loop d (fl.take size.toNat) 0).toNat
              < (fl.take size.toNat).length := by omega
          have hmem : e ∈ fl.take size.toNat := by
            have hlt2 : (get_node_from_frequencies_list_loop d (fl.take size.toNat) 0).toNat
                < size.toNat := by
              simp only [List.length_take] at hlen; omega
            have : (fl.take size.toNat)[(get_node_from_frequencies_list_loop d
                (fl.take size.toNat) 0).toNat]? = some e := by
              rw [List.getElem?_take_of_lt hlt2]; exact he
            exact List.getElem?_mem this
          obtain ⟨b0, b1⟩ := h e (by simpa [MarkovNode.table] using hmem)
          simp only [int_wrap_eq _ b0 b1]
        simp only [add_node_to_frequencies_list_int, add_node_to_frequencies_list,
          get_node_from_frequencies_list, ne_eq, hf2, not_false_eq_true, if_true,
          Option.map_some', hm]

theorem count_le_sum (t : List MarkovNodeFrequency) (hpos : ∀ e ∈ t, 1 ≤ e.frequency)
    (e : MarkovNodeFrequency) (he : e ∈ t) : e.frequency ≤ count_sum t := by
  induction t with
  | nil => cases he
  | cons a rest ih =>
    simp only [List.mem_cons, forall_eq_or_imp] at hpos
    rw [count_sum_cons]
    have hrest : 0 ≤ count_sum rest := count_sum_nonneg rest (fun x hx => by
      have := hpos.2 x hx; omega)
    rcases List.mem_cons.mp he with rfl | he
    · omega
    · have := ih hpos.2 he
      have := hpos.1
      omega

/-- A call on a valid node with counts at least 1 adds at most 1 to the sum of
the counts, and keeps the node valid with counts at least 1. -/
theorem add_node_sum (n : MarkovNode α) (d : Ptr) (alloc : Option MarkovNodeFrequency)
    (hv : n.valid) (hpos : ∀ e ∈ n.table, 1 ≤ e.frequency) :
    (add_node_to_frequencies_list n d alloc).2.valid ∧
    (∀ e ∈ (add_node_to_frequencies_list n d alloc).2.table, 1 ≤ e.frequency) ∧
    count_sum (add_node_to_frequencies_list n d alloc).2.table ≤ count_sum n.table + 1 := by
  obtain ⟨hv1, hc⟩ := add_node_cases n d alloc hv
  rcases hc with ⟨_, ht⟩ | ⟨_, hf⟩
  · refine ⟨hv1, ?_, ?_⟩
    · rw [ht]; exact positive_table_add d _ hpos
    · rw [ht, count_sum_table_add]
  · rw [hf]; exact ⟨hv, hpos, by omega⟩

/-- On a valid node with counts at least 1, as long as the sum of the counts and
the number of calls to come do not exceed `INT_MAX`, the calls with `int`
arithmetic are the calls on mathematical integers. -/
theorem add_nodes_int_eq (n : MarkovNode α) (calls : List (Ptr × Option MarkovNodeFrequency))
    (hv : n.valid) (hpos : ∀ e ∈ n.table, 1 ≤ e.frequency)
    (hb : count_sum n.table + (calls.length : Int) ≤ INT_MAX) :
    add_nodes_to_frequencies_list_int n calls = add_nodes_to_frequencies_list n calls := by
  induction calls generalizing n with
  | nil => rfl
  | cons c rest ih =>
    obtain ⟨d, alloc⟩ := c
    simp only [List.length_cons, Nat.cast_add, Nat.cast_one] at hb
    have hstep : add_node_to_frequencies_list_int n d alloc
        = add_node_to_frequencies_list n d alloc := by
      apply add_node_int_eq
      intro e he
      have h1 := hpos e he
      have h2 := count_le_sum n.table hpos e he
      constructor <;> omega
    obtain ⟨hv1, hpos1, hsum1⟩ := add_node_sum n d alloc hv hpos
    simp only [add_nodes_to_frequencies_list_int, add_nodes_to_frequencies_list, hstep]
    rw [ih _ hv1 hpos1 (by omega)]

/-- A call on the node whose table is the single entry `(d, c)`, for the
destination `d`, with `int` arithmetic. -/
theorem add_node_int_single (data : Option α) (d : Ptr) (c : Int)
    (a : Option MarkovNodeFrequency) :
    add_node_to_frequencies_list_int (⟨data, some [⟨some d, c⟩], 1, 1⟩ : MarkovNode α) d a =
      (true, ⟨data, some [⟨some d, int_wrap (c + 1)⟩], 1, 1⟩) := by
  simp [add_node_to_frequencies_list_int, get_node_from_frequencies_list,
    get_node_from_frequencies_list_loop, NOT_IN_ARRAY]

/-- Repeated calls for the destination of a single entry, with `int` arithmetic,
while the count stays within `INT_MAX`. -/
theorem add_nodes_int_repeat (data : Option α) (d : Ptr) (a : Option MarkovNodeFrequency)
    (m : Nat) (c : Int) (hc : 1 ≤ c) (hb : c + (m : Int) ≤ INT_MAX) :
    add_nodes_to_frequencies_list_int (⟨data, some [⟨some d, c⟩], 1, 1⟩ : MarkovNode α)
        (List.replicate m (d, a)) =
      (List.replicate m true, ⟨data, some [⟨some d, c + (m : Int)⟩], 1, 1⟩) := by
  induction m generalizing c with
  | zero => simp [add_nodes_to_frequencies_list_int]
  | succ m ih =>
    simp only [Nat.cast_add, Nat.cast_one] at hb
    have hw : int_wrap (c + 1) = c + 1 := int_wrap_eq _ (by omega) (by omega)
    simp only [List.replicate_succ, add_nodes_to_frequencies_list_int, add_node_int_single, hw]
    rw [ih (c + 1) (by omega) (by omega)]
    simp only [Nat.cast_add, Nat.cast_one]
    have : c + 1 + (m : Int) = c + ((m : Int) + 1) := by ring
    rw [this]

theorem add_nodes_int_append (n : MarkovNode α)
    (l1 l2 : List (Ptr × Option MarkovNodeFrequency)) :
    add_nodes_to_frequencies_list_int n (l1 ++ l2) =
      ((add_nodes_to_frequencies_list_int n l1).1 ++
        (add_nodes_to_frequencies_list_int (add_nodes_to_frequencies_list_int n l1).2 l2).1,
       (add_nodes_to_frequencies_list_int (add_nodes_to_frequencies_list_int n l1).2 l2).2) := by
  induction l1 generalizing n with
  | nil => simp [add_nodes_to_frequencies_list_int]
  | cons c rest ih =>
    obtain ⟨d, a⟩ := c
    simp only [List.cons_append, add_nodes_to_frequencies_list_int, List.append_eq, ih]

/-- From the empty table, `m + 1` calls for one destination with `m + 1` at most
`INT_MAX` give the single entry of count `m + 1`. -/
theorem add_nodes_int_fresh (data : Option α) (d : Ptr) (junk : MarkovNodeFrequency) (m : Nat)
    (hb : (m : Int) + 1 ≤ INT_MAX) :
    add_nodes_to_frequencies_list_int (⟨data, none, 0, 0⟩ : MarkovNode α)
        (List.replicate (m + 1) (d, some junk)) =
      (List.replicate (m + 1) true, ⟨data, some [⟨some d, (m : Int) + 1⟩], 1, 1⟩) := by
  have h1 : add_node_to_frequencies_list_int (⟨data, none, 0, 0⟩ : MarkovNode α) d (some junk)
      = (true, ⟨data, some [⟨some d, 1⟩], 1, 1⟩) := by
    simp [add_node_to_frequencies_list_int, get_node_from_frequencies_list, NOT_IN_ARRAY,
      increase_markov_node_frequency_size, realloc]
  simp only [List.replicate_succ, add_nodes_to_frequencies_list_int, h1]
  rw [add_nodes_int_repeat data d (some junk) m 1 (le_refl _) (by omega)]
  have : (1 : Int) + (m : Int) = (m : Int) + 1 := by ring
  rw [this]

/-- C5, as amended. Count total within the range of `int`: after any sequence of
at most `INT_MAX` successful calls of `add_node_to_frequencies_list` on a node
whose table starts empty, the counts of the table add up to the number of
calls, the entries for a destination `d` are exactly one entry whose count is
the number of calls with destination `d` (no entry when there was no such
call), three calls with the same destination `B` give the table `[(B, 3)]`, and
every count is at most `INT_MAX`. -/
theorem count_total (first_node : MarkovNode α)
    (calls : List (Ptr × Option MarkovNodeFrequency))
    (hv : first_node.valid) (hempty : first_node.table = [])
    (hbound : (calls.length : Int) ≤ INT_MAX)
    (hok : ∀ b ∈ (add_nodes_to_frequencies_list_int first_node calls).1, b = true) :
    count_sum (add_nodes_to_frequencies_list_int first_node calls).2.table = calls.length ∧
    (∀ d, entries_for d (add_nodes_to_frequencies_list_int first_node calls).2.table =
      single_entry d ((calls.map (fun c => c.1)).count d)) ∧
    (∀ B a1 a2 a3, calls = [(B, a1), (B, a2), (B, a3)] →
      (add_nodes_to_frequencies_list_int first_node calls).2.table = [⟨some B, 3⟩]) ∧
    (∀ e ∈ (add_nodes_to_frequencies_list_int first_node calls).2.table,
      1 ≤ e.frequency ∧ e.frequency ≤ INT_MAX) := by
  have hpos0 : ∀ e ∈ first_node.table, 1 ≤ e.frequency := by rw [hempty]; simp
  have heq := add_nodes_int_eq first_node calls hv hpos0 (by
    rw [hempty]; simpa [count_sum] using hbound)
  rw [heq] at hok ⊢
  have ht := add_nodes_table first_node calls hv hok
  rw [hempty] at ht
  have hsum : count_sum (add_nodes_to_frequencies_list first_node calls).2.table
      = calls.length := by
    rw [ht, count_sum_foldl]; simp [count_sum]
  refine ⟨hsum, ?_, ?_, ?_⟩
  · intro d
    rw [ht]
    have := entries_for_foldl (calls.map (fun c => c.1)) [] d 0 (by simp [entries_for, single_entry])
    simpa using this
  · intro B a1 a2 a3 hc
    rw [ht, hc]
    simp [table_add]
  · intro e he
    obtain ⟨_, _, hpos⟩ := add_nodes_invariant first_node calls hv
      (by rw [hempty]; exact List.nodup_nil) hpos0
    have := count_le_sum _ hpos e he
    exact ⟨hpos e he, by omega⟩

theorem count_total_witness :
    example_empty_node.valid ∧
    example_empty_node.table = [] ∧
    (4 : Int) ≤ INT_MAX ∧
    (add_nodes_to_frequencies_list_int example_empty_node
      [(1, some ⟨none, 0⟩), (1, none), (2, some ⟨some 9, 5⟩), (1, none)]).2.table
      = [⟨some 1, 3⟩, ⟨some 2, 1⟩] ∧
    count_sum (add_nodes_to_frequencies_list_int example_empty_node
      [(1, some ⟨none, 0⟩), (1, none), (2, some ⟨some 9, 5⟩), (1, none)]).2.table = 4 :=
  ⟨trivial, rfl, by decide, by decide,
    (count_total example_empty_node
      [(1, some ⟨none, 0⟩), (1, none), (2, some ⟨some 9, 5⟩), (1, none)]
      trivial rfl (by decide) (by decide)).1⟩

/-- C5, as stated, fails: the count is an `int`. From the empty table, `2^31`
successful calls for one destination leave the single entry of count `-2^31`:
the counts do not add up to the number of calls. -/
theorem count_total_counterexample :
    (∀ b ∈ (add_nodes_to_frequencies_list_int example_empty_node
      (List.replicate 2147483648 ((1 : Ptr), some (⟨none, 0⟩ : MarkovNodeFrequency)))).1,
      b = true) ∧
    (add_nodes_to_frequencies_list_int example_empty_node
      (List.replicate 2147483648 ((1 : Ptr), some (⟨none, 0⟩ : MarkovNodeFrequency)))).2.table
      = [⟨some 1, -2147483648⟩] ∧
    count_sum (add_nodes_to_frequencies_list_int example_empty_node
      (List.replicate 2147483648 ((1 : Ptr), some (⟨none, 0⟩ : MarkovNodeFrequency)))).2.table
      ≠ 2147483648 := by
  have hsplit : List.replicate 2147483648 ((1 : Ptr), some (⟨none, 0⟩ : MarkovNodeFrequency))
      = List.replicate (2147483646 + 1) ((1 : Ptr), some (⟨none, 0⟩ : MarkovNodeFrequency))
        ++ [((1 : Ptr), some (⟨none, 0⟩ : MarkovNodeFrequency))] := by
    rw [← List.replicate_succ']
  have hfirst := add_nodes_int_fresh (some 7 : Option Nat) 1 ⟨none, 0⟩ 2147483646
    (by simp [INT_MAX])
  have hres : add_nodes_to_frequencies_list_int example_empty_node
      (List.replicate 2147483648 ((1 : Ptr), some (⟨none, 0⟩ : MarkovNodeFrequency)))
      = (List.replicate (2147483646 + 1) true ++ [true],
          ⟨some 7, some [⟨some 1, -2147483648⟩], 1, 1⟩) := by
    rw [hsplit, add_nodes_int_append]
    simp only [example_empty_node]
    rw [hfirst]
    simp only [add_nodes_to_frequencies_list_int, add_node_int_single]
    have : int_wrap ((2147483646 : Nat) + 1 + 1) = -2147483648 := by decide
    rw [this]
  rw [hres]
  refine ⟨?_, rfl, by simp [count_sum, MarkovNode.table]⟩
  intro b hb
  simp only [List.mem_append, List.mem_replicate, List.mem_singleton] at hb
  rcases hb with ⟨_, h⟩ | h <;> exact h

/-- Any sequence of calls on a valid node with counts at least 1 keeps the node
valid with counts at least 1, and adds at most its length to the sum of the
counts. -/
theorem add_nodes_sum (n : MarkovNode α) (calls : List (Ptr × Option MarkovNodeFrequency))
    (hv : n.valid) (hpos : ∀ e ∈ n.table, 1 ≤ e.frequency) :
    (add_nodes_to_frequencies_list n calls).2.valid ∧
    (∀ e ∈ (add_nodes_to_frequencies_list n calls).2.table, 1 ≤ e.frequency) ∧
    count_sum (add_nodes_to_frequencies_list n calls).2.table
      ≤ count_sum n.table + (calls.length : Int) := by
  induction calls generalizing n with
  | nil => exact ⟨hv, hpos, by simp [add_nodes_to_frequencies_list]⟩
  | cons c rest ih =>
    obtain ⟨d, alloc⟩ := c
    obtain ⟨hv1, hpos1, hsum1⟩ := add_node_sum n d alloc hv hpos
    obtain ⟨h1, h2, h3⟩ := ih _ hv1 hpos1
    simp only [add_nodes_to_frequencies_list, List.length_cons, Nat.cast_add, Nat.cast_one]
    exact ⟨h1, h2, by omega⟩

/-- C6, as amended. Transition-table invariant within the range of `int`: in the
table reached from an empty table by any sequence of fewer than `INT_MAX` calls
of `add_node_to_frequencies_list` (successful or not), the destinations are
pairwise distinct and every count is at least 1 and at most `INT_MAX`; and a
further call, whatever its destination and allocation outcome, keeps every
existing entry at its index with the same destination and a count that did not
decrease. -/
theorem table_invariant (first_node : MarkovNode α)
    (calls : List (Ptr × Option MarkovNodeFrequency))
    (hv : first_node.valid) (hempty : first_node.table = [])
    (hbound : (calls.length : Int) < INT_MAX) :
    ((add_nodes_to_frequencies_list_int first_node calls).2.table.map
      (fun e => e.markov_node)).Nodup ∧
    (∀ e ∈ (add_nodes_to_frequencies_list_int first_node calls).2.table,
      1 ≤ e.frequency ∧ e.frequency ≤ INT_MAX) ∧
    (∀ (d : Ptr) (alloc : Option MarkovNodeFrequency) (i : Nat) (e : MarkovNodeFrequency),
      (add_nodes_to_frequencies_list_int first_node calls).2.table[i]? = some e →
      ∃ e1, (add_node_to_frequencies_list_int
          (add_nodes_to_frequencies_list_int first_node calls).2 d alloc).2.table[i]? = some e1 ∧
        e1.markov_node = e.markov_node ∧ e.frequency ≤ e1.frequency) := by
  have hpos0 : ∀ e ∈ first_node.table, 1 ≤ e.frequency := by rw [hempty]; simp
  have hsum0 : count_sum first_node.table = 0 := by rw [hempty]; rfl
  have heq := add_nodes_int_eq first_node calls hv hpos0 (by rw [hsum0]; omega)
  rw [heq]
  obtain ⟨h1, h2, h3⟩ := add_nodes_invariant first_node calls hv
    (by rw [hempty]; exact List.nodup_nil) hpos0
  obtain ⟨_, _, hsum⟩ := add_nodes_sum first_node calls hv hpos0
  rw [hsum0] at hsum
  have hle : ∀ e ∈ (add_nodes_to_frequencies_list first_node calls).2.table,
      e.frequency < INT_MAX := by
    intro e he
    have := count_le_sum _ h3 e he
    omega
  refine ⟨h2, fun e he => ⟨h3 e he, le_of_lt (hle e he)⟩, ?_⟩
  intro d alloc i e hi
  rw [add_node_int_eq _ d alloc (by
    intro e he
    have a1 := h3 e he
    have a2 := hle e he
    constructor <;> omega)]
  obtain ⟨_, hc⟩ := add_node_cases (add_nodes_to_frequencies_list first_node calls).2 d alloc h1
  rcases hc with ⟨_, ht⟩ | ⟨_, hf⟩
  · rw [ht]
    obtain ⟨e1, h4, h5, h6, _⟩ := monotone_table_add d _ i e hi
    exact ⟨e1, h4, h5, h6⟩
  · rw [hf]; exact ⟨e, hi, rfl, le_refl _⟩

theorem table_invariant_witness :
    example_empty_node.valid ∧
    example_empty_node.table = [] ∧
    (4 : Int) < INT_MAX ∧
    (add_nodes_to_frequencies_list_int example_empty_node
      [(1, some ⟨none, 0⟩), (2, none), (2, some ⟨some 9, 5⟩), (1, none)]).2.table
      = [⟨some 1, 2⟩, ⟨some 2, 1⟩] ∧
    ((add_nodes_to_frequencies_list_int example_empty_node
      [(1, some ⟨none, 0⟩), (2, none), (2, some ⟨some 9, 5⟩), (1, none)]).2.table.map
      (fun e => e.markov_node)).Nodup :=
  ⟨trivial, rfl, by decide, by decide,
    (table_invariant example_empty_node
      [(1, some ⟨none, 0⟩), (2, none), (2, some ⟨some 9, 5⟩), (1, none)] trivial rfl
      (by decide)).1⟩

/-- C6, as stated, fails: the count is an `int`. From the empty table,
`INT_MAX` successful calls for one destination give the single entry of count
`INT_MAX`; the next call for this destination returns `true` and leaves the
count `-2^31`, which is below 1 and below the count before the call. -/
theorem table_invariant_counterexample :
    (add_nodes_to_frequencies_list_int example_empty_node
      (List.replicate 2147483647 ((1 : Ptr), some (⟨none, 0⟩ : MarkovNodeFrequency)))).2.table
      = [⟨some 1, 2147483647⟩] ∧
    (add_node_to_frequencies_list_int (add_nodes_to_frequencies_list_int example_empty_node
      (List.replicate 2147483647 ((1 : Ptr), some (⟨none, 0⟩ : MarkovNodeFrequency)))).2
      1 none).1 = true ∧
    (add_node_to_frequencies_list_int (add_nodes_to_frequencies_list_int example_empty_node
      (List.replicate 2147483647 ((1 : Ptr), some (⟨none, 0⟩ : MarkovNodeFrequency)))).2
      1 none).2.table = [⟨some 1, -2147483648⟩] := by
  have hfirst : add_nodes_to_frequencies_list_int example_empty_node
      (List.replicate 2147483647 ((1 : Ptr), some (⟨none, 0⟩ : MarkovNodeFrequency)))
      = (List.replicate (2147483646 + 1) true,
          ⟨some 7, some [⟨some 1, ((2147483646 : Nat) : Int) + 1⟩], 1, 1⟩) :=
    add_nodes_int_fresh (some 7 : Option Nat) 1 ⟨none, 0⟩ 2147483646 (by simp [INT_MAX])
  rw [hfirst]
  simp only [add_node_int_single]
  have hw : int_wrap (((2147483646 : Nat) : Int) + 1 + 1) = -2147483648 := by decide
  rw [hw]
  refine ⟨?_, trivial, ?_⟩
  · simp [MarkovNode.table]
  · simp [MarkovNode.table]

/-! ## Failure paths -/

/-- The boolean result of `add_node_to_frequencies_list` is `false` exactly when
the lookup fails and the allocation fails; the node is then left as it was. -/
theorem add_node_result (n : MarkovNode α) (d : Ptr) (alloc : Option MarkovNodeFrequency) :
    ((add_node_to_frequencies_list n d alloc).1 = false ↔
      (get_node_from_frequencies_list n d = NOT_IN_ARRAY ∧ alloc = none)) ∧
    ((add_node_to_frequencies_list n d alloc).1 = false →
      (add_node_to_frequencies_list n d alloc).2 = n) := by
  by_cases hf : get_node_from_frequencies_list n d = NOT_IN_ARRAY
  · cases alloc with
    | none =>
      rw [add_node_fails n d hf]
      simp [hf]
    | some junk =>
      obtain ⟨data, fl, size, msize⟩ := n
      cases fl <;>
        simp [add_node_to_frequencies_list, hf, increase_markov_node_frequency_size]
  · simp [add_node_to_frequencies_list, hf]

/-- C22. `add_node_to_frequencies_list` fails only on allocation failure: the
call returns `false` if and only if no entry of the table has the destination
and the growth of the table fails; the node (entries, size, block) is then left
as it was. A call whose destination is in the table returns `true`. -/
theorem add_node_to_frequencies_list_failure (first_node : MarkovNode α) (second_node : Ptr)
    (alloc : Option MarkovNodeFrequency) :
    ((add_node_to_frequencies_list first_node second_node alloc).1 = false ↔
      ((∀ e ∈ first_node.table, e.markov_node ≠ some second_node) ∧ alloc = none)) ∧
    ((add_node_to_frequencies_list first_node second_node alloc).1 = false →
      (add_node_to_frequencies_list first_node second_node alloc).2 = first_node) ∧
    ((∃ e ∈ first_node.table, e.markov_node = some second_node) →
      (add_node_to_frequencies_list first_node second_node alloc).1 = true) := by
  obtain ⟨h1, h2⟩ := add_node_result first_node second_node alloc
  have hl : get_node_from_frequencies_list first_node second_node = NOT_IN_ARRAY ↔
      ∀ e ∈ first_node.table, e.markov_node ≠ some second_node := by
    rw [lookup_eq_loop]; exact loop_not_found second_node _ 0 (le_refl _)
  refine ⟨by rw [h1, hl], h2, ?_⟩
  rintro ⟨e, he, hd⟩
  cases hres : (add_node_to_frequencies_list first_node second_node alloc).1 with
  | true => rfl
  | false =>
    have := (hl.mp (h1.mp hres).1) e he
    exact absurd hd this

theorem add_node_to_frequencies_list_failure_witness :
    (add_node_to_frequencies_list example_node 5 none).1 = false ∧
    (add_node_to_frequencies_list example_node 5 none).2 = example_node :=
  ⟨(add_node_to_frequencies_list_failure example_node 5 none).1.mpr ⟨by decide, rfl⟩,
    (add_node_to_frequencies_list_failure example_node 5 none).2.1
      ((add_node_to_frequencies_list_failure example_node 5 none).1.mpr ⟨by decide, rfl⟩)⟩

/-- Why `add_to_database` returned `NULL`: on a registry whose cells hold state
values, a `NULL` result comes from a failed allocation of the database, of the
state copy, or of the list cell; the registry is as before, the arena only
gained unused nodes. -/
theorem add_to_database_null (st : State α) (s : α) (db_ok node_ok add_ok : Bool)
    (hok : registry_ok st) (st1 : State α)
    (h : add_to_database st s db_ok node_ok add_ok = .ok (none, st1)) :
    ((st.markov_chain.database = none ∧ db_ok = false) ∨
      st.markov_chain.copy_func s = none ∨ add_ok = false) ∧
    registry st1 = registry st ∧ registry_size st1 = registry_size st ∧
    ∃ ext, st1.heap = st.heap ++ ext := by
  obtain ⟨heap, mc⟩ := st
  cases hdb : mc.database with
  | none =>
    cases db_ok with
    | false =>
      simp [add_to_database, allocate_database, hdb] at h
      subst h
      exact ⟨Or.inl ⟨rfl, rfl⟩, rfl, rfl, [], by simp⟩
    | true =>
      cases node_ok with
      | false =>
        simp [add_to_database, allocate_database, hdb, get_node_from_database,
          get_node_from_database_loop, new_markov_node] at h
      | true =>
        cases hcp : mc.copy_func s with
        | none =>
          simp [add_to_database, allocate_database, hdb, get_node_from_database,
            get_node_from_database_loop, new_markov_node, hcp, modify_length_append] at h
          subst h
          exact ⟨Or.inr (Or.inl rfl), by simp [registry, hdb], by simp [registry_size, hdb],
            _, rfl⟩
        | some c =>
          cases add_ok with
          | false =>
            simp [add_to_database, allocate_database, hdb, get_node_from_database,
              get_node_from_database_loop, new_markov_node, hcp, modify_length_append, add] at h
            subst h
            exact ⟨Or.inr (Or.inr rfl), by simp [registry, hdb], by simp [registry_size, hdb],
              _, rfl⟩
          | true =>
            simp [add_to_database, allocate_database, hdb, get_node_from_database,
              get_node_from_database_loop, new_markov_node, hcp, modify_length_append, add,
              LINKED_LIST_ADD_FAILED] at h
  | some database =>
    have hok2 : ∀ c ∈ database.nodes, ∃ v, stored heap c = some v := by
      have : registry (⟨heap, mc⟩ : State α) = database.nodes := by simp [registry, hdb]
      rw [← this]; exact hok
    rcases db_loop_spec heap mc.comp_func s database.nodes 0 hok2 with
      ⟨h1, _⟩ | ⟨k, _, _, h1, _⟩
    · cases node_ok with
      | false =>
        simp [add_to_database, allocate_database, hdb, get_node_from_database, h1,
          new_markov_node] at h
      | true =>
        cases hcp : mc.copy_func s with
        | none =>
          simp [add_to_database, allocate_database, hdb, get_node_from_database, h1,
            new_markov_node, hcp, modify_length_append] at h
          subst h
          exact ⟨Or.inr (Or.inl rfl), by simp [registry, hdb], by simp [registry_size, hdb],
            _, rfl⟩
        | some c =>
          cases add_ok with
          | false =>
            simp [add_to_database, allocate_database, hdb, get_node_from_database, h1,
              new_markov_node, hcp, modify_length_append, add] at h
            subst h
            exact ⟨Or.inr (Or.inr rfl), by simp [registry, hdb], by simp [registry_size, hdb],
              _, rfl⟩
          | true =>
            simp [add_to_database, allocate_database, hdb, get_node_from_database, h1,
              new_markov_node, hcp, modify_length_append, add, LINKED_LIST_ADD_FAILED] at h
    · simp [add_to_database, allocate_database, hdb, get_node_from_database, h1] at h

/-- A state absent from the registry whose copy or list cell cannot be allocated
makes `add_to_database` return `NULL`, the node allocation succeeding. -/
theorem add_to_database_fails (st : State α) (s : α) (db_ok add_ok : Bool)
    (hok : registry_ok st)
    (hnew : ∀ c ∈ registry st, ∀ v, stored st.heap c = some v →
      st.markov_chain.comp_func v s ≠ 0)
    (hfail : st.markov_chain.copy_func s = none ∨ add_ok = false) :
    ∃ st1, add_to_database st s db_ok true add_ok = .ok (none, st1) := by
  obtain ⟨heap, mc⟩ := st
  cases hdb : mc.database with
  | none =>
    cases db_ok with
    | false => simp [add_to_database, allocate_database, hdb]
    | true =>
      cases hcp : mc.copy_func s with
      | none =>
        simp [add_to_database, allocate_database, hdb, get_node_from_database,
          get_node_from_database_loop, new_markov_node, hcp]
      | some c =>
        have hadd : add_ok = false := by
          rcases hfail with h | h
          · simp only at h; rw [hcp] at h; cases h
          · exact h
        subst hadd
        simp [add_to_database, allocate_database, hdb, get_node_from_database,
          get_node_from_database_loop, new_markov_node, hcp, add]
  | some database =>
    have hreg : registry (⟨heap, mc⟩ : State α) = database.nodes := by simp [registry, hdb]
    have hok2 : ∀ c ∈ database.nodes, ∃ v, stored heap c = some v := by
      rw [← hreg]; exact hok
    rcases db_loop_spec heap mc.comp_func s database.nodes 0 hok2 with
      ⟨h1, _⟩ | ⟨k, c, v, _, h2, h3, h4, _⟩
    · cases hcp : mc.copy_func s with
      | none =>
        simp [add_to_database, allocate_database, hdb, get_node_from_database, h1,
          new_markov_node, hcp]
      | some c =>
        have hadd : add_ok = false := by
          rcases hfail with h | h
          · simp only at h; rw [hcp] at h; cases h
          · exact h
        subst hadd
        simp [add_to_database, allocate_database, hdb, get_node_from_database, h1,
          new_markov_node, hcp, add]
    · exact absurd h4 (hnew c (by rw [hreg]; exact List.getElem?_mem h2) v h3)

/-- C21. Failure atomicity of `add_to_database`: for a state `s` that no registry
cell compares equal to, if `copy_func` returns `NULL` or the append to the list
fails (the node allocation succeeding), the call returns `NULL`, and the
registry is what it was: same cells in the same order, same `size`, and every
node of the arena, with its state and its table, as before. Whenever the call
returns `NULL`, an allocation has failed (of the database, of the state copy or
of the list cell) and the registry is what it was. -/
theorem add_to_database_failure (st : State α) (s : α) (db_ok add_ok : Bool)
    (hok : registry_ok st)
    (hnew : ∀ c ∈ registry st, ∀ v, stored st.heap c = some v →
      st.markov_chain.comp_func v s ≠ 0) :
    ((st.markov_chain.copy_func s = none ∨ add_ok = false) →
      ∃ st1, add_to_database st s db_ok true add_ok = .ok (none, st1) ∧
        registry st1 = registry st ∧ registry_size st1 = registry_size st ∧
        (∀ (p : Ptr) (n : MarkovNode α), st.heap[p]? = some n → st1.heap[p]? = some n)) ∧
    (∀ (db_ok1 node_ok1 add_ok1 : Bool) (st1 : State α),
      add_to_database st s db_ok1 node_ok1 add_ok1 = .ok (none, st1) →
      ((st.markov_chain.database = none ∧ db_ok1 = false) ∨
        st.markov_chain.copy_func s = none ∨ add_ok1 = false) ∧
      registry st1 = registry st ∧ registry_size st1 = registry_size st ∧
      (∀ (p : Ptr) (n : MarkovNode α), st.heap[p]? = some n → st1.heap[p]? = some n)) := by
  have key : ∀ (a b c : Bool) (st1 : State α),
      add_to_database st s a b c = .ok (none, st1) →
      ((st.markov_chain.database = none ∧ a = false) ∨
        st.markov_chain.copy_func s = none ∨ c = false) ∧
      registry st1 = registry st ∧ registry_size st1 = registry_size st ∧
      (∀ (p : Ptr) (n : MarkovNode α), st.heap[p]? = some n → st1.heap[p]? = some n) := by
    intro a b c st1 h
    obtain ⟨h1, h2, h3, ext, h4⟩ := add_to_database_null st s a b c hok st1 h
    refine ⟨h1, h2, h3, ?_⟩
    intro p n hp
    have hlt : p < st.heap.length := by
      by_contra hc
      rw [List.getElem?_eq_none (not_lt.mp hc)] at hp
      cases hp
    rw [h4, List.getElem?_append_left hlt]
    exact hp
  refine ⟨?_, key⟩
  intro hfail
  obtain ⟨st1, h⟩ := add_to_database_fails st s db_ok add_ok hok hnew hfail
  exact ⟨st1, h, (key db_ok true add_ok st1 h).2⟩

theorem add_to_database_failure_witness :
    registry_ok example_state ∧
    ∃ st1, add_to_database example_state 9 true true false = .ok (none, st1) ∧
      registry st1 = registry example_state :=
  ⟨example_state_ok,
    by
      obtain ⟨st1, h1, h2, _⟩ := (add_to_database_failure example_state 9 true false
        example_state_ok
        (by
          intro c hc v hv
          have : c = ⟨0⟩ ∨ c = ⟨1⟩ := by
            simpa [registry, example_state, example_chain_with] using hc
          rcases this with rfl | rfl
          · have h5 : v = 5 := by
              have : stored example_state.heap ⟨0⟩ = some 5 := rfl
              rw [this] at hv; cases hv; rfl
            subst h5; decide
          · have h8 : v = 8 := by
              have : stored example_state.heap ⟨1⟩ = some 8 := rfl
              rw [this] at hv; cases hv; rfl
            subst h8; decide)).1 (Or.inr rfl)
      exact ⟨st1, h1, h2⟩⟩

/-! ## Walks follow the recorded transitions -/

/-- The second loop of `get_next_random_node` returns the destination of an
entry of the list. -/
theorem get_next_random_node_loop_mem (t : List MarkovNodeFrequency) (r : Int) (q : Ptr)
    (h : get_next_random_node_loop t r = some q) : ∃ e ∈ t, e.markov_node = some q := by
  induction t generalizing r with
  | nil => simp [get_next_random_node_loop] at h
  | cons a rest ih =>
    simp only [get_next_random_node_loop] at h
    split at h
    · exact ⟨a, by simp, h⟩
    · obtain ⟨e, he, hq⟩ := ih _ h
      exact ⟨e, by simp [he], hq⟩

/-- A node returned by `get_next_random_node` is the destination of an entry of
the table. -/
theorem get_next_random_node_mem (n : MarkovNode α) (r : Int) (q : Ptr)
    (h : get_next_random_node n r = .ok (some q)) : ∃ e ∈ n.table, e.markov_node = some q := by
  obtain ⟨data, fl, size, msize⟩ := n
  simp only [get_next_random_node] at h
  split at h
  · cases h
  · cases fl with
    | none => cases h
    | some l =>
      simp only at h
      split at h
      · cases h
      · simp only [Except.ok.injEq] at h
        simpa [MarkovNode.table] using get_next_random_node_loop_mem _ _ q h

/-- Along the `for` loop of `generate_tweet`, every state printed after another
is the node that `get_next_random_node` returns for the node printed before it
and the draw of that iteration. -/
theorem generate_tweet_loop_edges (heap : List (MarkovNode α)) (is_last : α → Bool)
    (rand : Nat → Int) (steps : Nat) (p : Ptr) (pos : Nat) (obj : MarkovNode α) (d : α)
    (hp : heap[p]? = some obj) (hd : obj.data = some d) :
    ∀ (i : Nat) (p1 : Ptr) (a : α) (q : Ptr) (b : α),
      ((p, d) :: (generate_tweet_loop heap is_last rand steps p pos).printed)[i]? = some (p1, a) →
      ((p, d) :: (generate_tweet_loop heap is_last rand steps p pos).printed)[i + 1]?
        = some (q, b) →
      ∃ n, heap[p1]? = some n ∧ n.data = some a ∧
        get_next_random_node n (rand (pos + i)) = .ok (some q) ∧
        ∃ e ∈ n.table, e.markov_node = some q := by
  induction steps generalizing p pos obj d with
  | zero =>
    intro i p1 a q b _ h2
    simp [generate_tweet_loop] at h2
  | succ steps ih =>
    intro i p1 a q b h1 h2
    simp only [generate_tweet_loop, hp] at h1 h2
    cases hnext : get_next_random_node obj (rand pos) with
    | error f => simp [hnext] at h2
    | ok r =>
      cases r with
      | none => simp [hnext] at h2
      | some next_node =>
        simp only [hnext] at h1 h2
        cases hq : heap[next_node]? with
        | none => simp [hq] at h2
        | some next =>
          simp only [hq] at h1 h2
          cases hnd : next.data with
          | none => simp [hnd] at h2
          | some d1 =>
            simp only [hnd] at h1 h2
            cases i with
            | zero =>
              have e1 : p1 = p ∧ a = d := by
                simp at h1; exact ⟨h1.1.symm, h1.2.symm⟩
              obtain ⟨rfl, rfl⟩ := e1
              have e2 : q = next_node := by
                split at h2 <;> simp at h2 <;> exact h2.1.symm
              subst e2
              exact ⟨obj, hp, hd, by simpa using hnext,
                get_next_random_node_mem obj _ _ hnext⟩
            | succ j =>
              by_cases hl : is_last d1 = true
              · simp [hl] at h2
              · simp only [hl] at h1 h2
                simp only [List.getElem?_cons_succ] at h1 h2
                have := ih next_node (pos + 1) next d1 hq hnd j p1 a q b
                  (by simpa using h1) (by simpa using h2)
                have e : pos + (j + 1) = pos + 1 + j := by omega
                rw [e]; exact this

/-- C24. Walks follow recorded edges: for every two states printed one after the
other by `generate_tweet`, the second is the node that `get_next_random_node`
returns for the node of the first and the draw of that step, and it is the
destination of an entry of the table of the first. -/
theorem walk_follows_edges (st : State α) (first_node : Option Ptr) (max_length : Int)
    (rand : Nat → Int) (fuel : Nat) (i : Nat) (p : Ptr) (a : α) (q : Ptr) (b : α) :
    (generate_tweet st first_node max_length rand fuel).printed[i]? = some (p, a) →
    (generate_tweet st first_node max_length rand fuel).printed[i + 1]? = some (q, b) →
    ∃ n, st.heap[p]? = some n ∧ n.data = some a ∧
      get_next_random_node n (rand (draws_before_walk st first_node rand fuel + i))
        = .ok (some q) ∧
      ∃ e ∈ n.table, e.markov_node = some q := by
  intro h1 h2
  have key : ∀ (p0 pos : Nat),
      (match first_node with
        | none => get_first_random_node st rand fuel 0
        | some p => some (.ok (p, 0))) = some (.ok (p0, pos)) →
      draws_before_walk st first_node rand fuel = pos := by
    intro p0 pos h
    cases first_node with
    | none => simp only at h; simp [draws_before_walk, h]
    | some x => simp at h; simp [draws_before_walk, h.2]
  simp only [generate_tweet] at h1 h2
  split at h1
  · simp at h1
  · simp at h1
  · rename_i p0 pos hstart
    rw [key p0 pos hstart]
    simp only [hstart] at h2
    cases hp : st.heap[p0]? with
    | none => simp [hp] at h1
    | some first =>
      simp only [hp] at h1 h2
      cases hd : first.data with
      | none => simp [hd] at h1
      | some d =>
        simp only [hd] at h1 h2
        exact generate_tweet_loop_edges st.heap st.markov_chain.is_last rand _ p0 pos first d
          hp hd i p a q b h1 h2

theorem walk_follows_edges_witness :
    (generate_tweet example_state (some 0) 5 (fun _ => 7) 0).printed[0]? = some (0, 5) ∧
    (generate_tweet example_state (some 0) 5 (fun _ => 7) 0).printed[1]? = some (1, 8) ∧
    ∃ n, example_state.heap[0]? = some n ∧ n.data = some 5 ∧
      get_next_random_node n 7 = .ok (some 1) ∧ ∃ e ∈ n.table, e.markov_node = some 1 :=
  ⟨rfl, rfl, walk_follows_edges example_state (some 0) 5 (fun _ => 7) 0 0 0 5 1 8 rfl rfl⟩

/-! ## Safety of walks on a well-formed chain -/

theorem mem_table_add (d : Ptr) (t : List MarkovNodeFrequency) (e : MarkovNodeFrequency)
    (he : e ∈ table_add d t) :
    (∃ e0 ∈ t, e0.markov_node = e.markov_node) ∨ e.markov_node = some d := by
  induction t with
  | nil =>
    simp [table_add] at he
    subst he; exact Or.inr rfl
  | cons a rest ih =>
    simp only [table_add] at he
    by_cases ha : a.markov_node = some d
    · simp only [ha, if_true, List.mem_cons] at he
      rcases he with rfl | he
      · exact Or.inr rfl
      · exact Or.inl ⟨e, by simp [he], rfl⟩
    · simp only [ha, if_false, List.mem_cons] at he
      rcases he with rfl | he
      · exact Or.inl ⟨e, by simp, rfl⟩
      · rcases ih he with ⟨e0, h0, h1⟩ | h
        · exact Or.inl ⟨e0, by simp [h0], h1⟩
        · exact Or.inr h

/-- A successful call leaves the node with an allocated block. -/
theorem add_node_block (n : MarkovNode α) (d : Ptr) (alloc : Option MarkovNodeFrequency)
    (h : (add_node_to_frequencies_list n d alloc).1 = true) :
    (add_node_to_frequencies_list n d alloc).2.frequencies_list ≠ none := by
  obtain ⟨data, fl, size, msize⟩ := n
  cases fl with
  | none =>
    have hl : get_node_from_frequencies_list (⟨data, none, size, msize⟩ : MarkovNode α) d
        = NOT_IN_ARRAY := rfl
    cases alloc with
    | none => rw [add_node_fails _ d hl] at h; cases h
    | some junk =>
      simp [add_node_to_frequencies_list, hl, increase_markov_node_frequency_size]
  | some l =>
    by_cases hf : get_node_from_frequencies_list
        (⟨data, some l, size, msize⟩ : MarkovNode α) d ≠ NOT_IN_ARRAY
    · simp [add_node_to_frequencies_list, hf]
    · cases alloc with
      | none =>
        simp [add_node_to_frequencies_list, hf, increase_markov_node_frequency_size] at h
      | some junk =>
        simp [add_node_to_frequencies_list, hf, increase_markov_node_frequency_size]

theorem node_ok_append (heap ext : List (MarkovNode α)) (n : MarkovNode α)
    (h : node_ok heap n) : node_ok (heap ++ ext) n := by
  obtain ⟨h1, h2, h3⟩ := h
  refine ⟨h1, h2, ?_⟩
  intro e he
  obtain ⟨hf, q, m, v, hq, hm, hv⟩ := h3 e he
  refine ⟨hf, q, m, v, hq, ?_, hv⟩
  have hlt : q < heap.length := by
    by_contra hc
    rw [List.getElem?_eq_none (not_lt.mp hc)] at hm
    cases hm
  rw [List.getElem?_append_left hlt]; exact hm

theorem node_ok_set (heap : List (MarkovNode α)) (p : Ptr) (n0 n1 n : MarkovNode α)
    (hp : heap[p]? = some n0) (hd : n1.data = n0.data)
    (h : node_ok heap n) : node_ok (heap.set p n1) n := by
  obtain ⟨h1, h2, h3⟩ := h
  refine ⟨h1, h2, ?_⟩
  intro e he
  obtain ⟨hf, q, m, v, hq, hm, hv⟩ := h3 e he
  have hlt : p < heap.length := by
    by_contra hc
    rw [List.getElem?_eq_none (not_lt.mp hc)] at hp
    cases hp
  by_cases hpq : p = q
  · subst hpq
    rw [hp] at hm
    cases hm
    exact ⟨hf, p, n1, v, hq, by simp [List.getElem?_set, hlt], by rw [hd]; exact hv⟩
  · exact ⟨hf, q, m, v, hq, by rw [List.getElem?_set_ne hpq]; exact hm, hv⟩

/-- A successful call of one of the two operations, with a live destination,
keeps the chain well formed. -/
theorem step_well_formed (st st1 : State α) (c : Call α) (h : well_formed st)
    (hstep : step st c = .ok st1) (hsucc : step_succeeds st c = true)
    (hlive : ∀ p q a, c = .link p q a → q < st.heap.length) :
    well_formed st1 ∧ st1.markov_chain.is_last = st.markov_chain.is_last := by
  obtain ⟨hex, hheap, hsize⟩ := h
  have hex1 := step_exact st st1 c hex hstep hsucc
  have hok := registry_exact_ok st hex
  cases c with
  | insert s db_ok node_ok add_ok =>
    simp only [step] at hstep
    simp only [step_succeeds] at hsucc
    cases hadd : add_to_database st s db_ok node_ok add_ok with
    | error f => rw [hadd] at hstep; cases hstep
    | ok res =>
      obtain ⟨r, st2⟩ := res
      rw [hadd] at hstep hsucc
      simp only [Except.ok.injEq] at hstep
      subst hstep
      obtain ⟨hout, _, _, hlast⟩ := add_to_database_cases st s db_ok node_ok add_ok hok r st2 hadd
      refine ⟨?_, hlast⟩
      cases hout with
      | found i c v hr hst _ _ _ _ => subst hst; exact ⟨hex, hheap, hsize⟩
      | failed ext hr _ _ _ => subst hr; simp at hsucc
      | inserted c hcopy hr hreg hsz hh hnew =>
        refine ⟨hex1, ?_, ?_⟩
        · rw [hh]
          intro n hn
          rcases List.mem_append.mp hn with hn | hn
          · exact node_ok_append _ _ n (hheap n hn)
          · simp only [List.mem_singleton] at hn
            subst hn
            exact ⟨by simp [MarkovNode.valid], fun _ => rfl, by simp [MarkovNode.table]⟩
        · rw [hsz, hreg, hsize]; simp
  | link p q alloc =>
    have hq := hlive p q alloc rfl
    simp only [step, add_node_to_frequencies_list_at] at hstep
    simp only [step_succeeds, add_node_to_frequencies_list_at] at hsucc
    cases hp : st.heap[p]? with
    | none => rw [hp] at hstep; cases hstep
    | some n =>
      rw [hp] at hstep hsucc
      simp only [Except.ok.injEq] at hstep
      subst hstep
      refine ⟨⟨hex1, ?_, ?_⟩, rfl⟩
      · have hnok := hheap n (List.getElem?_mem hp)
        have hb : (add_node_to_frequencies_list n q alloc).1 = true := by
          cases hres : (add_node_to_frequencies_list n q alloc).1 with
          | true => rfl
          | false =>
            simp [hres] at hsucc
        have hdata := add_node_data n q alloc
        obtain ⟨hval, hcase⟩ := add_node_cases n q alloc hnok.1
        have htab : (add_node_to_frequencies_list n q alloc).2.table = table_add q n.table := by
          rcases hcase with ⟨_, ht⟩ | ⟨hf, _⟩
          · exact ht
          · rw [hb] at hf; cases hf
        have hblock := add_node_block n q alloc hb
        have hnew : node_ok st.heap (add_node_to_frequencies_list n q alloc).2 := by
          refine ⟨hval, fun h0 => absurd h0 hblock, ?_⟩
          intro e he
          rw [htab] at he
          refine ⟨positive_table_add q n.table (fun e he => (hnok.2.2 e he).1) e he, ?_⟩
          rcases mem_table_add q n.table e he with ⟨e0, h0, h1⟩ | h
          · obtain ⟨_, q1, m, v, hq1, hm, hv⟩ := hnok.2.2 e0 h0
            exact ⟨q1, m, v, by rw [← h1]; exact hq1, hm, hv⟩
          · have hget : st.heap[q]? = some st.heap[q] := List.getElem?_eq_getElem hq
            cases hd : (st.heap[q]).data with
            | none => exact absurd hd (hex.2 _ (List.getElem_mem hq))
            | some v => exact ⟨q, _, v, h, hget, hd⟩
        intro m hm
        rcases List.mem_or_eq_of_mem_set hm with hm | hm
        · exact node_ok_set st.heap p n _ m hp hdata (hheap m hm)
        · subst hm
          exact node_ok_set st.heap p n _ _ hp hdata hnew
      · exact hsize

theorem run_well_formed (st st1 : State α) (calls : List (Call α)) (h : well_formed st)
    (hrun : run st calls = .ok st1) (hsucc : run_succeeds st calls = true)
    (hlive : links_live st calls = true) :
    well_formed st1 ∧ st1.markov_chain.is_last = st.markov_chain.is_last := by
  induction calls generalizing st with
  | nil =>
    simp only [run, Except.ok.injEq] at hrun
    subst hrun; exact ⟨h, rfl⟩
  | cons c rest ih =>
    simp only [run] at hrun
    simp only [run_succeeds, Bool.and_eq_true] at hsucc
    simp only [links_live, Bool.and_eq_true] at hlive
    cases hstep : step st c with
    | error f => rw [hstep] at hrun; cases hrun
    | ok st2 =>
      rw [hstep] at hrun hsucc hlive
      have h2 := step_well_formed st st2 c h hstep hsucc.1 (by
        intro p q a hc
        subst hc
        simpa using hlive.1)
      obtain ⟨h3, h4⟩ := ih st2 h2.1 hrun hsucc.2 hlive.2
      exact ⟨h3, h4.trans h2.2⟩

/-- On a well-formed chain with a non-empty registry, the index drawn with a
non-negative value of `rand()` is the index of a cell whose node holds a state. -/
theorem drawn_state_some (st : State α) (database : LinkedList) (r : Int)
    (hdb : st.markov_chain.database = some database) (hwf : well_formed st)
    (hne : database.nodes ≠ []) (hr : 0 ≤ r) :
    database.size = database.nodes.length ∧ 0 < database.size ∧
    0 ≤ Int.tmod r database.size ∧ Int.tmod r database.size < database.nodes.length ∧
    ∃ node d, database.nodes[(Int.tmod r database.size).toNat]? = some node ∧
      stored st.heap node = some d ∧ drawn_state st database r = some d := by
  obtain ⟨hex, _, hsize⟩ := hwf
  have hreg : registry st = database.nodes := by simp [registry, hdb]
  have hsz : database.size = database.nodes.length := by
    simpa [registry_size, registry, hdb] using hsize
  have hlen : 0 < database.nodes.length := List.length_pos.mpr hne
  have hpos : 0 < database.size := by omega
  have h0 : 0 ≤ Int.tmod r database.size := Int.tmod_nonneg _ hr
  have h1 : Int.tmod r database.size < database.size := Int.tmod_lt_of_pos _ hpos
  have hlt : (Int.tmod r database.size).toNat < database.nodes.length := by omega
  have hget : database.nodes[(Int.tmod r database.size).toNat]?
      = some database.nodes[(Int.tmod r database.size).toNat] := List.getElem?_eq_getElem hlt
  obtain ⟨v, hv⟩ := registry_exact_ok st hex _ (by rw [hreg]; exact List.getElem_mem hlt)
  exact ⟨hsz, hpos, h0, by omega, _, v, hget, hv, by simp [drawn_state, hget, hv]⟩

/-- On a well-formed chain with a non-empty registry and non-negative draws, the
loop of `get_first_random_node` raises no fault. -/
theorem get_first_random_node_loop_safe (st : State α) (database : LinkedList)
    (rand : Nat → Int) (hdb : st.markov_chain.database = some database) (hwf : well_formed st)
    (hne : database.nodes ≠ []) (hrand : ∀ i, 0 ≤ rand i) (fuel pos : Nat) (f : Fault) :
    get_first_random_node_loop st database rand fuel pos ≠ some (.error f) := by
  induction fuel generalizing pos with
  | zero => simp [get_first_random_node_loop]
  | succ fuel ih =>
    obtain ⟨hsz, _, _, _, node, d, _, _, hd⟩ :=
      drawn_state_some st database (rand pos) hdb hwf hne (hrand pos)
    obtain ⟨node1, _, _, heq⟩ :=
      get_first_random_node_iter st database rand fuel pos d hsz (hrand pos) hd
    rw [heq]
    split
    · exact ih (pos + 1)
    · simp

/-- On a well-formed chain whose counts add up to less than `INT_MAX` in every
table, a call with `int` arithmetic is the call on mathematical integers. -/
theorem step_int_eq (st : State α) (c : Call α) (hwf : well_formed st) (k : Int)
    (hsum : ∀ n ∈ st.heap, count_sum n.table ≤ k) (hk : k < INT_MAX) :
    step_int st c = step st c ∧ step_succeeds_int st c = step_succeeds st c := by
  cases c with
  | insert s db_ok node_ok add_ok => exact ⟨rfl, rfl⟩
  | link p q a =>
    cases hp : st.heap[p]? with
    | none =>
      simp [step_int, step, step_succeeds_int, step_succeeds,
        add_node_to_frequencies_list_at_int, add_node_to_frequencies_list_at, hp]
    | some n =>
      have hn : n ∈ st.heap := List.getElem?_mem hp
      have hpos : ∀ e ∈ n.table, 1 ≤ e.frequency := fun e he => ((hwf.2.1 n hn).2.2 e he).1
      have heq := add_node_int_eq n q a (by
        intro e he
        have h1 := hpos e he
        have h2 := count_le_sum n.table hpos e he
        have h3 := hsum n hn
        constructor <;> omega)
      constructor
      · simp [step_int, step, add_node_to_frequencies_list_at_int,
          add_node_to_frequencies_list_at, hp, heq]
      · simp only [step_succeeds_int, step_succeeds, add_node_to_frequencies_list_at_int,
          add_node_to_frequencies_list_at, hp, heq]

/-- A successful call on a well-formed chain adds at most 1 to the sum of the
counts of a table. -/
theorem step_sum (st st1 : State α) (c : Call α) (hwf : well_formed st) (k : Int)
    (h0 : 0 ≤ k) (hsum : ∀ n ∈ st.heap, count_sum n.table ≤ k)
    (hstep : step st c = .ok st1) (hsucc : step_succeeds st c = true) :
    ∀ n ∈ st1.heap, count_sum n.table ≤ k + 1 := by
  have hok := registry_exact_ok st hwf.1
  cases c with
  | insert s db_ok node_ok add_ok =>
    simp only [step] at hstep
    simp only [step_succeeds] at hsucc
    cases hadd : add_to_database st s db_ok node_ok add_ok with
    | error f => rw [hadd] at hstep; cases hstep
    | ok res =>
      obtain ⟨r, st2⟩ := res
      rw [hadd] at hstep hsucc
      simp only [Except.ok.injEq] at hstep
      subst hstep
      obtain ⟨hout, _⟩ := add_to_database_cases st s db_ok node_ok add_ok hok r st2 hadd
      cases hout with
      | found i c v hr hst _ _ _ _ =>
        subst hst
        intro n hn
        have := hsum n hn
        omega
      | failed ext hr _ _ _ => subst hr; simp at hsucc
      | inserted c hcopy hr hreg hsz hh hnew =>
        rw [hh]
        intro n hn
        rcases List.mem_append.mp hn with hn | hn
        · have := hsum n hn
          omega
        · simp only [List.mem_singleton] at hn
          subst hn
          simp only [MarkovNode.table, count_sum, List.map_nil, List.sum_nil]
          omega
  | link p q a =>
    simp only [step, add_node_to_frequencies_list_at] at hstep
    cases hp : st.heap[p]? with
    | none => rw [hp] at hstep; cases hstep
    | some n =>
      rw [hp] at hstep
      simp only [Except.ok.injEq] at hstep
      subst hstep
      have hn : n ∈ st.heap := List.getElem?_mem hp
      have hnok := hwf.2.1 n hn
      obtain ⟨_, _, hs⟩ := add_node_sum n q a hnok.1 (fun e he => (hnok.2.2 e he).1)
      intro m hm
      rcases List.mem_or_eq_of_mem_set hm with hm | hm
      · have := hsum m hm
        omega
      · subst hm
        have := hsum n hn
        omega

/-- A sequence of successful calls with live destinations on a well-formed
chain, as long as the sum of the counts of every table and the number of calls
to come do not exceed `INT_MAX`: the calls with `int` arithmetic are the calls
on mathematical integers, and the sum of the counts of every table grows by at
most the number of calls. -/
theorem run_int_eq (st : State α) (calls : List (Call α)) (k : Int) (hwf : well_formed st)
    (h0 : 0 ≤ k) (hsum : ∀ n ∈ st.heap, count_sum n.table ≤ k)
    (hb : k + (calls.length : Int) ≤ INT_MAX)
    (hsucc : run_succeeds_int st calls = true) (hlive : links_live_int st calls = true) :
    run_int st calls = run st calls ∧ run_succeeds st calls = true ∧
    links_live st calls = true ∧
    ∀ st1, run st calls = .ok st1 →
      ∀ n ∈ st1.heap, count_sum n.table ≤ k + (calls.length : Int) := by
  induction calls generalizing st k with
  | nil =>
    refine ⟨rfl, rfl, rfl, ?_⟩
    intro st1 h
    simp only [run, Except.ok.injEq] at h
    subst h
    simpa using hsum
  | cons c rest ih =>
    simp only [List.length_cons, Nat.cast_add, Nat.cast_one] at hb ⊢
    obtain ⟨e1, e2⟩ := step_int_eq st c hwf k hsum (by omega)
    simp only [run_succeeds_int, Bool.and_eq_true, e1, e2] at hsucc
    simp only [links_live_int, Bool.and_eq_true, e1] at hlive
    simp only [run_int, run, run_succeeds, links_live, e1, Bool.and_eq_true]
    cases hstep : step st c with
    | error f => rw [hstep] at hsucc; simp at hsucc
    | ok st2 =>
      rw [hstep] at hsucc hlive
      simp only at hsucc hlive ⊢
      have hwf2 := (step_well_formed st st2 c hwf hstep hsucc.1 (by
        intro p q a hc
        subst hc
        simpa using hlive.1)).1
      have hsum2 := step_sum st st2 c hwf k h0 hsum hstep hsucc.1
      obtain ⟨i1, i2, i3, i4⟩ := ih st2 (k + 1) hwf2 (by omega) hsum2 (by omega) hsucc.2
        hlive.2
      refine ⟨i1, ⟨hsucc.1, i2⟩, ⟨hlive.1, i3⟩, ?_⟩
      intro st1 h n hn
      have := i4 st1 h n hn
      omega

/-- C25, as amended. Walk generation is safe on a well-formed chain whose counts
are within the range of `int`: take a chain built from a freshly constructed one
by at most `INT_MAX` calls of `add_to_database` and
`add_node_to_frequencies_list` that all succeeded, every destination passed
being a node of the chain, with a non-terminal state in the registry, and draws
that are all non-negative. Then `generate_tweet` without a supplied first node
ends with no fault (no failing assertion, no modulus by zero, no invalid
pointer), whatever the number of draws followed; the registry size is positive
and every drawn index is the index of a cell whose node holds a state; on every
node with a non-empty table the total weight is positive and
`get_next_random_node` returns a node of the chain, not `NULL`; and every count
and every total weight is at most `INT_MAX`. -/
theorem walk_safe (print_func : α → String) (comp_func : α → α → Int)
    (copy_func : α → Option α) (free_data : α → Unit) (is_last : α → Bool)
    (mc : MarkovChain α) (calls : List (Call α)) (st : State α)
    (rand : Nat → Int) (max_length : Int)
    (hnew : new_markov_chain print_func comp_func copy_func free_data is_last true = .ok mc)
    (hrun : run_int ⟨[], mc⟩ calls = .ok st) (hsucc : run_succeeds_int ⟨[], mc⟩ calls = true)
    (hlive : links_live_int ⟨[], mc⟩ calls = true)
    (hbound : (calls.length : Int) ≤ INT_MAX)
    (hnonterm : ∃ c ∈ registry st, ∃ v, stored st.heap c = some v ∧
      st.markov_chain.is_last v = false)
    (hrand : ∀ i, 0 ≤ rand i) :
    (∀ fuel f, (generate_tweet st none max_length rand fuel).ending ≠ .faulted f) ∧
    (∃ database, st.markov_chain.database = some database ∧ 0 < database.size ∧
      ∀ r : Int, 0 ≤ r →
        get_random_number r database.size = .ok (Int.tmod r database.size) ∧
        0 ≤ Int.tmod r database.size ∧ Int.tmod r database.size < database.nodes.length ∧
        get_node_in_index database (Int.tmod r database.size)
          = .ok (some (Int.tmod r database.size).toNat) ∧
        ∃ node d, database.nodes[(Int.tmod r database.size).toNat]? = some node ∧
          stored st.heap node = some d) ∧
    (∀ n ∈ st.heap, n.table ≠ [] →
      0 < total_weight_loop n.table 0 ∧
      ∀ r : Int, 0 ≤ r → ∃ q m v, get_next_random_node n r = .ok (some q) ∧
        st.heap[q]? = some m ∧ m.data = some v) ∧
    (∀ n ∈ st.heap, (∀ e ∈ n.table, 1 ≤ e.frequency ∧ e.frequency ≤ INT_MAX) ∧
      total_weight_loop n.table 0 ≤ INT_MAX) := by
  obtain ⟨_, _, hreg0⟩ := initial_state print_func comp_func copy_func free_data is_last mc []
    hnew
  have hdb0 : mc.database = none := by
    simp only [new_markov_chain, if_true, Except.ok.injEq] at hnew
    subst hnew; rfl
  have h0 : well_formed (⟨[], mc⟩ : State α) := by
    refine ⟨⟨?_, ?_⟩, ?_, ?_⟩
    · rw [hreg0]; rfl
    · intro n hn; simp at hn
    · intro n hn; simp at hn
    · simp [registry_size, registry, hdb0]
  obtain ⟨heq, hsucc1, hlive1, hsums⟩ := run_int_eq ⟨[], mc⟩ calls 0 h0 (le_refl _)
    (by intro n hn; simp at hn) (by omega) hsucc hlive
  rw [heq] at hrun
  have hsum := hsums st hrun
  obtain ⟨hwf, _⟩ := run_well_formed ⟨[], mc⟩ st calls h0 hrun hsucc1 hlive1
  have hrange : ∀ n ∈ st.heap, (∀ e ∈ n.table, 1 ≤ e.frequency ∧ e.frequency ≤ INT_MAX) ∧
      total_weight_loop n.table 0 ≤ INT_MAX := by
    intro n hn
    have hpos : ∀ e ∈ n.table, 1 ≤ e.frequency := fun e he => ((hwf.2.1 n hn).2.2 e he).1
    have hs := hsum n hn
    refine ⟨fun e he => ⟨hpos e he, ?_⟩, ?_⟩
    · have := count_le_sum n.table hpos e he
      omega
    · rw [total_weight_loop_eq]
      omega
  obtain ⟨c, hc, _⟩ := hnonterm
  cases hdb : st.markov_chain.database with
  | none => simp [registry, hdb] at hc
  | some database =>
    have hne : database.nodes ≠ [] := by
      have : registry st = database.nodes := by simp [registry, hdb]
      rw [this] at hc
      exact List.ne_nil_of_mem hc
    refine ⟨?_, ⟨database, rfl, ?_, ?_⟩, ?_, hrange⟩
    · intro fuel f
      simp only [generate_tweet, get_first_random_node, hdb]
      cases hstart : get_first_random_node_loop st database rand fuel 0 with
      | none => simp
      | some res =>
        cases res with
        | error g =>
          exact absurd hstart
            (get_first_random_node_loop_safe st database rand hdb hwf hne hrand fuel 0 g)
        | ok pp =>
          obtain ⟨p, pos⟩ := pp
          obtain ⟨m, d, hp, hd, hl⟩ :=
            get_first_random_node_loop_nonterminal st database rand fuel 0 p pos hstart
          simp only [hp, hd]
          rw [(generate_tweet_loop_stops st.heap st.markov_chain.is_last rand hwf.2.1 hrand
            (max_length - 1).toNat p pos m d hp hd hl).1]
          simp
    · exact (drawn_state_some st database 0 hdb hwf hne (le_refl _)).2.1
    · intro r hr
      obtain ⟨hsz, hpos, h1, h2, node, d, h3, h4, _⟩ :=
        drawn_state_some st database r hdb hwf hne hr
      refine ⟨by simp [get_random_number, ne_of_gt hpos], h1, h2,
        get_node_in_index_ok database _ h1 h2, node, d, h3, h4⟩
    · intro n hn hne1
      have hnok := hwf.2.1 n hn
      refine ⟨?_, ?_⟩
      · rw [total_weight_loop_eq]
        have := count_sum_pos n.table hne1 (fun e he => (hnok.2.2 e he).1)
        simpa using this
      · intro r hr
        rcases get_next_random_node_ok st.heap n r hnok hr with ⟨h, _⟩ | ⟨_, e, q, m, v, _, _, h1, h2, h3⟩
        · exact absurd h hne1
        · exact ⟨q, m, v, h1, h2, h3⟩

theorem walk_safe_witness :
    run_int (⟨[], example_chain⟩ : State Nat)
      [.insert 5 true true true, .insert 8 true true true, .link 0 1 (some ⟨none, 0⟩)]
      = .ok example_state ∧
    links_live_int (⟨[], example_chain⟩ : State Nat)
      [.insert 5 true true true, .insert 8 true true true, .link 0 1 (some ⟨none, 0⟩)] = true ∧
    (3 : Int) ≤ INT_MAX ∧
    ∀ fuel f, (generate_tweet example_state none 5 (fun i => i) fuel).ending ≠ .faulted f :=
  ⟨rfl, rfl, by decide,
    (walk_safe example_chain.print_func example_chain.comp_func example_chain.copy_func
      example_chain.free_data example_chain.is_last example_chain
      [.insert 5 true true true, .insert 8 true true true, .link 0 1 (some ⟨none, 0⟩)]
      example_state (fun i => i) 5 rfl rfl rfl rfl (by decide)
      ⟨⟨0⟩, by simp [registry, example_state, example_chain_with], 5, rfl, rfl⟩
      (fun i => Int.ofNat_nonneg i)).1⟩

theorem run_int_cons (st st1 : State α) (c : Call α) (rest : List (Call α))
    (h : step_int st c = .ok st1) : run_int st (c :: rest) = run_int st1 rest := by
  simp only [run_int, h]

theorem run_succeeds_int_cons (st st1 : State α) (c : Call α) (rest : List (Call α))
    (h : step_int st c = .ok st1) (hs : step_succeeds_int st c = true) :
    run_succeeds_int st (c :: rest) = run_succeeds_int st1 rest := by
  simp only [run_succeeds_int, h, hs, Bool.true_and]

theorem links_live_int_insert (st st1 : State α) (s : α) (b1 b2 b3 : Bool)
    (rest : List (Call α)) (h : step_int st (.insert s b1 b2 b3) = .ok st1) :
    links_live_int st (.insert s b1 b2 b3 :: rest) = links_live_int st1 rest := by
  simp only [links_live_int, h, Bool.true_and]

theorem links_live_int_link (st st1 : State α) (p q : Ptr) (a : Option MarkovNodeFrequency)
    (rest : List (Call α)) (h : step_int st (.link p q a) = .ok st1)
    (hq : q < st.heap.length) :
    links_live_int st (.link p q a :: rest) = links_live_int st1 rest := by
  simp only [links_live_int, h, hq, decide_True, Bool.true_and]

/-- A link of the only node to itself, on the chain that holds the state 5 in a
node whose table is the single entry `(node 0, c)`, with `int` arithmetic. -/
theorem step_int_self (c : Int) (a : Option MarkovNodeFrequency) :
    step_int (⟨[⟨some 5, some [⟨some 0, c⟩], 1, 1⟩], example_chain_with [⟨0⟩] 1⟩ : State Nat)
        (.link 0 0 a) =
      .ok ⟨[⟨some 5, some [⟨some 0, int_wrap (c + 1)⟩], 1, 1⟩], example_chain_with [⟨0⟩] 1⟩ ∧
    step_succeeds_int
      (⟨[⟨some 5, some [⟨some 0, c⟩], 1, 1⟩], example_chain_with [⟨0⟩] 1⟩ : State Nat)
      (.link 0 0 a) = true := by
  simp [step_int, step_succeeds_int, add_node_to_frequencies_list_at_int, add_node_int_single]

/-- Repeated links of the only node to itself, of which all but the last keep
the count within `INT_MAX`. -/
theorem run_int_self (a : Option MarkovNodeFrequency) (m : Nat) (c : Int) (hc : 1 ≤ c)
    (hb : c + (m : Int) ≤ INT_MAX) :
    run_int (⟨[⟨some 5, some [⟨some 0, c⟩], 1, 1⟩], example_chain_with [⟨0⟩] 1⟩ : State Nat)
        (List.replicate m (.link 0 0 a) ++ [.link 0 0 a]) =
      .ok ⟨[⟨some 5, some [⟨some 0, int_wrap (c + (m : Int) + 1)⟩], 1, 1⟩],
        example_chain_with [⟨0⟩] 1⟩ ∧
    run_succeeds_int
      (⟨[⟨some 5, some [⟨some 0, c⟩], 1, 1⟩], example_chain_with [⟨0⟩] 1⟩ : State Nat)
      (List.replicate m (.link 0 0 a) ++ [.link 0 0 a]) = true ∧
    links_live_int
      (⟨[⟨some 5, some [⟨some 0, c⟩], 1, 1⟩], example_chain_with [⟨0⟩] 1⟩ : State Nat)
      (List.replicate m (.link 0 0 a) ++ [.link 0 0 a]) = true := by
  induction m generalizing c with
  | zero =>
    obtain ⟨h1, h2⟩ := step_int_self c a
    simp only [List.replicate_zero, List.nil_append, Nat.cast_zero, add_zero]
    rw [run_int_cons _ _ _ _ h1, run_succeeds_int_cons _ _ _ _ h1 h2,
      links_live_int_link _ _ _ _ _ _ h1 (by simp)]
    exact ⟨rfl, rfl, rfl⟩
  | succ m ih =>
    simp only [Nat.cast_add, Nat.cast_one] at hb
    obtain ⟨h1, h2⟩ := step_int_self c a
    have hw : int_wrap (c + 1) = c + 1 := int_wrap_eq _ (by omega) (by omega)
    rw [hw] at h1
    obtain ⟨i1, i2, i3⟩ := ih (c + 1) (by omega) (by omega)
    have e : c + 1 + (m : Int) + 1 = c + ((m : Int) + 1) + 1 := by ring
    rw [e] at i1
    rw [List.replicate_succ, List.cons_append, run_int_cons _ _ _ _ h1,
      run_succeeds_int_cons _ _ _ _ h1 h2, links_live_int_link _ _ _ _ _ _ h1 (by simp)]
    simp only [Nat.cast_add, Nat.cast_one]
    exact ⟨i1, i2, i3⟩

/-- C25, as stated, fails: the count is an `int`. The chain that holds the state
5 (not terminal) is built by a successful `add_to_database` and `2^31`
successful links of its node to itself. The count of the entry is then `-2^31`:
the table is not empty, the total weight is negative, and for every
non-negative draw `get_next_random_node` returns `NULL`. -/
theorem walk_safe_counterexample :
    run_int (⟨[], example_chain⟩ : State Nat)
      (.insert 5 true true true :: List.replicate 2147483648 (.link 0 0 (some ⟨none, 0⟩))) =
      .ok ⟨[⟨some 5, some [⟨some 0, -2147483648⟩], 1, 1⟩], example_chain_with [⟨0⟩] 1⟩ ∧
    run_succeeds_int (⟨[], example_chain⟩ : State Nat)
      (.insert 5 true true true :: List.replicate 2147483648 (.link 0 0 (some ⟨none, 0⟩)))
      = true ∧
    links_live_int (⟨[], example_chain⟩ : State Nat)
      (.insert 5 true true true :: List.replicate 2147483648 (.link 0 0 (some ⟨none, 0⟩)))
      = true ∧
    example_chain.is_last 5 = false ∧
    (⟨some 5, some [⟨some 0, -2147483648⟩], 1, 1⟩ : MarkovNode Nat).table ≠ [] ∧
    total_weight_loop (⟨some 5, some [⟨some 0, -2147483648⟩], 1, 1⟩ : MarkovNode Nat).table 0
      < 0 ∧
    ∀ r : Int, 0 ≤ r →
      get_next_random_node (⟨some 5, some [⟨some 0, -2147483648⟩], 1, 1⟩ : MarkovNode Nat) r
        = .ok none := by
  have hsplit : List.replicate 2147483648 (Call.link 0 0 (some ⟨none, 0⟩) : Call Nat)
      = Call.link 0 0 (some ⟨none, 0⟩) ::
        (List.replicate 2147483646 (Call.link 0 0 (some ⟨none, 0⟩)) ++
          [Call.link 0 0 (some ⟨none, 0⟩)]) := by
    rw [← List.replicate_succ', ← List.replicate_succ]
  have hins : step_int (⟨[], example_chain⟩ : State Nat) (.insert 5 true true true)
      = .ok ⟨[⟨some 5, none, 0, 0⟩], example_chain_with [⟨0⟩] 1⟩ := rfl
  have hins2 : step_succeeds_int (⟨[], example_chain⟩ : State Nat) (.insert 5 true true true)
      = true := rfl
  have hfirst : step_int (⟨[⟨some 5, none, 0, 0⟩], example_chain_with [⟨0⟩] 1⟩ : State Nat)
      (.link 0 0 (some ⟨none, 0⟩))
      = .ok ⟨[⟨some 5, some [⟨some 0, 1⟩], 1, 1⟩], example_chain_with [⟨0⟩] 1⟩ := rfl
  have hfirst2 : step_succeeds_int
      (⟨[⟨some 5, none, 0, 0⟩], example_chain_with [⟨0⟩] 1⟩ : State Nat)
      (.link 0 0 (some ⟨none, 0⟩)) = true := rfl
  obtain ⟨i1, i2, i3⟩ := run_int_self (some ⟨none, 0⟩) 2147483646 1 (le_refl _)
    (by simp [INT_MAX])
  have hw : int_wrap (1 + ((2147483646 : Nat) : Int) + 1) = -2147483648 := by decide
  rw [hw] at i1
  refine ⟨?_, ?_, ?_, rfl, by simp [MarkovNode.table], by simp [MarkovNode.table, total_weight_loop],
    ?_⟩
  · rw [hsplit, run_int_cons _ _ _ _ hins, run_int_cons _ _ _ _ hfirst]
    exact i1
  · rw [hsplit, run_succeeds_int_cons _ _ _ _ hins hins2,
      run_succeeds_int_cons _ _ _ _ hfirst hfirst2]
    exact i2
  · rw [hsplit, links_live_int_insert _ _ _ _ _ _ _ hins,
      links_live_int_link _ _ _ _ _ _ hfirst (by simp)]
    exact i3
  · intro r hr
    have h := Int.tmod_nonneg (2147483648 : Int) hr
    simp [get_next_random_node, total_weight_loop, get_random_number,
      get_next_random_node_loop]
    omega

/-! ## The dice cells of the board -/

namespace SnakesAndLadders

/-- The dice loop for the cell `i`, from the dice value `j` on, appends to the
table of the node `i` one entry of count 1 for each of the nodes `i + j`,
`i + j + 1`, ... that the loop reaches before the end of the board. -/
theorem fill_database_dice_table (a : Allocations) (htable : ∀ i j, (a.table i j).isSome)
    (i : Nat) (hi : i < BOARD_SIZE) (count j : Nat) (st : State Cell) (h : board_state st)
    (n : MarkovNode Cell) (hn : st.heap[i]? = some n)
    (hT : ∀ e ∈ n.table, ∀ q : Nat, e.markov_node = some q → q < i + j) :
    ∃ st1 n1, fill_database_dice a board_cells i i count j st = .ok st1 ∧
      st1.heap[i]? = some n1 ∧
      n1.table = n.table ++
        (List.range' j (min count (BOARD_SIZE - (i + j)))).map
          (fun k => (⟨some (i + k), 1⟩ : MarkovNodeFrequency)) := by
  induction count generalizing j st n with
  | zero => exact ⟨st, n, rfl, hn, by simp⟩
  | succ count ih =>
    obtain ⟨_, _, hlen, hall⟩ := id h
    obtain ⟨n0, c, hn0, hc, hd, hv⟩ := hall i hi
    rw [hn] at hn0; cases hn0
    have hnum := board_cells_number i c hc
    simp only [fill_database_dice, hn, hd]
    by_cases hb : c.number + (j : Int) - 1 ≥ (BOARD_SIZE : Int) ∨ c.number + (j : Int) - 1 < 0
    · rw [if_pos hb]
      have hz : BOARD_SIZE - (i + j) = 0 := by
        rcases hb with hb | hb
        · omega
        · omega
      exact ⟨st, n, rfl, hn, by simp [hz]⟩
    · rw [if_neg hb]
      have hidx : (c.number + (j : Int) - 1).toNat = i + j := by omega
      have hlt : i + j < BOARD_SIZE := by
        have : ¬ (c.number + (j : Int) - 1 ≥ (BOARD_SIZE : Int)) := fun hc => hb (Or.inl hc)
        omega
      rw [hidx, node_of_board st h (i + j) hlt]
      obtain ⟨n1, b, hn1, hlink, hst1⟩ := link_board st h i hi (i + j) (a.table i j)
      rw [hn] at hn1; cases hn1
      simp only [hlink]
      obtain ⟨_, e2, _, _⟩ := add_node_refines n (i + j) (a.table i j) hv (Or.inr (htable i j))
      have hnf : ∀ e ∈ n.table, e.markov_node ≠ some (i + j) := by
        intro e he heq
        exact absurd (hT e he _ heq) (lt_irrefl _)
      rw [table_add_not_found (i + j) n.table hnf] at e2
      have hget : (st.heap.set i (add_node_to_frequencies_list n (i + j) (a.table i j)).2)[i]?
          = some (add_node_to_frequencies_list n (i + j) (a.table i j)).2 := by
        simp only [List.getElem?_set]
        simp [hlen, hi]
      obtain ⟨st2, n2, h1, h2, h3⟩ := ih (j + 1) _ hst1 _ hget (by
        intro e he q hq
        rw [e2] at he
        rcases List.mem_append.mp he with he | he
        · have := hT e he q hq; omega
        · simp only [List.mem_singleton] at he
          subst he
          simp only [Option.some.injEq] at hq
          rw [← hq]
          exact Nat.add_lt_add_left (Nat.lt_succ_self j) i)
      refine ⟨st2, n2, h1, h2, ?_⟩
      rw [h3, e2]
      have hm : min (count + 1) (BOARD_SIZE - (i + j))
          = min count (BOARD_SIZE - (i + (j + 1))) + 1 := by omega
      rw [hm, List.range'_succ]
      simp

theorem dice_table_eq (i : Nat) :
    (List.range' 1 (min DICE_MAX (BOARD_SIZE - (i + 1)))).map
      (fun k => (⟨some (i + k), 1⟩ : MarkovNodeFrequency)) = dice_table i := by
  have hm : BOARD_SIZE - (i + 1) = BOARD_SIZE - 1 - i := by omega
  rw [dice_table, hm]
  apply List.ext_getElem?
  intro m
  simp only [List.getElem?_map]
  by_cases hlt : m < min DICE_MAX (BOARD_SIZE - 1 - i)
  · rw [List.getElem?_range' _ _ hlt, List.getElem?_range' _ _ hlt]
    simp only [Option.map_some', Nat.one_mul]
    rw [show i + (1 + m) = i + 1 + m by omega]
  · rw [List.getElem?_eq_none (by rw [List.length_range']; exact not_lt.mp hlt),
      List.getElem?_eq_none (by rw [List.length_range']; exact not_lt.mp hlt)]
    rfl

/-- The second loop of `fill_database` from the cell `i` on, in a board state: it
returns a board state, leaves the nodes before `i` as they are, and gives every
cell without snake or ladder whose table was empty the table of its dice
moves. -/
theorem fill_database_link_dice (a : Allocations) (htable : ∀ i j, (a.table i j).isSome)
    (rest : List Cell) (i : Nat) (st : State Cell) (h : board_state st)
    (hrest : board_cells.drop i = rest) :
    ∃ st1, fill_database_link a board_cells rest i st = .ok st1 ∧ board_state st1 ∧
      (∀ k, k < i → st1.heap[k]? = st.heap[k]?) ∧
      ∀ k c n, i ≤ k → board_cells[k]? = some c →
        ¬ (c.snake_to ≠ EMPTY ∨ c.ladder_to ≠ EMPTY) → st.heap[k]? = some n → n.table = [] →
        ∃ n1, st1.heap[k]? = some n1 ∧ n1.table = dice_table k := by
  induction rest generalizing i st with
  | nil =>
    refine ⟨st, rfl, h, fun _ _ => rfl, ?_⟩
    intro k c n hik hc
    have hlen : board_cells.length ≤ i := by
      have := congrArg List.length hrest
      simp at this
      omega
    rw [List.getElem?_eq_none (by omega)] at hc
    cases hc
  | cons cell rest ih =>
    have hci : board_cells[i]? = some cell := by
      have := congrArg (fun l => l[0]?) hrest
      simpa using this
    have hdrop : board_cells.drop (i + 1) = rest := by
      have := congrArg List.tail hrest
      simpa using this
    have hi : i < BOARD_SIZE := by
      rw [← board_cells_length]
      by_contra hc
      rw [List.getElem?_eq_none (not_lt.mp hc)] at hci
      cases hci
    have hfrom : node_of st (some cell) = .ok i := by
      rw [← hci]; exact node_of_board st h i hi
    obtain ⟨_, _, _, hall⟩ := id h
    obtain ⟨n, c0, hn, hc0, hd, hv⟩ := hall i hi
    have hcc : c0 = cell := by rw [hci] at hc0; cases hc0; rfl
    subst hcc
    simp only [fill_database_link, hfrom]
    by_cases hs : c0.snake_to ≠ EMPTY ∨ c0.ladder_to ≠ EMPTY
    · rw [if_pos hs]
      obtain ⟨hneg, htl⟩ := board_cells_target c0 (List.getElem?_mem hci) hs
      rw [if_neg hneg, node_of_board st h _ htl]
      obtain ⟨n1, b, hn1, hlink, hst1⟩ := link_board st h i hi
        (MAX c0.snake_to c0.ladder_to - 1).toNat (a.table i 0)
      simp only [hlink]
      obtain ⟨st2, h1, h2, h3, h4⟩ := ih (i + 1) _ hst1 hdrop
      refine ⟨st2, h1, h2, ?_, ?_⟩
      · intro k hk
        rw [h3 k (by omega)]
        simp only [List.getElem?_set]
        have : ¬ i = k := by omega
        simp [this]
      · intro k c n2 hik hc hsc hn2 ht
        have hki : k ≠ i := by
          intro hki
          subst hki
          rw [hci] at hc; cases hc
          exact hsc hs
        apply h4 k c n2 (by omega) hc hsc _ ht
        simp only [List.getElem?_set]
        have : ¬ i = k := fun h => hki h.symm
        simp only [this, if_false]
        exact hn2
    · rw [if_neg hs]
      obtain ⟨st1, hdice, hst1, hframe⟩ := fill_database_dice_board a i hi DICE_MAX 1 st h
      simp only [hdice]
      obtain ⟨st2, h1, h2, h3, h4⟩ := ih (i + 1) st1 hst1 hdrop
      refine ⟨st2, h1, h2, ?_, ?_⟩
      · intro k hk
        rw [h3 k (by omega), hframe k (by omega)]
      · intro k c n2 hik hc hsc hn2 ht
        by_cases hki : k = i
        · subst hki
          rw [hn] at hn2; cases hn2
          obtain ⟨st1b, n1, hdice1, hn1, ht1⟩ := fill_database_dice_table a htable k hi DICE_MAX 1
            st h n hn (by intro e he; rw [ht] at he; cases he)
          rw [hdice] at hdice1
          cases hdice1
          refine ⟨n1, by rw [h3 k (by omega)]; exact hn1, ?_⟩
          rw [ht1, ht, List.nil_append, dice_table_eq]
        · apply h4 k c n2 (by omega) hc hsc _ ht
          rw [hframe k hki]
          exact hn2

set_option maxRecDepth 100000 in
theorem board_cells_sources :
    ∀ c ∈ board_cells, (c.snake_to ≠ EMPTY ∨ c.ladder_to ≠ EMPTY) ↔
      ∃ t ∈ transitions, t.1 = c.number := by
  decide

/-- C26. Board dice cells: in the chain that the `fill_database` of
`snakes_and_ladders.c` builds from the empty chain when every allocation
succeeds, the registry holds the 100 nodes in board order, node `i` holding the
cell number `i + 1`; the node of every cell that is not the first component of a
row of `transitions` has the table of the nodes of the next cells, up to six and
up to cell 100, in ascending order, each with count 1; cell 100 is the only
cell for which `is_cell_last` holds, and its table is empty. -/
theorem board_dice_cells (a : Allocations) (hcell : ∀ i, a.cell_ok i = true)
    (hdb : ∀ i, a.db_ok i = true) (hnode : ∀ i, a.node_ok i = true)
    (hadd : ∀ i, a.add_ok i = true) (htable : ∀ i j, (a.table i j).isSome) :
    ∃ st, fill_database a ⟨[], markov_chain⟩ = .ok (EXIT_SUCCESS, st) ∧
      registry st = (List.range BOARD_SIZE).map Node.mk ∧
      st.heap.length = BOARD_SIZE ∧
      (∀ i, i < BOARD_SIZE → ∃ n c, st.heap[i]? = some n ∧ n.data = some c ∧
        c.number = (i : Int) + 1 ∧
        (is_cell_last c = true ↔ i + 1 = BOARD_SIZE) ∧
        ((∀ t ∈ transitions, t.1 ≠ c.number) →
          n.table = (List.range' (i + 1) (min DICE_MAX (BOARD_SIZE - 1 - i))).map
            (fun q => (⟨some q, 1⟩ : MarkovNodeFrequency)))) ∧
      (∃ n c, st.heap[BOARD_SIZE - 1]? = some n ∧ n.data = some c ∧
        c.number = (BOARD_SIZE : Int) ∧ n.table = []) := by
  have hcells : a.cell_ok = fun _ => true := funext hcell
  obtain ⟨st1, h1, hb1, hheap1⟩ := fill_database_add_board a hdb hnode hadd
  obtain ⟨st2, h2, hb2, _, hdc⟩ := fill_database_link_dice a htable board_cells 0 st1 hb1
    (by simp)
  have hall : ∀ i, i < BOARD_SIZE → ∃ n c, st2.heap[i]? = some n ∧ n.data = some c ∧
      c.number = (i : Int) + 1 ∧
      (is_cell_last c = true ↔ i + 1 = BOARD_SIZE) ∧
      ((∀ t ∈ transitions, t.1 ≠ c.number) →
        n.table = (List.range' (i + 1) (min DICE_MAX (BOARD_SIZE - 1 - i))).map
          (fun q => (⟨some q, 1⟩ : MarkovNodeFrequency))) := by
    intro i hi
    obtain ⟨_, _, _, hnodes⟩ := id hb2
    obtain ⟨n, c, hn, hc, hd, _⟩ := hnodes i hi
    have hnum := board_cells_number i c hc
    refine ⟨n, c, hn, hd, hnum, ?_, ?_⟩
    · simp only [is_cell_last, decide_eq_true_eq, hnum]
      constructor
      · intro h; exact_mod_cast h
      · intro h; exact_mod_cast h
    · intro hsrc
      have hns : ¬ (c.snake_to ≠ EMPTY ∨ c.ladder_to ≠ EMPTY) := by
        intro hs
        obtain ⟨t, ht, heq⟩ := (board_cells_sources c (List.getElem?_mem hc)).mp hs
        exact hsrc t ht heq
      have hfresh : st1.heap[i]? = some (fresh_node c) := by
        rw [hheap1, List.getElem?_map, hc]; rfl
      obtain ⟨n1, hn1, ht1⟩ := hdc i c (fresh_node c) (Nat.zero_le _) hc hns hfresh rfl
      rw [hn] at hn1; cases hn1
      rw [ht1]; rfl
  refine ⟨st2, ?_, hb2.2.1, hb2.2.2.1, hall, ?_⟩
  · simp only [fill_database, hcells, create_board_eq, h1, h2]
  · obtain ⟨n, c, hn, hd, hnum, _, ht⟩ := hall (BOARD_SIZE - 1) (by decide)
    refine ⟨n, c, hn, hd, by rw [hnum]; rfl, ?_⟩
    rw [ht (by
      intro t ht heq
      rw [hnum] at heq
      revert t
      decide)]
    rfl

theorem board_dice_cells_witness :
    (∀ i j, ((all_succeed ⟨none, 0⟩).table i j).isSome) ∧
    ∃ st, fill_database (all_succeed ⟨none, 0⟩) ⟨[], markov_chain⟩ = .ok (EXIT_SUCCESS, st) ∧
      ∃ n, st.heap[99]? = some n ∧ n.table = [] :=
  ⟨fun _ _ => rfl,
    by
      obtain ⟨st, h1, _, _, _, n, _, hn, _, _, ht⟩ := board_dice_cells (all_succeed ⟨none, 0⟩)
        (fun _ => rfl) (fun _ => rfl) (fun _ => rfl) (fun _ => rfl) (fun _ _ => rfl)
      exact ⟨st, h1, n, hn, ht⟩⟩

end SnakesAndLadders

namespace TweetsGenerator

/-! ## The corpus loader of the tweet generator -/

theorem takeWhile_append_stop (p : Char → Bool) (l r : List Char) (x : Char)
    (hl : ∀ c ∈ l, p c = true) (hx : p x = false) : (l ++ x :: r).takeWhile p = l := by
  induction l with
  | nil => simp [List.takeWhile, hx]
  | cons a l ih =>
    simp only [List.mem_cons, forall_eq_or_imp] at hl
    simp [List.takeWhile, hl.1, ih hl.2]

theorem dropWhile_append_stop (p : Char → Bool) (l r : List Char) (x : Char)
    (hl : ∀ c ∈ l, p c = true) (hx : p x = false) : (l ++ x :: r).dropWhile p = x :: r := by
  induction l with
  | nil => simp [List.dropWhile, hx]
  | cons a l ih =>
    simp only [List.mem_cons, forall_eq_or_imp] at hl
    simp [List.dropWhile, hl.1, ih hl.2]

theorem takeWhile_all (p : Char → Bool) (l : List Char) (hl : ∀ c ∈ l, p c = true) :
    l.takeWhile p = l := by
  induction l with
  | nil => rfl
  | cons a l ih =>
    simp only [List.mem_cons, forall_eq_or_imp] at hl
    simp [List.takeWhile, hl.1, ih hl.2]

theorem dropWhile_all (p : Char → Bool) (l : List Char) (hl : ∀ c ∈ l, p c = true) :
    l.dropWhile p = [] := by
  induction l with
  | nil => rfl
  | cons a l ih =>
    simp only [List.mem_cons, forall_eq_or_imp] at hl
    simp [List.dropWhile, hl.1, ih hl.2]

theorem render_line_cons (w : String) (rest : List String) :
    render_line (w :: rest) = w.data ++ (if rest = [] then [] else ' ' :: render_line rest) := by
  cases rest with
  | nil => simp [render_line]
  | cons v rest => simp [render_line]

/-- The first call of `strtok` on the text of a line cuts out its first word and
saves the text of the rest of the line. -/
theorem strtok_render_line (w : String) (rest : List String) (hw : word_ok w) :
    strtok (render_line (w :: rest)) ' ' = some (w.data, render_line rest) := by
  obtain ⟨hne, hsp, _⟩ := hw
  have hall : ∀ c ∈ w.data, decide (c ≠ ' ') = true := by
    intro c hc
    simp only [decide_eq_true_eq]
    intro h; subst h; exact hsp hc
  cases hd : w.data with
  | nil => exact absurd hd hne
  | cons c cs =>
    have hc : c ≠ ' ' := by
      have := hall c (by rw [hd]; simp)
      simpa using this
    have hdrop : (render_line (w :: rest)).dropWhile (fun c => decide (c = ' '))
        = render_line (w :: rest) := by
      rw [render_line_cons, hd]
      simp [List.dropWhile, hc]
    have hcons : render_line (w :: rest)
        = c :: (cs ++ (if rest = [] then [] else ' ' :: render_line rest)) := by
      rw [render_line_cons, hd]; rfl
    simp only [strtok, hdrop]
    rw [hcons]
    simp only
    rw [← hcons, render_line_cons]
    cases rest with
    | nil =>
      simp only [if_true, List.append_nil]
      rw [takeWhile_all _ _ hall, dropWhile_all _ _ hall, hd]
      rfl
    | cons v rest =>
      simp only [List.cons_ne_nil, if_false]
      rw [takeWhile_append_stop _ _ _ _ hall (by simp),
        dropWhile_append_stop _ _ _ _ hall (by simp), hd]
      rfl

theorem strtok_nil : strtok [] ' ' = none := rfl

theorem render_line_no_newline (l : List String) (hl : ∀ w ∈ l, word_ok w) :
    '\n' ∉ render_line l := by
  induction l with
  | nil => simp [render_line]
  | cons w rest ih =>
    simp only [List.mem_cons, forall_eq_or_imp] at hl
    rw [render_line_cons]
    intro h
    rcases List.mem_append.mp h with h | h
    · exact hl.1.2.2.1 h
    · split at h
      · simp at h
      · simp only [List.mem_cons] at h
        rcases h with h | h
        · exact absurd h (by decide)
        · exact ih hl.2 h

theorem render_line_length (l : List String) (hl : ∀ w ∈ l, word_ok w) :
    l.length ≤ (render_line l).length := by
  induction l with
  | nil => simp
  | cons w rest ih =>
    simp only [List.mem_cons, forall_eq_or_imp] at hl
    rw [render_line_cons]
    have hw : 1 ≤ w.data.length := List.length_pos.mpr hl.1.1
    have := ih hl.2
    simp only [List.length_cons, List.length_append]
    split
    · rename_i h; subst h; simp only [List.length_nil]; omega
    · simp only [List.length_cons]; omega

/-- A line shorter than the bound is read by `fgets` with its newline. -/
theorem fgets_loop_line (n : Nat) (l r : List Char) (hl : '\n' ∉ l) (hn : l.length < n) :
    fgets_loop n (l ++ '\n' :: r) = (l ++ ['\n'], r) := by
  induction l generalizing n with
  | nil =>
    obtain ⟨m, rfl⟩ : ∃ m, n = m + 1 := ⟨n - 1, by simp at hn; omega⟩
    simp [fgets_loop]
  | cons c l ih =>
    obtain ⟨m, rfl⟩ : ∃ m, n = m + 1 := ⟨n - 1, by simp at hn; omega⟩
    simp only [List.mem_cons, not_or] at hl
    have hc : c ≠ '\n' := fun h => hl.1 h.symm
    have e := ih m hl.2 (by simpa using hn)
    simp only [List.cons_append, fgets_loop, hc, if_false]
    simp only [List.append_eq] at e ⊢
    rw [e]

/-- A line as long as the bound is read by `fgets` without its newline. -/
theorem fgets_loop_full (n : Nat) (l r : List Char) (hl : '\n' ∉ l) (hn : l.length = n) :
    fgets_loop n (l ++ r) = (l, r) := by
  induction l generalizing n with
  | nil =>
    simp at hn; subst hn
    simp [fgets_loop]
  | cons c l ih =>
    obtain ⟨m, rfl⟩ : ∃ m, n = m + 1 := ⟨n - 1, by simp at hn; omega⟩
    simp only [List.mem_cons, not_or] at hl
    have hc : c ≠ '\n' := fun h => hl.1 h.symm
    have e := ih m hl.2 (by simpa using hn)
    simp only [List.cons_append, fgets_loop, hc, if_false]
    simp only [List.append_eq] at e ⊢
    rw [e]

theorem strcmp_eq_zero (x y : String) : strcmp x y = 0 ↔ x = y := by
  simp only [strcmp]
  constructor
  · intro h
    by_contra hne
    simp only [hne, if_false] at h
    split at h <;> omega
  · intro h; simp [h]


/-- On a state fit for the loader, `add_to_database` with successful allocations
returns a cell whose node holds the word, and leaves a state fit for the loader
in which the cells of the registry are in place. -/
theorem add_word (st : State String) (w : String) (hs : loader_ok st) :
    ∃ r st1 p, add_to_database st w true true true = .ok (some r, st1) ∧
      (registry st1)[r]? = some ⟨p⟩ ∧ stored st1.heap ⟨p⟩ = some w ∧ loader_ok st1 ∧
      (∃ ext, registry st1 = registry st ++ ext) ∧
      (∀ c ∈ registry st, stored st1.heap c = stored st.heap c) := by
  obtain ⟨hok, huniq, hcomp, hcopy⟩ := hs
  have hcp : st.markov_chain.copy_func w = some w := by rw [hcopy]; rfl
  obtain ⟨r, st1, hres⟩ := add_to_database_succeeds st w w hok hcp
  have hstep : step st (.insert w true true true) = .ok st1 := by simp [step, hres]
  obtain ⟨h1, h2, h3, h4, h5, h6⟩ := step_preserves st st1 _
    (by
      intro x y z hxy hyz
      rw [hcomp] at hxy hyz ⊢
      rw [strcmp_eq_zero] at hxy hyz ⊢
      exact hxy.trans hyz)
    (by
      intro s v hv
      rw [hcopy] at hv
      rw [hcomp, strcmp_eq_zero]
      simp [strdup] at hv
      exact hv.symm)
    hok huniq hstep
  have hl1 : loader_ok st1 := ⟨h1, h2, by rw [h3, hcomp], by rw [h4, hcopy]⟩
  obtain ⟨hout, _⟩ := add_to_database_cases st w true true true hok (some r) st1 hres
  cases hout with
  | found i c v hr hst hi hv hc hmin =>
    cases hr
    subst hst
    rw [hcomp, strcmp_eq_zero] at hc
    subst hc
    exact ⟨r, st1, c.data, hres, hi, hv, hl1, h5, h6⟩
  | failed ext hr _ _ _ => cases hr
  | inserted c hc hr hreg hsize hheap hnew =>
    cases hr
    rw [hcp] at hc
    cases hc
    refine ⟨_, st1, st.heap.length, hres, ?_, ?_, hl1, h5, h6⟩
    · rw [hreg]; simp
    · rw [hheap]; simp [stored]

/-- On a state fit for the loader, a link from a registry node returns and
leaves a state fit for the loader with the same registry. -/
theorem link_word (st : State String) (q p : Ptr) (alloc : Option MarkovNodeFrequency)
    (hs : loader_ok st) (hq : (⟨q⟩ : Node) ∈ registry st) :
    ∃ b st1, add_node_to_frequencies_list_at st q p alloc = .ok (b, st1) ∧ loader_ok st1 ∧
      registry st1 = registry st ∧
      (∀ c ∈ registry st, stored st1.heap c = stored st.heap c) := by
  obtain ⟨hok, huniq, hcomp, hcopy⟩ := hs
  obtain ⟨v, hv⟩ := hok ⟨q⟩ hq
  cases hn : st.heap[q]? with
  | none => simp [stored, hn] at hv
  | some n =>
    have hres : add_node_to_frequencies_list_at st q p alloc =
        .ok ((add_node_to_frequencies_list n p alloc).1,
          ⟨st.heap.set q (add_node_to_frequencies_list n p alloc).2, st.markov_chain⟩) := by
      simp [add_node_to_frequencies_list_at, hn]
    have hstep : step st (.link q p alloc) =
        .ok ⟨st.heap.set q (add_node_to_frequencies_list n p alloc).2, st.markov_chain⟩ := by
      simp [step, hres]
    obtain ⟨h1, h2, h3, h4, _, h6⟩ := step_preserves st _ _
      (by
        intro x y z hxy hyz
        rw [hcomp] at hxy hyz ⊢
        rw [strcmp_eq_zero] at hxy hyz ⊢
        exact hxy.trans hyz)
      (by
        intro s v hv
        rw [hcopy] at hv
        rw [hcomp, strcmp_eq_zero]
        simp [strdup] at hv
        exact hv.symm)
      hok huniq hstep
    exact ⟨_, _, hres, ⟨h1, h2, by rw [h3, hcomp], by rw [h4, hcopy]⟩, rfl, h6⟩

/-- One iteration of the loop of `add_sentence_to_database` on the first word of
a sentence. -/
theorem sentence_loop_first (a : Allocations) (fuel : Nat) (word saved : List Char)
    (s : Loading) (r : Nat) (st1 : State String)
    (hcond : s.words_to_read > 0 ∨ s.words_to_read = READ_ALL_WORDS)
    (hres : add_to_database s.st (String.mk word) (a.db_ok s.calls) (a.node_ok s.calls)
      (a.add_ok s.calls) = .ok (some r, st1)) :
    add_sentence_to_database_loop a (fuel + 1) (some (word, saved)) none s =
      add_sentence_to_database_loop a fuel (strtok saved ' ') (some r)
        ⟨st1, if s.words_to_read ≠ READ_ALL_WORDS then s.words_to_read - 1
          else s.words_to_read, s.calls + 1, s.passed ++ [.word (String.mk word)] ++ []⟩ := by
  simp only [add_sentence_to_database_loop, hcond, if_true, hres]

/-- One iteration of the loop of `add_sentence_to_database` on a later word of a
sentence. -/
theorem sentence_loop_next (a : Allocations) (fuel : Nat) (word saved : List Char)
    (s : Loading) (i r : Nat) (q p : Ptr) (b : Bool) (st1 st2 : State String)
    (hcond : s.words_to_read > 0 ∨ s.words_to_read = READ_ALL_WORDS)
    (hres : add_to_database s.st (String.mk word) (a.db_ok s.calls) (a.node_ok s.calls)
      (a.add_ok s.calls) = .ok (some r, st1))
    (hi : (registry st1)[i]? = some ⟨q⟩) (hr : (registry st1)[r]? = some ⟨p⟩)
    (hlink : add_node_to_frequencies_list_at st1 q p (a.table s.calls) = .ok (b, st2)) :
    add_sentence_to_database_loop a (fuel + 1) (some (word, saved)) (some i) s =
      add_sentence_to_database_loop a fuel (strtok saved ' ') (some r)
        ⟨st2, if s.words_to_read ≠ READ_ALL_WORDS then s.words_to_read - 1
          else s.words_to_read, s.calls + 1,
          s.passed ++ [.word (String.mk word)] ++ [.link q p]⟩ := by
  simp only [add_sentence_to_database_loop, hcond, if_true, hres, hi, hr, hlink]


theorem quota_cons (words_to_read : Int) (w : String) (rest : List String)
    (hcond : words_to_read > 0 ∨ words_to_read = READ_ALL_WORDS) :
    (w :: rest).take (quota words_to_read (w :: rest).length) =
      w :: rest.take (quota (if words_to_read ≠ READ_ALL_WORDS then words_to_read - 1
        else words_to_read) rest.length) := by
  by_cases h : words_to_read = READ_ALL_WORDS
  · simp [quota, h]
  · have hpos : words_to_read > 0 := by
      rcases hcond with h1 | h1
      · exact h1
      · exact absurd h1 h
    have h1 : words_to_read - 1 ≠ READ_ALL_WORDS := by
      simp only [READ_ALL_WORDS]; omega
    have h2 : words_to_read.toNat = (words_to_read - 1).toNat + 1 := by omega
    simp only [quota, h, h1, if_false, ne_eq, not_false_eq_true, if_true]
    rw [h2, List.take_succ_cons]

theorem chain_events_cons (prevp : Option Ptr) (w : String) (p : Ptr)
    (rest : List (String × Ptr)) :
    chain_events prevp ((w, p) :: rest) =
      [Passed.word w] ++ (match prevp with
        | none => []
        | some q => [Passed.link q p]) ++ chain_events (some p) rest := by
  cases prevp <;> rfl

/-- The loop of `add_sentence_to_database` on the text of the words `ws`, after a
previous word held by the cell `prev` pointing to `prevp`: it returns `false`,
having passed the first words of `ws` up to the quota, each followed by the
link from the node of the word before it. -/
theorem sentence_loop (a : Allocations) (hdb : ∀ i, a.db_ok i = true)
    (hnode : ∀ i, a.node_ok i = true) (hadd : ∀ i, a.add_ok i = true)
    (ws : List String) (hws : ∀ w ∈ ws, word_ok w) (fuel : Nat) (hfuel : ws.length < fuel)
    (prev : Option Nat) (prevp : Option Ptr) (s : Loading) (hs : loader_ok s.st)
    (hprev : prev.map (fun i => (registry s.st)[i]?) = prevp.map (fun q => some ⟨q⟩)) :
    ∃ s1 nodes,
      add_sentence_to_database_loop a fuel (strtok (render_line ws) ' ') prev s
        = some (.ok (false, s1)) ∧
      loader_ok s1.st ∧
      nodes.map Prod.fst = ws.take (quota s.words_to_read ws.length) ∧
      s1.passed = s.passed ++ chain_events prevp nodes ∧
      s1.words_to_read = (if s.words_to_read = READ_ALL_WORDS then s.words_to_read
        else s.words_to_read - (nodes.length : Int)) ∧
      (∀ wp ∈ nodes, (⟨wp.2⟩ : Node) ∈ registry s1.st ∧
        stored s1.st.heap ⟨wp.2⟩ = some wp.1) ∧
      (∃ ext, registry s1.st = registry s.st ++ ext) ∧
      (∀ c ∈ registry s.st, stored s1.st.heap c = stored s.st.heap c) := by
  induction ws generalizing fuel prev prevp s with
  | nil =>
    obtain ⟨f, rfl⟩ : ∃ f, fuel = f + 1 := ⟨fuel - 1, by simp at hfuel; omega⟩
    refine ⟨s, [], ?_, hs, by simp, ?_, by simp, by simp, ⟨[], by simp⟩, fun _ _ => rfl⟩
    · simp only [render_line, strtok_nil, add_sentence_to_database_loop]
    · cases prevp <;> simp [chain_events]
  | cons w rest ih =>
    obtain ⟨f, rfl⟩ : ∃ f, fuel = f + 1 := ⟨fuel - 1, by simp at hfuel; omega⟩
    simp only [List.mem_cons, forall_eq_or_imp] at hws
    rw [strtok_render_line w rest hws.1]
    by_cases hcond : s.words_to_read > 0 ∨ s.words_to_read = READ_ALL_WORDS
    · obtain ⟨r, st1, p, hres, hr, hp, hl1, ⟨ext1, hext1⟩, hst1⟩ := add_word s.st w hs
      have hres1 : add_to_database s.st (String.mk w.data) (a.db_ok s.calls)
          (a.node_ok s.calls) (a.add_ok s.calls) = .ok (some r, st1) := by
        rw [hdb, hnode, hadd]; exact hres
      have hpmem : (⟨p⟩ : Node) ∈ registry st1 := List.getElem?_mem hr
      -- the state after the link, if any
      have hlink : ∃ st2, loader_ok st2 ∧ registry st2 = registry st1 ∧
          (∀ c ∈ registry st1, stored st2.heap c = stored st1.heap c) ∧
          add_sentence_to_database_loop a (f + 1) (some (w.data, render_line rest)) prev s =
            add_sentence_to_database_loop a f (strtok (render_line rest) ' ') (some r)
              ⟨st2, if s.words_to_read ≠ READ_ALL_WORDS then s.words_to_read - 1
                else s.words_to_read, s.calls + 1,
                s.passed ++ [.word w] ++ (match prevp with
                  | none => []
                  | some q => [Passed.link q p])⟩ := by
        cases prev with
        | none =>
          cases prevp with
          | some q => simp at hprev
          | none =>
            exact ⟨st1, hl1, rfl, fun _ _ => rfl,
              sentence_loop_first a f w.data (render_line rest) s r st1 hcond hres1⟩
        | some i =>
          cases prevp with
          | none => simp at hprev
          | some q =>
            simp only [Option.map_some', Option.some.injEq] at hprev
            have hi : (registry st1)[i]? = some ⟨q⟩ := by
              have hlt : i < (registry s.st).length := by
                by_contra hc
                rw [List.getElem?_eq_none (not_lt.mp hc)] at hprev
                cases hprev
              rw [hext1, List.getElem?_append_left hlt]
              exact hprev
            obtain ⟨b, st2, hl, hl2, hreg2, hst2⟩ := link_word st1 q p (a.table s.calls) hl1
              (List.getElem?_mem hi)
            exact ⟨st2, hl2, hreg2, hst2,
              sentence_loop_next a f w.data (render_line rest) s i r q p b st1 st2 hcond hres1
                hi hr hl⟩
      obtain ⟨st2, hl2, hreg2, hst2, heq⟩ := hlink
      rw [heq]
      obtain ⟨s1, nodes, h1, h2, h3, h4, h5, h6, ⟨ext3, h7⟩, h8⟩ := ih hws.2 f
        (by simp at hfuel; omega) (some r) (some p)
        ⟨st2, if s.words_to_read ≠ READ_ALL_WORDS then s.words_to_read - 1
          else s.words_to_read, s.calls + 1,
          s.passed ++ [.word w] ++ (match prevp with
            | none => []
            | some q => [Passed.link q p])⟩ hl2
        (by simp only [Option.map_some', hreg2, hr])
      refine ⟨s1, (w, p) :: nodes, h1, h2, ?_, ?_, ?_, ?_, ?_, ?_⟩
      · rw [quota_cons _ _ _ hcond, List.map_cons, h3]
      · rw [h4, chain_events_cons]
        simp only [List.append_assoc]
      · rw [h5]
        simp only [List.length_cons, Nat.cast_add, Nat.cast_one]
        by_cases hra : s.words_to_read = READ_ALL_WORDS
        · simp [hra]
        · have hpos : s.words_to_read > 0 := by
            rcases hcond with h | h
            · exact h
            · exact absurd h hra
          have hne : s.words_to_read - 1 ≠ READ_ALL_WORDS := by
            simp only [READ_ALL_WORDS]; omega
          simp only [hra, hne, if_false, ne_eq, not_false_eq_true, if_true]
          omega
      · intro wp hwp
        rcases List.mem_cons.mp hwp with rfl | hwp
        · have hm2 : (⟨p⟩ : Node) ∈ registry st2 := by rw [hreg2]; exact hpmem
          refine ⟨by rw [h7]; exact List.mem_append_left _ hm2, ?_⟩
          rw [h8 _ hm2, hst2 _ hpmem]
          exact hp
        · exact h6 wp hwp
      · exact ⟨ext1 ++ ext3, by rw [h7]; simp only [hreg2, hext1, List.append_assoc]⟩
      · intro c hc
        have hc1 : c ∈ registry st1 := by rw [hext1]; exact List.mem_append_left _ hc
        have hc2 : c ∈ registry st2 := by rw [hreg2]; exact hc1
        rw [h8 c hc2, hst2 c hc1, hst1 c hc]
    · have hq : quota s.words_to_read (w :: rest).length = 0 := by
        have h1 : s.words_to_read ≠ READ_ALL_WORDS := fun h => hcond (Or.inr h)
        have h2 : ¬ s.words_to_read > 0 := fun h => hcond (Or.inl h)
        simp only [quota, h1, if_false]
        omega
      refine ⟨s, [], ?_, hs, by rw [hq]; rfl, ?_, by simp, by simp, ⟨[], by simp⟩,
        fun _ _ => rfl⟩
      · simp only [add_sentence_to_database_loop, hcond, if_false]
      · cases prevp <;> simp [chain_events]


theorem take_words_zero (corpus : List (List String)) :
    take_words 0 corpus = corpus.map (fun _ => []) := by
  induction corpus with
  | nil => rfl
  | cons l rest ih => simp [take_words, ih]

theorem processed_stop (words_to_read : Int) (corpus : List (List String))
    (hcond : ¬ (words_to_read > 0 ∨ words_to_read = READ_ALL_WORDS)) :
    processed words_to_read corpus = corpus.map (fun _ => []) := by
  have h1 : words_to_read ≠ READ_ALL_WORDS := fun h => hcond (Or.inr h)
  have h2 : words_to_read.toNat = 0 := by
    have : ¬ words_to_read > 0 := fun h => hcond (Or.inl h)
    omega
  simp only [processed, h1, if_false, h2, take_words_zero]

theorem processed_cons (words_to_read : Int) (l : List String) (rest : List (List String)) :
    processed words_to_read (l :: rest) =
      l.take (quota words_to_read l.length) ::
        processed (if words_to_read = READ_ALL_WORDS then words_to_read
          else words_to_read - ((l.take (quota words_to_read l.length)).length : Int)) rest := by
  by_cases h : words_to_read = READ_ALL_WORDS
  · simp [processed, quota, h]
  · have hlen : ((l.take words_to_read.toNat).length : Int)
        = min words_to_read.toNat l.length := by
      simp [List.length_take]
    have h1 : words_to_read - ((l.take words_to_read.toNat).length : Int) ≠ READ_ALL_WORDS := by
      rw [hlen]
      simp only [READ_ALL_WORDS] at h ⊢
      omega
    have h2 : (words_to_read - ((l.take words_to_read.toNat).length : Int)).toNat
        = words_to_read.toNat - l.length := by
      rw [hlen]
      omega
    simp only [processed, quota, h, if_false, h1, take_words, h2]

/-- An iteration of the loop of `fill_database` that reads a lone newline changes
nothing. -/
theorem fill_database_loop_skip (a : Allocations) (fuel : Nat) (fp : List Char) (s : Loading) :
    fill_database_loop a (fuel + 1 + 1) ('\n' :: fp) s = fill_database_loop a (fuel + 1) fp s := by
  have hg : fgets MAX_SENTENCE_LENGTH ('\n' :: fp) = some (['\n'], fp) := by
    simp [fgets, MAX_SENTENCE_LENGTH, fgets_loop]
  by_cases hcond : s.words_to_read > 0 ∨ s.words_to_read = READ_ALL_WORDS
  · have hs : add_sentence_to_database a [] s = some (.ok (false, s)) := by
      simp [add_sentence_to_database, strtok_nil, add_sentence_to_database_loop]
    rw [fill_database_loop]
    simp only [hg, hcond, if_true, List.getLast?_singleton, List.dropLast_single, hs]
  · rw [fill_database_loop, fill_database_loop]
    simp only [hg, hcond, if_false]
    cases fgets MAX_SENTENCE_LENGTH fp with
    | none => rfl
    | some x => rfl

theorem render_cons (l : List String) (rest : List (List String)) :
    render (l :: rest) = render_line l ++ '\n' :: render rest := rfl

/-- The loop of `fill_database` on the text of a corpus whose lines fit the
buffer: it returns `false`, having passed, line by line, the words to process,
each word after the first of its line followed by the link from the node of the
word before it. -/
theorem fill_database_loop_corpus (a : Allocations) (hdb : ∀ i, a.db_ok i = true)
    (hnode : ∀ i, a.node_ok i = true) (hadd : ∀ i, a.add_ok i = true)
    (corpus : List (List String))
    (hcorpus : ∀ l ∈ corpus, (∀ w ∈ l, word_ok w) ∧
      (render_line l).length < MAX_SENTENCE_LENGTH)
    (fuel : Nat) (hfuel : (render corpus).length < fuel) (s : Loading) (hs : loader_ok s.st) :
    ∃ (s1 : Loading) (nodes : List (List (String × Ptr))),
      fill_database_loop a fuel (render corpus) s = some (.ok (false, s1)) ∧
      loader_ok s1.st ∧
      nodes.map (fun l => l.map Prod.fst) = processed s.words_to_read corpus ∧
      s1.passed = s.passed ++ nodes.flatMap (chain_events none) ∧
      (∀ l ∈ nodes, ∀ wp ∈ l, (⟨wp.2⟩ : Node) ∈ registry s1.st ∧
        stored s1.st.heap ⟨wp.2⟩ = some wp.1) ∧
      (∃ ext, registry s1.st = registry s.st ++ ext) ∧
      (∀ c ∈ registry s.st, stored s1.st.heap c = stored s.st.heap c) := by
  induction corpus generalizing fuel s with
  | nil =>
    obtain ⟨f, rfl⟩ : ∃ f, fuel = f + 1 := ⟨fuel - 1, by omega⟩
    refine ⟨s, [], ?_, hs, ?_, by simp, by simp, ⟨[], by simp⟩, fun _ _ => rfl⟩
    · simp [fill_database_loop, render, fgets]
    · simp [processed, take_words]
  | cons l rest ih =>
    simp only [List.mem_cons, forall_eq_or_imp] at hcorpus
    obtain ⟨⟨hwords, hlen⟩, hrest⟩ := hcorpus
    have hnl := render_line_no_newline l hwords
    rw [render_cons] at hfuel ⊢
    simp only [List.length_append, List.length_cons] at hfuel
    by_cases hcond : s.words_to_read > 0 ∨ s.words_to_read = READ_ALL_WORDS
    · -- the sentence is processed
      obtain ⟨s1, nodes1, e1, hl1, e3, e4, e5, e6, ⟨ext1, e7⟩, e8⟩ :=
        sentence_loop a hdb hnode hadd l hwords ((render_line l).length + 1)
          (by have := render_line_length l hwords; omega) none none s hs rfl
      have hsent : add_sentence_to_database a (render_line l) s = some (.ok (false, s1)) := e1
      -- what is left to read after the sentence
      have hnext : ∃ f1, (render rest).length < f1 ∧
          fill_database_loop a fuel (render_line l ++ '\n' :: render rest) s =
            fill_database_loop a f1 (render rest) s1 := by
        have hne : render_line l ++ '\n' :: render rest ≠ [] := by simp
        by_cases hshort : (render_line l).length < MAX_SENTENCE_LENGTH - 1
        · obtain ⟨f, rfl⟩ : ∃ f, fuel = f + 1 := ⟨fuel - 1, by omega⟩
          have hg : fgets MAX_SENTENCE_LENGTH (render_line l ++ '\n' :: render rest)
              = some (render_line l ++ ['\n'], render rest) := by
            cases hx : render_line l ++ '\n' :: render rest with
            | nil => exact absurd hx hne
            | cons c cs =>
              simp only [fgets]
              rw [← hx, fgets_loop_line _ _ _ hnl hshort]
          refine ⟨f, by omega, ?_⟩
          have hlast1 : (render_line l ++ ['\n']).getLast? = some '\n' := by simp
          have hdl : (render_line l ++ ['\n']).dropLast = render_line l := by simp
          rw [fill_database_loop]
          simp only [hg, hcond, if_true, hlast1, hdl, hsent]
        · have hfull : (render_line l).length = MAX_SENTENCE_LENGTH - 1 := by omega
          obtain ⟨f, rfl⟩ : ∃ f, fuel = f + 1 + 1 := ⟨fuel - 2, by
            simp only [MAX_SENTENCE_LENGTH] at hfull; omega⟩
          have hg : fgets MAX_SENTENCE_LENGTH (render_line l ++ '\n' :: render rest)
              = some (render_line l, '\n' :: render rest) := by
            cases hx : render_line l ++ '\n' :: render rest with
            | nil => exact absurd hx hne
            | cons c cs =>
              simp only [fgets]
              rw [← hx, fgets_loop_full _ _ _ hnl hfull]
          have hlast : (render_line l).getLast? ≠ some '\n' := by
            intro h
            obtain ⟨ys, hys⟩ := List.getLast?_eq_some_iff.mp h
            rw [hys] at hnl
            simp at hnl
          refine ⟨f, by simp only [MAX_SENTENCE_LENGTH] at hfull; omega, ?_⟩
          rw [fill_database_loop]
          simp only [hg, hcond, if_true, hlast, if_false, hsent]
          by_cases hf0 : f = 0
          · simp only [MAX_SENTENCE_LENGTH] at hfull; omega
          · obtain ⟨g, rfl⟩ : ∃ g, f = g + 1 := ⟨f - 1, by omega⟩
            exact fill_database_loop_skip a g (render rest) s1
      obtain ⟨f1, hf1, hloop⟩ := hnext
      obtain ⟨s2, nodes2, g1, g2, g3, g4, g5, ⟨ext2, g6⟩, g7⟩ := ih hrest f1 hf1 s1 hl1
      refine ⟨s2, nodes1 :: nodes2, by rw [hloop]; exact g1, g2, ?_, ?_, ?_, ?_, ?_⟩
      · rw [processed_cons, List.map_cons, e3, g3, e5]
        have : nodes1.length = (l.take (quota s.words_to_read l.length)).length := by
          rw [← e3, List.length_map]
        rw [this]
      · rw [g4, e4]
        simp [List.flatMap_cons]
      · intro ln hln wp hwp
        rcases List.mem_cons.mp hln with rfl | hln
        · obtain ⟨m1, m2⟩ := e6 wp hwp
          exact ⟨by rw [g6]; exact List.mem_append_left _ m1, by rw [g7 _ m1]; exact m2⟩
        · exact g5 ln hln wp hwp
      · exact ⟨ext1 ++ ext2, by rw [g6, e7, List.append_assoc]⟩
      · intro c hc
        have hc1 : c ∈ registry s1.st := by rw [e7]; exact List.mem_append_left _ hc
        rw [g7 c hc1, e8 c hc]
    · -- the limit is reached: the loop ends
      obtain ⟨f, rfl⟩ : ∃ f, fuel = f + 1 := ⟨fuel - 1, by omega⟩
      refine ⟨s, (l :: rest).map (fun _ => []), ?_, hs, ?_, ?_, ?_, ⟨[], by simp⟩,
        fun _ _ => rfl⟩
      · rw [fill_database_loop]
        cases hg : fgets MAX_SENTENCE_LENGTH (render_line l ++ '\n' :: render rest) with
        | none => rfl
        | some x => simp only [hcond, if_false]
      · rw [processed_stop _ _ hcond]
        simp
      · have : ∀ (c : List (List String)),
            (c.map (fun _ => ([] : List (String × Ptr)))).flatMap (chain_events none) = [] := by
          intro c
          induction c with
          | nil => rfl
          | cons x xs ihx => simp [List.flatMap_cons, chain_events]
        rw [this]; simp
      · intro ln hln wp hwp
        obtain ⟨_, _, rfl⟩ := List.mem_map.mp hln
        cases hwp


theorem words_of_append (xs ys : List Passed) :
    words_of (xs ++ ys) = words_of xs ++ words_of ys := by
  induction xs with
  | nil => rfl
  | cons x xs ih =>
    cases x with
    | word w => simp [words_of, ih]
    | link p q => simp [words_of, ih]

theorem words_of_chain_events (prevp : Option Ptr) (nodes : List (String × Ptr)) :
    words_of (chain_events prevp nodes) = nodes.map Prod.fst := by
  induction nodes generalizing prevp with
  | nil => cases prevp <;> rfl
  | cons wp rest ih =>
    obtain ⟨w, p⟩ := wp
    cases prevp with
    | none => simp [chain_events, words_of, ih]
    | some q => simp [chain_events, words_of, ih]

theorem words_of_lines (nodes : List (List (String × Ptr))) :
    words_of (nodes.flatMap (chain_events none)) = (nodes.map (fun l => l.map Prod.fst)).flatten := by
  induction nodes with
  | nil => rfl
  | cons l rest ih =>
    simp [List.flatMap_cons, words_of_append, words_of_chain_events, ih]

theorem take_words_flatten (k : Nat) (corpus : List (List String)) :
    (take_words k corpus).flatten = corpus.flatten.take k := by
  induction corpus generalizing k with
  | nil => simp [take_words]
  | cons l rest ih =>
    simp only [take_words, List.flatten_cons, ih, List.take_append_eq_append_take]

theorem loader_ok_fresh : loader_ok (⟨[], markov_chain⟩ : State String) := by
  refine ⟨?_, ?_, rfl, rfl⟩
  · intro c hc; simp [registry, markov_chain] at hc
  · simp [registry_unique, registry, markov_chain]

/-- The word limit of the loader on a corpus whose lines are read whole by
`fgets`: take lines of words that are not empty and hold neither
space nor newline, each line of at most 999 characters, written one per line
with single spaces, and let every allocation of `add_to_database` succeed.
Then `fill_database` returns `false`; what it passes to the engine is, line by
line, the words to process (all of them for `READ_ALL_WORDS`, the first
`words_to_read` words otherwise), in order, and after every word but the first
of its line the link from the node of the word before it to its own node, each
of these nodes holding its word; no link joins two lines. The words passed to
`add_to_database` are the first `words_to_read` words of the corpus when
`words_to_read > 0`, and all its words for `READ_ALL_WORDS`. -/
theorem fill_database_word_limit (a : Allocations) (hdb : ∀ i, a.db_ok i = true)
    (hnode : ∀ i, a.node_ok i = true) (hadd : ∀ i, a.add_ok i = true)
    (corpus : List (List String))
    (hcorpus : ∀ l ∈ corpus, (∀ w ∈ l, word_ok w) ∧
      (render_line l).length < MAX_SENTENCE_LENGTH)
    (words_to_read : Int) (st : State String) (hst : loader_ok st) :
    ∃ (s : Loading) (nodes : List (List (String × Ptr))),
      fill_database a (render corpus) words_to_read st = some (.ok (false, s)) ∧
      nodes.map (fun l => l.map Prod.fst) = processed words_to_read corpus ∧
      s.passed = nodes.flatMap (chain_events none) ∧
      (∀ l ∈ nodes, ∀ wp ∈ l, (⟨wp.2⟩ : Node) ∈ registry s.st ∧
        stored s.st.heap ⟨wp.2⟩ = some wp.1) ∧
      (0 < words_to_read → words_of s.passed = corpus.flatten.take words_to_read.toNat) ∧
      (words_to_read = READ_ALL_WORDS → words_of s.passed = corpus.flatten) := by
  obtain ⟨s, nodes, h1, _, h3, h4, h5, _, _⟩ := fill_database_loop_corpus a hdb hnode hadd
    corpus hcorpus ((render corpus).length + 1) (Nat.lt_succ_self _) ⟨st, words_to_read, 0, []⟩
    hst
  simp only [List.nil_append] at h4
  refine ⟨s, nodes, h1, h3, h4, h5, ?_, ?_⟩
  · intro hpos
    have hne : words_to_read ≠ READ_ALL_WORDS := by
      simp only [READ_ALL_WORDS]; omega
    rw [h4, words_of_lines, h3]
    simp only [processed, hne, if_false, take_words_flatten]
  · intro hall
    rw [h4, words_of_lines, h3]
    simp only [processed, hall, if_true]

theorem fill_database_word_limit_witness :
    (∀ l ∈ [["hello", "world."], ["bye."]], (∀ w ∈ l, word_ok w) ∧
      (render_line l).length < MAX_SENTENCE_LENGTH) ∧
    loader_ok (⟨[], markov_chain⟩ : State String) ∧
    ∃ s, fill_database (all_succeed ⟨none, 0⟩) (render [["hello", "world."], ["bye."]]) 2
        ⟨[], markov_chain⟩ = some (.ok (false, s)) ∧
      words_of s.passed = ["hello", "world."] :=
  ⟨by simp [word_ok, render_line, MAX_SENTENCE_LENGTH], loader_ok_fresh,
    by
      obtain ⟨s, _, h1, _, _, _, h2, _⟩ := fill_database_word_limit (all_succeed ⟨none, 0⟩)
        (fun _ => rfl) (fun _ => rfl) (fun _ => rfl) [["hello", "world."], ["bye."]]
        (by simp [word_ok, render_line, MAX_SENTENCE_LENGTH]) 2 ⟨[], markov_chain⟩
        loader_ok_fresh
      exact ⟨s, h1, h2 (by decide)⟩⟩

set_option maxRecDepth 1000000 in
set_option maxHeartbeats 4000000 in
/-- C23. Word limit of the tweet corpus loader, evaluated on a line of
`MAX_SENTENCE_LENGTH` = 1000 characters, the word `hi` and a word of 997
letters, read with `READ_ALL_WORDS`: `fgets` stores 999 characters, so that
`fill_database` returns `false` having passed three words to `add_to_database`,
`hi`, a word of 996 letters and, as a sentence of its own, the word `a`. The
chain holds these three words, `hi` linked to the word of 996 letters; the word
of 997 letters of the corpus is not in it. -/
theorem fill_database_cuts_long_line :
    (render_line ["hi", String.mk (List.replicate 997 'a')]).length = MAX_SENTENCE_LENGTH ∧
    completed (fill_database (all_succeed ⟨none, 0⟩) (render long_corpus) READ_ALL_WORDS
      ⟨[], markov_chain⟩) = true ∧
    words_of (passed_of (fill_database (all_succeed ⟨none, 0⟩) (render long_corpus)
      READ_ALL_WORDS ⟨[], markov_chain⟩))
      = ["hi", String.mk (List.replicate 996 'a'), "a"] ∧
    nodes_of (fill_database (all_succeed ⟨none, 0⟩) (render long_corpus) READ_ALL_WORDS
      ⟨[], markov_chain⟩)
      = [(some "hi", [⟨some 1, 1⟩]), (some (String.mk (List.replicate 996 'a')), []),
          (some "a", [])] ∧
    words_of (passed_of (fill_database (all_succeed ⟨none, 0⟩) (render long_corpus)
      READ_ALL_WORDS ⟨[], markov_chain⟩)) ≠ long_corpus.flatten := by
  decide

end TweetsGenerator

end Markov
